import Mathlib

/-!
# Holpaca: cache agent, orchestrator and controllers

A shallow embedding of the control path of Holpaca
(`holpaca/data-plane/CacheAllocator.cpp`, `holpaca/control-plane/Orchestrator.cpp`,
`holpaca/control-plane/algorithms/*.cpp`) together with the properties proved about it.

Conventions of the embedding.

* `uint64_t` / `size_t` values are natural numbers; every conversion to or from a
  signed 64-bit integer is written out (`toInt64`, `wrapInt64`, `toUInt64`).
* The slab engine (CacheLib) is external to the repository: the agent only
  consumes `getPool(id).getPoolSize()`, `shrinkPool` and `growPool`.  The pool size
  read by `Resize` is a parameter, and the calls it issues are returned as a trace.
* `std::unordered_map` and protobuf maps are association lists holding each key once;
  the order of the list is the iteration order of the container.
-/

namespace Holpaca

/-! ## Machine integers -/

/-- Value of `static_cast<int64_t>(n)` for a 64-bit unsigned `n`. -/
def toInt64 (n : Nat) : Int :=
  if n % 2 ^ 64 < 2 ^ 63 then ((n % 2 ^ 64 : Nat) : Int) else ((n % 2 ^ 64 : Nat) : Int) - 2 ^ 64

/-- Value kept by an `int64_t` when the exact result of an operation is `z`
(two's complement wrap-around). -/
def wrapInt64 (z : Int) : Int := (z + 2 ^ 63) % 2 ^ 64 - 2 ^ 63

/-- Value of an `int64_t` converted to `size_t` / `uint64_t`. -/
def toUInt64 (z : Int) : Nat := (z % 2 ^ 64).toNat

/-! ## Data-plane agent: `CacheAllocator::Resize` -/

/-- Pool identifier (`facebook::cachelib::PoolId`). -/
abbrev PoolId := Nat

/-- The gRPC status returned by a handler. -/
inductive Status
  | OK
  | Error
  deriving DecidableEq, Repr

/-- A call issued to the engine by `Resize`. -/
inductive PoolOp
  | shrinkPool (id : PoolId) (bytes : Nat)
  | growPool (id : PoolId) (bytes : Nat)
  deriving DecidableEq, Repr

/-- The `poolsizes` field of a `ResizeRequest`: pool id and target size, in the
order in which the map is iterated. -/
abbrev PoolSizes := List (PoolId × Nat)

/-- First loop of `Resize`: the relative size of every pool whose target differs
from its size in the engine. -/
def relSizes (getPoolSize : PoolId → Nat) (poolsizes : PoolSizes) : List (PoolId × Int) :=
  poolsizes.filterMap fun e =>
    let originalSize := getPoolSize e.1
    if e.2 ≠ originalSize then
      some (e.1, wrapInt64 (toInt64 e.2 - toInt64 originalSize))
    else none

/-- Order in which `std::sort` leaves two entries: by relative size. -/
def relLE (a b : PoolId × Int) : Prop := a.2 ≤ b.2

instance : DecidableRel relLE := fun a b => inferInstanceAs (Decidable (a.2 ≤ b.2))

instance : IsTotal (PoolId × Int) relLE := ⟨fun a b => le_total a.2 b.2⟩

instance : IsTrans (PoolId × Int) relLE := ⟨fun _ _ _ h₁ h₂ => le_trans h₁ h₂⟩

/-- The call of `std::sort` in `Resize`. -/
def sortedRelSizes (l : List (PoolId × Int)) : List (PoolId × Int) :=
  l.insertionSort relLE

/-- Body of the second loop of `Resize`: the engine call made for one entry. -/
def resizeOp (e : PoolId × Int) : PoolOp :=
  if e.2 < 0 then PoolOp.shrinkPool e.1 (toUInt64 (wrapInt64 (-e.2)))
  else PoolOp.growPool e.1 (toUInt64 e.2)

/-- `CacheAllocator::Resize`: the engine calls it makes, in order, and the status
it returns. -/
def Resize (getPoolSize : PoolId → Nat) (poolsizes : PoolSizes) : List PoolOp × Status :=
  ((sortedRelSizes (relSizes getPoolSize poolsizes)).map resizeOp, Status.OK)

/-- An engine call that shrinks. -/
def PoolOp.isShrink : PoolOp → Bool
  | PoolOp.shrinkPool _ _ => true
  | PoolOp.growPool _ _ => false

/-- The deltas of the specification, `target - current` for each requested pool,
without the pools whose delta is 0. -/
def exactDeltas (current : PoolId → Nat) (poolsizes : PoolSizes) : List (PoolId × Int) :=
  (poolsizes.map fun e => (e.1, (e.2 : Int) - (current e.1 : Int))).filter
    fun d => decide (d.2 ≠ 0)

/-- The operation the specification prescribes for a delta: `shrinkPool(id, -delta)`
when it is negative, `growPool(id, delta)` otherwise. -/
def ruleOp (d : PoolId × Int) : PoolOp :=
  if d.2 < 0 then PoolOp.shrinkPool d.1 (-d.2).toNat else PoolOp.growPool d.1 d.2.toNat

/-- The ordering rule of the specification: `ops` realises the deltas
`target - current` of the request, zero deltas left out, in ascending order, a
negative delta as a shrink by its magnitude and a positive one as a grow. -/
def FollowsOrderingRule (current : PoolId → Nat) (poolsizes : PoolSizes)
    (ops : List PoolOp) : Prop :=
  ∃ deltas : List (PoolId × Int),
    deltas.Perm (exactDeltas current poolsizes) ∧
    deltas.Sorted relLE ∧
    ops = deltas.map ruleOp

/-- No shrink comes after a grow. -/
def ShrinksBeforeGrows (ops : List PoolOp) : Prop :=
  ops.Pairwise fun a b => b.isShrink = true → a.isShrink = true

/-! ## The pools of one cache under the engine calls

The engine itself is not part of the repository.  Its effect is the one the
specification gives to `shrinkPool` and `growPool`: the call changes the size of its
pool by exactly the requested number of bytes. -/

/-- The pools of one cache instance: pool id and pool size, each id once. -/
abbrev Pools := List (PoolId × Nat)

/-- `getPool(id).getPoolSize()` on the pools of a cache. -/
def poolSize (pools : Pools) (id : PoolId) : Nat := (pools.lookup id).getD 0

/-- Effect of one engine call on the pools. -/
def applyOp (pools : Pools) : PoolOp → Pools
  | PoolOp.shrinkPool id bytes => pools.map fun p => if p.1 = id then (p.1, p.2 - bytes) else p
  | PoolOp.growPool id bytes => pools.map fun p => if p.1 = id then (p.1, p.2 + bytes) else p

/-- Effect of a sequence of engine calls. -/
def applyOps (pools : Pools) (ops : List PoolOp) : Pools := ops.foldl applyOp pools

/-- Sum of the pool sizes of a cache. -/
def totalSize (pools : Pools) : Nat := (pools.map Prod.snd).sum

/-- After every prefix of `ops` the pool sizes sum to at most `maxSize`. -/
def StaysWithinCapacity (maxSize : Nat) (pools : Pools) (ops : List PoolOp) : Prop :=
  ∀ k, totalSize (applyOps pools (ops.take k)) ≤ maxSize

/-! ## Control plane: `ProxyManager` data -/

/-- Cache name: the network address of the agent. -/
abbrev Address := String

/-- `ProxyManager::PoolStatus`.  The `double` and `float` fields are rationals. -/
structure PoolStatus where
  m_maxSize : Nat
  m_usedSize : Nat
  m_diskIOPS : Nat
  m_throughput : Nat
  m_missRatio : ℚ
  m_qosLevel : ℚ
  m_proportion : ℚ
  m_MRC : List (Nat × ℚ)
  deriving DecidableEq

/-- `ProxyManager::CacheStatus`; `m_pools` in iteration order. -/
structure CacheStatus where
  m_maxSize : Nat
  m_proportion : ℚ
  m_pools : List (PoolId × PoolStatus)
  deriving DecidableEq

/-- `ProxyManager::PoolResize`. -/
structure PoolResize where
  m_kId : PoolId
  m_kSize : Nat
  deriving DecidableEq, Repr

/-- `ProxyManager::CacheResize`. -/
structure CacheResize where
  m_kName : Address
  m_kPoolResizes : List PoolResize
  deriving DecidableEq, Repr

/-- The statuses returned by `getStatus`, keyed by cache name. -/
abbrev CacheStatuses := AList fun _ : Address => CacheStatus

/-- The statuses in the order in which the map is iterated. -/
def statusList (caches : CacheStatuses) : List (Address × CacheStatus) :=
  caches.entries.map fun e => (e.1, e.2)

/-! ## Control plane: `Orchestrator` -/

/-- An `AgentRPC::Stub`, made by `AgentRPC::NewStub` over a channel to `target`. -/
structure Stub where
  target : Address
  deriving DecidableEq, Repr

/-- The member `m_proxies`: cache address to `shared_ptr<AgentRPC::Stub>`, where
`none` is a null pointer. -/
abbrev ProxyMap := AList fun _ : Address => Option Stub

/-- The orchestrator, reduced to the state its RPC handlers and the controller use. -/
structure Orchestrator where
  m_proxies : ProxyMap

/-- `Orchestrator::Connect`. -/
def Orchestrator.Connect (o : Orchestrator) (cacheaddress : Address) : Orchestrator × Status :=
  (⟨o.m_proxies.insert cacheaddress (some ⟨cacheaddress⟩)⟩, Status.OK)

/-- `Orchestrator::Disconnect`. -/
def Orchestrator.Disconnect (o : Orchestrator) (cacheaddress : Address) :
    Orchestrator × Status :=
  (⟨o.m_proxies.erase cacheaddress⟩, Status.OK)

/-- What a `GetStatus` RPC leaves behind: the status of the call and the contents of
the response object (for a failed call, whatever the object holds). -/
structure GetStatusOutcome where
  status : Status
  cachestatus : CacheStatus

/-- Loop of `Orchestrator::getStatus` over the proxies: the call is made, its status
is not looked at, and the entry of the peer is written from the response.  `none`
when a null stub is dereferenced. -/
def getStatusLoop (rpc : Stub → GetStatusOutcome) :
    List (Sigma fun _ : Address => Option Stub) → CacheStatuses → Option CacheStatuses
  | [], cacheStatus => some cacheStatus
  | ⟨_, none⟩ :: _, _ => none
  | ⟨peer, some proxy⟩ :: rest, cacheStatus =>
    getStatusLoop rpc rest (cacheStatus.insert peer (rpc proxy).cachestatus)

/-- `Orchestrator::getStatus`: the map returned and the orchestrator afterwards. -/
def Orchestrator.getStatus (o : Orchestrator) (rpc : Stub → GetStatusOutcome) :
    Option CacheStatuses × Orchestrator :=
  (getStatusLoop rpc o.m_proxies.entries ∅, o)

/-- Insert-or-assign into the `poolsizes` map of a request. -/
def setPoolSize : PoolSizes → PoolId → Nat → PoolSizes
  | [], id, size => [(id, size)]
  | e :: rest, id, size =>
    if e.1 = id then (id, size) :: rest else e :: setPoolSize rest id size

/-- The `ResizeRequest` built by `Orchestrator::resize` for one `CacheResize`. -/
def resizeRequest (resizeOp : CacheResize) : PoolSizes :=
  resizeOp.m_kPoolResizes.foldl (fun sizes poolResize =>
    setPoolSize sizes poolResize.m_kId poolResize.m_kSize) []

/-- A `Resize` RPC sent through a stub. -/
structure ResizeCall where
  stub : Stub
  poolsizes : PoolSizes
  deriving DecidableEq, Repr

/-- Outcome of `Orchestrator::resize`: the proxy map afterwards, the RPCs sent, in
order, and whether a null stub was dereferenced. -/
structure ResizeRun where
  proxies : ProxyMap
  sent : List ResizeCall
  nullDeref : Bool

/-- Loop of `Orchestrator::resize`.  `m_proxies[name]` inserts a null stub when `name`
is not a key. -/
def resizeLoop : List CacheResize → ProxyMap → List ResizeCall → ResizeRun
  | [], proxies, sent => ⟨proxies, sent, false⟩
  | resizeOp :: rest, proxies, sent =>
    match proxies.lookup resizeOp.m_kName with
    | some (some proxy) =>
      resizeLoop rest proxies (sent ++ [⟨proxy, resizeRequest resizeOp⟩])
    | some none => ⟨proxies, sent, true⟩
    | none => ⟨proxies.insert resizeOp.m_kName none, sent, true⟩

/-- `Orchestrator::resize`. -/
def Orchestrator.resize (o : Orchestrator) (cacheResize : List CacheResize) : ResizeRun :=
  if cacheResize.length ≠ o.m_proxies.entries.length then ⟨o.m_proxies, [], false⟩
  else resizeLoop cacheResize o.m_proxies []

/-- The agents behind the proxies: the pools of the cache served at each address. -/
abbrev Agents := Address → Pools

/-- A delivered `Resize` RPC: the agent at the target of the stub runs `Resize` on
its pools. -/
def deliver (agents : Agents) (call : ResizeCall) : Agents :=
  fun a =>
    if a = call.stub.target then
      applyOps (agents a) (Resize (poolSize (agents a)) call.poolsizes).1
    else agents a

/-- The agents after the RPCs of a run have been delivered. -/
def deliverAll (agents : Agents) (calls : List ResizeCall) : Agents :=
  calls.foldl deliver agents

/-- A call on the orchestrator: one of its two RPC handlers, or one of the two
`ProxyManager` operations used by the controller. -/
inductive OrchestratorCall
  | Connect (cacheaddress : Address)
  | Disconnect (cacheaddress : Address)
  | getStatus (rpc : Stub → GetStatusOutcome)
  | resize (cacheResize : List CacheResize)

/-- The orchestrator after a call. -/
def Orchestrator.call (o : Orchestrator) : OrchestratorCall → Orchestrator
  | OrchestratorCall.Connect a => (o.Connect a).1
  | OrchestratorCall.Disconnect a => (o.Disconnect a).1
  | OrchestratorCall.getStatus rpc => (o.getStatus rpc).2
  | OrchestratorCall.resize plan => ⟨(o.resize plan).proxies⟩

/-- The orchestrator after a sequence of calls. -/
def Orchestrator.calls (o : Orchestrator) (cs : List OrchestratorCall) : Orchestrator :=
  cs.foldl Orchestrator.call o

/-- The addresses that have been connected and not subsequently disconnected by a
sequence of calls. -/
def connectedAddresses (cs : List OrchestratorCall) : List Address :=
  cs.foldl (fun live c =>
    match c with
    | OrchestratorCall.Connect a => a :: live.filter (fun b => b ≠ a)
    | OrchestratorCall.Disconnect a => live.filter (fun b => b ≠ a)
    | _ => live) []

/-- The reading of `getStatus` in the specification: the result has an entry for an
address exactly when the `GetStatus` RPC of its proxy succeeded. -/
def DropsFailedProxies (o : Orchestrator) (rpc : Stub → GetStatusOutcome) : Prop :=
  ∃ r, (o.getStatus rpc).1 = some r ∧
    ∀ a, a ∈ r ↔ ∃ proxy, o.m_proxies.lookup a = some (some proxy) ∧
      (rpc proxy).status = Status.OK

/-! ## Control plane: `Motivation`

A `double` is a rational number, or `none` for an infinity or a NaN; rounding is not
modelled. -/

/-- Division of two doubles: by zero it gives an infinity or a NaN. -/
def doubleDiv (a b : ℚ) : Option ℚ := if b = 0 then none else some (a / b)

/-- `static_cast<uint64_t>(x)` for a double `x`: the value without its fraction when
that fits; otherwise the conversion is undefined, and `ub x` stands for the 64 bits it
produces. -/
def doubleToUInt64 (ub : Option ℚ → Nat) (x : Option ℚ) : Nat :=
  match x with
  | some q => if -1 < q ∧ q < 2 ^ 64 then ⌊q⌋.toNat else ub x % 2 ^ 64
  | none => ub x % 2 ^ 64

/-- First loop of `Motivation::loop`: the normalisation factor `sum`. -/
def Motivation.sum (caches : List (Address × CacheStatus)) : ℚ :=
  caches.foldl (fun sum c =>
    c.2.m_pools.foldl (fun sum p => sum + p.2.m_proportion * c.2.m_proportion) sum) 0

/-- First loop of `Motivation::loop`: `int64_t totalSize`, to which each `uint64_t`
capacity is added. -/
def Motivation.totalSize (caches : List (Address × CacheStatus)) : Int :=
  caches.foldl (fun totalSize c => toInt64 (toUInt64 totalSize + c.2.m_maxSize)) 0

/-- Second loop of `Motivation::loop`: the size given to a pool of a cache. -/
def Motivation.target (ub : Option ℚ → Nat) (caches : List (Address × CacheStatus))
    (c : Address × CacheStatus) (p : PoolId × PoolStatus) : Nat :=
  doubleToUInt64 ub
    (doubleDiv ((Motivation.totalSize caches : ℚ) * p.2.m_proportion * c.2.m_proportion)
      (Motivation.sum caches))

/-- Second loop of `Motivation::loop`: the plan handed to `resize`. -/
def Motivation.plan (ub : Option ℚ → Nat) (caches : List (Address × CacheStatus)) :
    List CacheResize :=
  caches.map fun c =>
    { m_kName := c.1
      m_kPoolResizes := c.2.m_pools.map fun p =>
        { m_kId := p.1, m_kSize := Motivation.target ub caches c p } }

/-- `Motivation::loop` on an orchestrator: `getStatus`, the plan, `resize`.  `none`
when `getStatus` dereferences a null stub. -/
def Motivation.loop (ub : Option ℚ → Nat) (o : Orchestrator) (rpc : Stub → GetStatusOutcome) :
    Option ResizeRun :=
  match (o.getStatus rpc).1 with
  | none => none
  | some caches => some (o.resize (Motivation.plan ub (statusList caches)))

/-- The total `T` of the specification: the sum of the capacities of the caches. -/
def totalCapacity (caches : List (Address × CacheStatus)) : Nat :=
  (caches.map fun c => c.2.m_maxSize).sum

/-- The normalisation `S` of the specification: the sum over all pools of
`cache.proportion * pool.proportion`. -/
def proportionSum (caches : List (Address × CacheStatus)) : ℚ :=
  (caches.map fun c => (c.2.m_pools.map fun p => c.2.m_proportion * p.2.m_proportion).sum).sum

/-- Value of a `uint64_t` assigned to an `int`. -/
def toInt32 (n : Nat) : Int :=
  if n % 2 ^ 32 < 2 ^ 31 then ((n % 2 ^ 32 : Nat) : Int) else ((n % 2 ^ 32 : Nat) : Int) - 2 ^ 32

/-- Value of a double assigned to a `uint32_t`; see `doubleToUInt64`. -/
def doubleToUInt32 (ub : Option ℚ → Nat) (x : Option ℚ) : Nat :=
  match x with
  | some q => if -1 < q ∧ q < 2 ^ 32 then ⌊q⌋.toNat else ub x % 2 ^ 32
  | none => ub x % 2 ^ 32

/-- A `tk::spline`, known by the value it takes at each point. -/
abbrev Spline := ℚ → ℚ

/-- `PerformanceMaximization::PoolAvgMetrics`. -/
structure PoolAvgMetrics where
  m_missRatio : ℚ
  m_diskIOPS : Nat
  m_throughput : Nat

/-- The member `m_poolAvgMetricsHistory`, by cache and pool. -/
abbrev MetricsHistory := Address → PoolId → Option PoolAvgMetrics

/-- The members of `PerformanceMaximization` read by `loop`. -/
structure PerformanceMaximization where
  m_kDelta : ℚ
  m_kFakeEnforce : Bool
  m_poolAvgMetricsHistory : MetricsHistory

namespace PerformanceMaximization

/-- Minimum MRC length for a pool to be optimised. -/
def m_kMRCMinLength : Nat := 3

/-- Margin of the QoS test. -/
def m_kQoSMargin : ℚ := 1 / 10

/-- Parameter of the moving average. -/
def m_kMovingAverageParam : ℚ := 3 / 10

/-- Step 1 for one pool: the entry of the history is created from the observation when
missing, then each field is averaged with the observation. -/
def updatePoolAvg (ub : Option ℚ → Nat) (history : MetricsHistory) (cacheId : Address)
    (poolId : PoolId) (poolStatus : PoolStatus) : MetricsHistory :=
  let poolAvg : PoolAvgMetrics := (history cacheId poolId).getD
    ⟨poolStatus.m_missRatio, poolStatus.m_diskIOPS, poolStatus.m_throughput⟩
  let updated : PoolAvgMetrics :=
    { m_diskIOPS := doubleToUInt32 ub (some ((poolAvg.m_diskIOPS : ℚ) * m_kMovingAverageParam +
        (poolStatus.m_diskIOPS : ℚ) * (1 - m_kMovingAverageParam)))
      m_missRatio := poolAvg.m_missRatio * m_kMovingAverageParam +
        poolStatus.m_missRatio * (1 - m_kMovingAverageParam)
      m_throughput := doubleToUInt32 ub (some ((poolAvg.m_throughput : ℚ) * m_kMovingAverageParam +
        (poolStatus.m_throughput : ℚ) * (1 - m_kMovingAverageParam))) }
  fun c p => if c = cacheId ∧ p = poolId then some updated else history c p

/-- Step 1: the history after all observed pools have been visited. -/
def updateHistory (ub : Option ℚ → Nat) (history : MetricsHistory)
    (allCacheStatus : List (Address × CacheStatus)) : MetricsHistory :=
  allCacheStatus.foldl (fun h c =>
    c.2.m_pools.foldl (fun h p => updatePoolAvg ub h c.1 p.1 p.2) h) history

/-- Whether the MRC of a pool is shorter than `m_kMRCMinLength`. -/
def isNew (poolStatus : PoolStatus) : Bool :=
  decide (poolStatus.m_MRC.length < m_kMRCMinLength)

/-- The pools visited by the nested loops over `allCacheStatus`. -/
def observedPools (allCacheStatus : List (Address × CacheStatus)) : List PoolStatus :=
  allCacheStatus.flatMap fun c => c.2.m_pools.map Prod.snd

/-- `uint64_t totalSize` after Step 1. -/
def totalSize (allCacheStatus : List (Address × CacheStatus)) : Nat :=
  (allCacheStatus.map fun c => c.2.m_maxSize).sum % 2 ^ 64

/-- `int pools` after Step 1. -/
def pools (allCacheStatus : List (Address × CacheStatus)) : Nat :=
  (observedPools allCacheStatus).length

/-- `int newPools` after Step 1. -/
def newPools (allCacheStatus : List (Address × CacheStatus)) : Nat :=
  (observedPools allCacheStatus).countP isNew

/-- `uint64_t usedSpace` after Step 2. -/
def usedSpace (allCacheStatus : List (Address × CacheStatus)) : Nat :=
  (((observedPools allCacheStatus).filter fun p => !isNew p).map fun p => p.m_usedSize).sum %
    2 ^ 64

/-- The subexpression `newPools * totalSize / static_cast<double>(pools)`; the product
is a `uint64_t`. -/
def newPoolsShare (allCacheStatus : List (Address × CacheStatus)) : ℚ :=
  (((newPools allCacheStatus * totalSize allCacheStatus) % 2 ^ 64 : Nat) : ℚ) /
    (pools allCacheStatus : ℚ)

/-- `kAdjustmentFactor`. -/
def kAdjustmentFactor (allCacheStatus : List (Address × CacheStatus)) : ℚ :=
  if usedSpace allCacheStatus ≠ 0 then
    ((totalSize allCacheStatus : ℚ) - newPoolsShare allCacheStatus) /
      (usedSpace allCacheStatus : ℚ)
  else 0

/-- `kAdjustmentDelta`.  When `pools = newPools` the quotient is not finite in the
source; it is then never read, no pool having a usable MRC. -/
def kAdjustmentDelta (allCacheStatus : List (Address × CacheStatus)) : ℚ :=
  ((totalSize allCacheStatus : ℚ) - newPoolsShare allCacheStatus -
      kAdjustmentFactor allCacheStatus * (usedSpace allCacheStatus : ℚ)) /
    (((pools allCacheStatus : Int) - (newPools allCacheStatus : Int) : Int) : ℚ)

/-- The entry of `newPoolSizePerCache` written for a pool by Step 2 (short MRC) or
Step 3 (usable MRC). -/
def newPoolSize (ub : Option ℚ → Nat) (allCacheStatus : List (Address × CacheStatus))
    (poolStatus : PoolStatus) : Nat :=
  if isNew poolStatus then
    doubleToUInt64 ub (some ((totalSize allCacheStatus : ℚ) / (pools allCacheStatus : ℚ)))
  else
    doubleToUInt64 ub (some (max 0
      ((poolStatus.m_usedSize : ℚ) * kAdjustmentFactor allCacheStatus +
        kAdjustmentDelta allCacheStatus)))

end PerformanceMaximization

/-- `PerformanceMaximization::PoolConfig`. -/
structure PoolConfig where
  m_optimalSize : Nat
  m_lowerBound : Nat
  m_upperBound : Nat
  m_utilityCurve : Spline

/-- `PerformanceMaximization::CacheConfig`. -/
structure CacheConfig where
  m_poolConfigs : List (PoolId × PoolConfig)

/-- `PerformanceMaximization::Context`. -/
structure Context where
  m_cacheConfigs : List (Address × CacheConfig)

namespace PerformanceMaximization

/-- Step 4 for one pool with a usable MRC: its `PoolConfig`, or `none` when the
construction of a spline does not return. -/
def poolConfig (pm : PerformanceMaximization) (ub : Option ℚ → Nat)
    (fit : List ℚ → List ℚ → Option Spline) (allCacheStatus : List (Address × CacheStatus))
    (history : MetricsHistory) (cacheId : Address) (poolId : PoolId)
    (poolStatus : PoolStatus) : Option PoolConfig :=
  let kSize := newPoolSize ub allCacheStatus poolStatus
  let lowerBound := doubleToUInt64 ub
    (some (max 0 ((kSize : ℚ) - (totalSize allCacheStatus : ℚ) * pm.m_kDelta)))
  let avg : PoolAvgMetrics := (history cacheId poolId).getD ⟨1, 0, 0⟩
  let kAvgDiskIOPS : ℚ := avg.m_diskIOPS
  let kAvgThroughput : ℚ := avg.m_throughput
  let points := poolStatus.m_MRC.filter fun e => decide (0 < e.2)
  let sizes := points.map fun e => (e.1 : ℚ)
  let metrics := points.map fun e => -kAvgDiskIOPS / e.2
  (fit sizes metrics).bind fun spline =>
    let adjustment := spline poolStatus.m_usedSize + kAvgThroughput
    (fit sizes (metrics.map fun m => m + adjustment)).map fun spline =>
      { m_optimalSize := kSize
        m_lowerBound :=
          if 0 < poolStatus.m_qosLevel ∧
              kAvgThroughput < poolStatus.m_qosLevel * (1 + m_kQoSMargin) then kSize
          else lowerBound
        m_upperBound := doubleToUInt64 ub
          (some ((kSize : ℚ) + (totalSize allCacheStatus : ℚ) * pm.m_kDelta))
        m_utilityCurve := spline }

/-- Step 4 for the pools of one cache: the configurations of the pools with a usable
MRC. -/
def poolConfigs (config : PoolId → PoolStatus → Option PoolConfig) :
    List (PoolId × PoolStatus) → Option (List (PoolId × PoolConfig))
  | [] => some []
  | p :: rest =>
    if isNew p.2 then poolConfigs config rest
    else
      match config p.1 p.2, poolConfigs config rest with
      | some c, some tail => some ((p.1, c) :: tail)
      | _, _ => none

/-- Step 4 over the caches: a cache enters the context when it has a pool
configuration. -/
def cacheConfigs (config : Address → PoolId → PoolStatus → Option PoolConfig) :
    List (Address × CacheStatus) → Option (List (Address × CacheConfig))
  | [] => some []
  | c :: rest =>
    match poolConfigs (config c.1) c.2.m_pools, cacheConfigs config rest with
    | some pcs, some tail => if pcs.isEmpty then some tail else some ((c.1, ⟨pcs⟩) :: tail)
    | _, _ => none

/-- The `Context` built by Step 4 of `loop`. -/
def context (pm : PerformanceMaximization) (ub : Option ℚ → Nat)
    (fit : List ℚ → List ℚ → Option Spline) (allCacheStatus : List (Address × CacheStatus)) :
    Option Context :=
  (cacheConfigs (poolConfig pm ub fit allCacheStatus
    (updateHistory ub pm.m_poolAvgMetricsHistory allCacheStatus)) allCacheStatus).map
    fun l => ⟨l⟩

end PerformanceMaximization

/-! ### `Optimizable` and `Context::step` -/

/-- `Optimizable::randomUniformInt(max)`: 0 when `max <= 0`, otherwise the value of
`gsl_rng_uniform_int`, some number below `max`; `draw` is the state of the generator. -/
def randomUniformInt (max : Int) (draw : Nat) : Int :=
  if max ≤ 0 then 0 else ((draw % max.toNat : Nat) : Int)

/-- The outcomes of the five calls of the generator made by one `Context::step`. -/
structure StepDraws where
  cache1 : Nat
  cache2 : Nat
  pool1 : Nat
  pool2 : Nat
  delta : Nat

/-- The element at position `i` of a list replaced by its image under `f`. -/
def modifyAt {α : Type} (f : α → α) : Nat → List α → List α
  | _, [] => []
  | 0, a :: l => f a :: l
  | i + 1, a :: l => a :: modifyAt f i l

namespace Context

/-- The pool configuration reached by `getNth` on the caches and then on the pools. -/
def poolAt (ctx : Context) (cacheIdx poolIdx : Nat) : Option PoolConfig :=
  (ctx.m_cacheConfigs[cacheIdx]?).bind fun c =>
    (c.2.m_poolConfigs[poolIdx]?).map fun p => p.2

/-- Assignment to `m_optimalSize` through the reference obtained by `getNth`. -/
def setOptimalSize (ctx : Context) (cacheIdx poolIdx : Nat) (size : Nat) : Context :=
  ⟨modifyAt (fun c => (c.1, ⟨modifyAt (fun p => (p.1, { p.2 with m_optimalSize := size }))
    poolIdx c.2.m_poolConfigs⟩)) cacheIdx ctx.m_cacheConfigs⟩

/-- `Context::skip`: there is no pool to optimise. -/
def skip (ctx : Context) : Bool :=
  (ctx.m_cacheConfigs.map fun c => c.2.m_poolConfigs.length).sum == 0

/-- `Context::step` for given outcomes of the generator; `none` when `getNth` throws
or the pool index is taken modulo 0. -/
def step (ctx : Context) (r : StepDraws) : Option Context :=
  let cacheIdx1 := randomUniformInt ctx.m_cacheConfigs.length r.cache1
  let cacheIdx2 := randomUniformInt ctx.m_cacheConfigs.length r.cache2
  match ctx.m_cacheConfigs[cacheIdx1.toNat]?, ctx.m_cacheConfigs[cacheIdx2.toNat]? with
  | some cache1, some cache2 =>
    let poolIdx1 := randomUniformInt cache1.2.m_poolConfigs.length r.pool1
    if cacheIdx1 = cacheIdx2 ∧ cache2.2.m_poolConfigs.length = 0 then none
    else
      let poolIdx2 :=
        if cacheIdx1 ≠ cacheIdx2 then randomUniformInt cache2.2.m_poolConfigs.length r.pool2
        else (poolIdx1 + 1 +
          randomUniformInt ((cache2.2.m_poolConfigs.length : Int) - 1) r.pool2) %
            (cache2.2.m_poolConfigs.length : Int)
      match ctx.poolAt cacheIdx1.toNat poolIdx1.toNat, ctx.poolAt cacheIdx2.toNat poolIdx2.toNat with
      | some pool1, some pool2 =>
        let maxDelta := toInt32 (min
          ((pool1.m_optimalSize + (2 ^ 64 - pool1.m_lowerBound % 2 ^ 64)) % 2 ^ 64)
          ((pool2.m_upperBound + (2 ^ 64 - pool2.m_optimalSize % 2 ^ 64)) % 2 ^ 64))
        if 0 < maxDelta then
          let delta := (randomUniformInt maxDelta r.delta).toNat
          let ctx1 := ctx.setOptimalSize cacheIdx1.toNat poolIdx1.toNat
            ((pool1.m_optimalSize + (2 ^ 64 - delta)) % 2 ^ 64)
          match ctx1.poolAt cacheIdx2.toNat poolIdx2.toNat with
          | some pool2 =>
            some (ctx1.setOptimalSize cacheIdx2.toNat poolIdx2.toNat
              ((pool2.m_optimalSize + delta) % 2 ^ 64))
          | none => none
        else some ctx
      | _, _ => none
  | _, _ => none

/-- One call of `Context::step` that returns. -/
def Step (ctx next : Context) : Prop := ∃ r : StepDraws, ctx.step r = some next

/-- `Optimizable::run`: nothing when `skip()` holds, otherwise `gsl_siman_solve`, which
leaves the context after some number of calls of `step`. -/
def Run (ctx final : Context) : Prop :=
  if ctx.skip = true then final = ctx else Relation.ReflTransGen Step ctx final

/-- The optimal size the context holds for a pool of a cache. -/
def optimalSize? (ctx : Context) (cacheId : Address) (poolId : PoolId) : Option Nat :=
  (ctx.m_cacheConfigs.lookup cacheId).bind fun c =>
    (c.m_poolConfigs.lookup poolId).map fun p => p.m_optimalSize

/-- Sum of the optimal sizes of the context. -/
def totalOptimalSize (ctx : Context) : Nat :=
  (ctx.m_cacheConfigs.map fun c => (c.2.m_poolConfigs.map fun p => p.2.m_optimalSize).sum).sum

end Context

namespace PerformanceMaximization

/-- The plan built by `loop` from `newPoolSizePerCache` once the sizes of the context
have been written into it: for each observed cache and pool the optimal size of the
context, or the preliminary size for a pool outside the context; in fake-enforce mode
the observed size. -/
def plan (pm : PerformanceMaximization) (ub : Option ℚ → Nat)
    (allCacheStatus : List (Address × CacheStatus)) (final : Context) : List CacheResize :=
  allCacheStatus.map fun c =>
    { m_kName := c.1
      m_kPoolResizes := c.2.m_pools.map fun p =>
        { m_kId := p.1
          m_kSize :=
            if pm.m_kFakeEnforce = true then p.2.m_maxSize
            else (final.optimalSize? c.1 p.1).getD (newPoolSize ub allCacheStatus p.2) } }

/-- The plans a tick of `PerformanceMaximization::loop` can hand to `resize`. -/
def Emits (pm : PerformanceMaximization) (ub : Option ℚ → Nat)
    (fit : List ℚ → List ℚ → Option Spline) (allCacheStatus : List (Address × CacheStatus))
    (cacheResizes : List CacheResize) : Prop :=
  ∃ ctx final, context pm ub fit allCacheStatus = some ctx ∧ ctx.Run final ∧
    cacheResizes = plan pm ub allCacheStatus final

end PerformanceMaximization

/-! ### The agents of the observed caches -/

/-- The optimal size of a pool configuration lies between its bounds, which are 64-bit
values. -/
def PoolConfig.InBounds (p : PoolConfig) : Prop :=
  p.m_lowerBound ≤ p.m_optimalSize ∧ p.m_optimalSize ≤ p.m_upperBound ∧ p.m_upperBound < 2 ^ 64

/-- Every pool configuration of the context is within its bounds. -/
def Context.InBounds (ctx : Context) : Prop :=
  ∀ c ∈ ctx.m_cacheConfigs, ∀ p ∈ c.2.m_poolConfigs, p.2.InBounds

/-- The keys of the context: each cache with the ids of its pools. -/
def Context.keys (ctx : Context) : List (Address × List PoolId) :=
  ctx.m_cacheConfigs.map fun c => (c.1, c.2.m_poolConfigs.map Prod.fst)

/-- The keys Step 4 gives the context: each cache that has a pool with a usable MRC,
with the ids of those pools. -/
def PerformanceMaximization.usableKeys (allCacheStatus : List (Address × CacheStatus)) :
    List (Address × List PoolId) :=
  allCacheStatus.filterMap fun c =>
    if ((c.2.m_pools.filter fun p => !PerformanceMaximization.isNew p.2).map Prod.fst).isEmpty
    then none
    else some (c.1, (c.2.m_pools.filter fun p => !PerformanceMaximization.isNew p.2).map Prod.fst)

/-- A `PerformanceMaximization` controller with `delta = 0.05`, enforcing, without
history. -/
def freshController : PerformanceMaximization := ⟨1 / 20, false, fun _ _ => none⟩

/-- A construction of splines that returns the curve that is 0 everywhere. -/
def flatFit : List ℚ → List ℚ → Option Spline := fun _ _ => some fun _ => 0

/-- A pool status with an MRC of three points, the given used size, QoS level and
throughput, and miss ratio 1. -/
def usablePool (used : Nat) (qos : ℚ) (throughput : Nat) : PoolStatus :=
  ⟨0, used, 0, throughput, 1, qos, 1, [(100, 1 / 2), (200, 1 / 4), (300, 1 / 8)]⟩

/-- One cache of capacity 1000 with one pool that has a usable MRC, uses 500 bytes, has
QoS level 100 and throughput 80. -/
def oneUsablePool : List (Address × CacheStatus) :=
  [("C", ⟨1000, 1, [(0, usablePool 500 100 80)]⟩)]

/-- A context with a single pool of optimal size 1000 between the bounds 950 and 1050. -/
def singlePoolContext : Context :=
  ⟨[("C", ⟨[(0, ⟨1000, 950, 1050, fun _ => 0⟩)]⟩)]⟩

/-- A context of two pools in which the first may give up `2^32 + 5` bytes, more than an
`int` holds. -/
def widePoolsContext : Context :=
  ⟨[("C", ⟨[(0, ⟨2 ^ 33, 2 ^ 33 - (2 ^ 32 + 5), 2 ^ 34, fun _ => 0⟩),
    (1, ⟨2 ^ 33, 0, 2 ^ 34, fun _ => 0⟩)]⟩)]⟩

/-- The conversions to `uint64_t` that give the upper bounds in Step 4 are defined: for
each pool with a usable MRC, the preliminary size plus `totalSize * delta` is below
`2^64`. -/
def PerformanceMaximization.UpperBoundsDefined (pm : PerformanceMaximization)
    (ub : Option ℚ → Nat) (allCacheStatus : List (Address × CacheStatus)) : Prop :=
  ∀ c ∈ allCacheStatus, ∀ p ∈ c.2.m_pools, PerformanceMaximization.isNew p.2 = false →
    (PerformanceMaximization.newPoolSize ub allCacheStatus p.2 : ℚ) +
      (PerformanceMaximization.totalSize allCacheStatus : ℚ) * pm.m_kDelta < 2 ^ 64

/-- The bounds of the context: each cache with the id, lower bound and upper bound of
each of its pools. -/
def Context.bounds (ctx : Context) : List (Address × List (PoolId × Nat × Nat)) :=
  ctx.m_cacheConfigs.map fun c =>
    (c.1, c.2.m_poolConfigs.map fun p => (p.1, p.2.m_lowerBound, p.2.m_upperBound))

/-- The history after `n` ticks in each of which Step 1 visits the pool with the same
observation. -/
def PerformanceMaximization.observe (ub : Option ℚ → Nat) (cacheId : Address) (poolId : PoolId)
    (poolStatus : PoolStatus) : Nat → MetricsHistory → MetricsHistory
  | 0, history => history
  | n + 1, history =>
    PerformanceMaximization.updatePoolAvg ub
      (PerformanceMaximization.observe ub cacheId poolId poolStatus n history)
      cacheId poolId poolStatus

/-- A history in which pool 0 of cache "C" has the averages of an idle pool: miss ratio
1, no disk operations, no throughput. -/
def idleHistory : MetricsHistory :=
  fun c p => if c = "C" ∧ p = 0 then some ⟨1, 0, 0⟩ else none

/-- A pool that reports 10 disk operations per second, throughput 10 and miss ratio
1/2. -/
def busyPool : PoolStatus := ⟨1000, 500, 10, 10, 1 / 2, 0, 1, []⟩

/-! ## Data-plane agent: configuration and state

The slab engine (`Super`, CacheLib) and the MRC estimator (`shards::Shards`) are not
part of the repository.  The engine is known by its pools, the estimator of a pool by
the calls it has received. -/

/-- `CacheAllocatorConfig`: the `size` of the configuration of the engine, and the
fields the agent adds to it. -/
structure CacheAllocatorConfig where
  size : Nat
  m_address : Address
  m_orchestratorAddress : Address
  m_virtualSize : Int
  m_hasVirtualSize : Bool
  proportion : ℚ

namespace CacheAllocatorConfig

/-- `setVirtualSize(uint64_t size)`: the size is stored in an `int64_t`. -/
def setVirtualSize (config : CacheAllocatorConfig) (size : Nat) : CacheAllocatorConfig :=
  { config with m_hasVirtualSize := true, m_virtualSize := toInt64 size }

/-- `setProportion(double proportion)`. -/
def setProportion (config : CacheAllocatorConfig) (proportion : ℚ) : CacheAllocatorConfig :=
  { config with proportion := proportion }

end CacheAllocatorConfig

/-- Modelled from the spec: the slab engine under the agent, outside the repository.
`pools` are its pools in the order of their creation, with their sizes; a pool id is
unique within the instance, here the number of pools created before it;
`currentAllocSize` is what `getPool(id).getCurrentAllocSize()` reports and
`ramCacheSize` what `getCacheMemoryStats().ramCacheSize` reports. -/
structure Engine where
  ramCacheSize : Nat
  pools : Pools
  currentAllocSize : PoolId → Nat

namespace Engine

/-- Modelled from the spec: `addPool(name, size) → PoolId` of the engine. -/
def addPool (engine : Engine) (size : Nat) : PoolId × Engine :=
  (engine.pools.length, { engine with pools := engine.pools ++ [(engine.pools.length, size)] })

/-- Modelled from the spec: `getPoolIds()` of the engine. -/
def getPoolIds (engine : Engine) : List PoolId := engine.pools.map Prod.fst

/-- Modelled from the spec: `shrinkPool(id, bytes)` of the engine, which takes exactly
`bytes` from the pool. -/
def shrinkPool (engine : Engine) (id : PoolId) (bytes : Nat) : Engine :=
  { engine with pools := applyOp engine.pools (PoolOp.shrinkPool id bytes) }

end Engine

/-- A call received by the MRC estimator of a pool. -/
inductive ShardsCall
  | accessed (key : String) (size : Nat)
  | remove (key : String)
  deriving DecidableEq, Repr

/-- What the agent reads from an item handle: `getKey()`, `getSize()` and the pool of
`getAllocInfo(handle->getMemory())`. -/
structure Handle where
  key : String
  size : Nat
  poolId : PoolId
  deriving DecidableEq, Repr

/-- The state of a `CacheAllocator`: the engine it extends and its own members.  An
`unordered_map` is the function from a key to its value, `none` for a missing key;
`m_shards` holds for each pool the calls its estimator has received, oldest first. -/
structure CacheAllocator where
  engine : Engine
  m_kVirtualSize : Nat
  m_kProportion : ℚ
  m_shards : PoolId → Option (List ShardsCall)
  m_metrics : PoolId → Option (Nat × ℚ × Nat)
  m_activePools : List PoolId
  m_qosLevels : PoolId → Option ℚ
  m_proportions : PoolId → Option ℚ

/-- Assignment `m[key] = value` on an `unordered_map`. -/
def assign {α : Type} (m : PoolId → Option α) (key : PoolId) (value : α) : PoolId → Option α :=
  fun k => if k = key then some value else m k

namespace CacheAllocator

/-- The constructor, without the gRPC server and the registration: the engine is built
from the configuration and reports `ramCacheSize`. -/
def new (config : CacheAllocatorConfig) (ramCacheSize : Nat) : CacheAllocator :=
  { engine := ⟨ramCacheSize, [], fun _ => 0⟩
    m_kVirtualSize :=
      if config.m_hasVirtualSize = true then toUInt64 config.m_virtualSize else config.size
    m_kProportion := config.proportion
    m_shards := fun _ => none
    m_metrics := fun _ => none
    m_activePools := []
    m_qosLevels := fun _ => none
    m_proportions := fun _ => none }

/-- The `PoolStatus` that `GetStatus` fills for an active pool; `none` when the pool has
no estimator, `m_shards[poolId]` being then a null pointer.  A missing key of the
other maps reads as the value `operator[]` creates for it. -/
def poolStatus (a : CacheAllocator) (byteMRC : List ShardsCall → List (Nat × ℚ))
    (poolId : PoolId) : Option PoolStatus :=
  (a.m_shards poolId).map fun shard =>
    { m_maxSize := poolSize a.engine.pools poolId
      m_usedSize := a.engine.currentAllocSize poolId
      m_diskIOPS := ((a.m_metrics poolId).getD (0, 0, 0)).1
      m_throughput := ((a.m_metrics poolId).getD (0, 0, 0)).2.2
      m_missRatio := ((a.m_metrics poolId).getD (0, 0, 0)).2.1
      m_qosLevel := (a.m_qosLevels poolId).getD 0
      m_proportion := (a.m_proportions poolId).getD 0
      m_MRC := byteMRC shard }

/-- The loop of `GetStatus` over `getPoolIds()`: the statuses of the active pools. -/
def poolStatuses (a : CacheAllocator) (byteMRC : List ShardsCall → List (Nat × ℚ)) :
    List PoolId → Option (List (PoolId × PoolStatus))
  | [] => some []
  | poolId :: rest =>
    if poolId ∈ a.m_activePools then
      match a.poolStatus byteMRC poolId, poolStatuses a byteMRC rest with
      | some s, some tail => some ((poolId, s) :: tail)
      | _, _ => none
    else poolStatuses a byteMRC rest

/-- `GetStatus`: the `cachestatus` of the response; `byteMRC` is the curve the estimator
computes from the calls it has received. -/
def GetStatus (a : CacheAllocator) (byteMRC : List ShardsCall → List (Nat × ℚ)) :
    Option CacheStatus :=
  (a.poolStatuses byteMRC a.engine.getPoolIds).map fun pools =>
    { m_maxSize := min a.m_kVirtualSize a.engine.ramCacheSize
      m_proportion := a.m_kProportion
      m_pools := pools }

/-- `addPool(name, size, qosLevel, proportion)`. -/
def addPool (a : CacheAllocator) (_name : String) (size : Nat) (qosLevel proportion : ℚ) :
    PoolId × CacheAllocator :=
  let poolId := (a.engine.addPool size).1
  (poolId,
    { a with
      engine := (a.engine.addPool size).2
      m_shards := assign a.m_shards poolId []
      m_qosLevels := assign a.m_qosLevels poolId qosLevel
      m_metrics := assign a.m_metrics poolId (0, 1, 0)
      m_proportions := assign a.m_proportions poolId proportion
      m_activePools := poolId :: a.m_activePools })

/-- `registerMetrics(poolId, diskIOPS, missRatio, throughput)`. -/
def registerMetrics (a : CacheAllocator) (poolId : PoolId) (diskIOPS : Nat) (missRatio : ℚ)
    (throughput : Nat) : CacheAllocator :=
  { a with m_metrics := assign a.m_metrics poolId (diskIOPS, missRatio, throughput) }

/-- `removePool(id)`. -/
def removePool (a : CacheAllocator) (id : PoolId) : CacheAllocator :=
  { a with
    m_activePools := a.m_activePools.filter fun p => p ≠ id
    engine := a.engine.shrinkPool id (poolSize a.engine.pools id) }

/-- The two calls `m_shards[pid]->remove(keyStr); m_shards[pid]->accessed(keyStr, size)`;
`none` when `m_shards[pid]` is a null pointer. -/
def recordWrite (a : CacheAllocator) (handle : Handle) : Option CacheAllocator :=
  (a.m_shards handle.poolId).map fun calls =>
    { a with
      m_shards := assign a.m_shards handle.poolId
        (calls ++ [ShardsCall.remove handle.key, ShardsCall.accessed handle.key handle.size]) }

/-- `insert(handle)`; `success` is the result of `Super::insert(handle)`. -/
def insert (a : CacheAllocator) (handle : Handle) (success : Bool) :
    Option (Bool × CacheAllocator) :=
  if success = true then (a.recordWrite handle).map fun a' => (true, a')
  else some (false, a)

end CacheAllocator

/-- A call made by the application on the agent. -/
inductive AgentCall
  | addPool (name : String) (size : Nat) (qosLevel proportion : ℚ)
  | removePool (id : PoolId)
  | registerMetrics (poolId : PoolId) (diskIOPS : Nat) (missRatio : ℚ) (throughput : Nat)

namespace CacheAllocator

/-- The agent after one call. -/
def call (a : CacheAllocator) : AgentCall → CacheAllocator
  | AgentCall.addPool name size qosLevel proportion => (a.addPool name size qosLevel proportion).2
  | AgentCall.removePool id => a.removePool id
  | AgentCall.registerMetrics poolId diskIOPS missRatio throughput =>
    a.registerMetrics poolId diskIOPS missRatio throughput

/-- The agent after a sequence of calls. -/
def calls (a : CacheAllocator) (cs : List AgentCall) : CacheAllocator := cs.foldl call a

/-- The pools created by `addPool` and not since removed, in the order of their
creation, each with the QoS level and the proportion given to its `addPool`: `live`
holds them before the calls `cs` are made on the agent `a`. -/
def livePools : CacheAllocator → List (PoolId × ℚ × ℚ) → List AgentCall →
    List (PoolId × ℚ × ℚ)
  | _, live, [] => live
  | a, live, AgentCall.addPool name size qosLevel proportion :: cs =>
    livePools (a.addPool name size qosLevel proportion).2
      (live ++ [((a.addPool name size qosLevel proportion).1, qosLevel, proportion)]) cs
  | a, live, AgentCall.removePool id :: cs =>
    livePools (a.removePool id) (live.filter fun e => e.1 ≠ id) cs
  | a, live, AgentCall.registerMetrics poolId diskIOPS missRatio throughput :: cs =>
    livePools (a.registerMetrics poolId diskIOPS missRatio throughput) live cs

/-- The status `GetStatus` fills for a pool that has an estimator. -/
def statusOf (a : CacheAllocator) (byteMRC : List ShardsCall → List (Nat × ℚ))
    (poolId : PoolId) : PoolStatus :=
  { m_maxSize := poolSize a.engine.pools poolId
    m_usedSize := a.engine.currentAllocSize poolId
    m_diskIOPS := ((a.m_metrics poolId).getD (0, 0, 0)).1
    m_throughput := ((a.m_metrics poolId).getD (0, 0, 0)).2.2
    m_missRatio := ((a.m_metrics poolId).getD (0, 0, 0)).2.1
    m_qosLevel := (a.m_qosLevels poolId).getD 0
    m_proportion := (a.m_proportions poolId).getD 0
    m_MRC := byteMRC ((a.m_shards poolId).getD []) }

/-- The agent `a` holds the pools `live`: the ids of the engine are below the number
of its pools, the active pools among them are the pools of `live`, in order, the agent
holds their QoS levels and proportions, and every active pool has an estimator. -/
structure Holds (a : CacheAllocator) (live : List (PoolId × ℚ × ℚ)) : Prop where
  ids_lt : ∀ id ∈ a.engine.getPoolIds, id < a.engine.pools.length
  live_ids : live.map Prod.fst =
    a.engine.getPoolIds.filter fun id => decide (id ∈ a.m_activePools)
  levels : ∀ e ∈ live, a.m_qosLevels e.1 = some e.2.1 ∧ a.m_proportions e.1 = some e.2.2
  shards : ∀ id ∈ a.m_activePools, ∃ shard, a.m_shards id = some shard

end CacheAllocator

/-- A configuration of physical size 1000 without a virtual size, of proportion 1. -/
def plainConfig : CacheAllocatorConfig := ⟨1000, "agent", "orchestrator", 0, false, 1⟩

/-- An estimator that reports an empty curve. -/
def noCurve : List ShardsCall → List (Nat × ℚ) := fun _ => []

/-- An agent with the pools P0 (size 800, QoS level 0, proportion 3) and P1 (size 200,
QoS level 0, proportion 1). -/
def twoPoolAgent : CacheAllocator :=
  (CacheAllocator.new plainConfig 1000).calls
    [AgentCall.addPool "P0" 800 0 3, AgentCall.addPool "P1" 200 0 1]

/-- A pool status with the three metrics replaced. -/
def PoolStatus.withMetrics (s : PoolStatus) (diskIOPS : Nat) (missRatio : ℚ)
    (throughput : Nat) : PoolStatus :=
  { s with m_diskIOPS := diskIOPS, m_missRatio := missRatio, m_throughput := throughput }

/-! ## `Resize` and the answers of the engine -/

/-- `Resize` on an engine whose `getPool` may raise: `getPool id` is `none` when the
engine raises for `id`.  The first loop asks for the size of every requested pool
before any call changes a pool and `Resize` catches nothing, so an exception ends it
with no call made and no status returned (`none`). -/
def ResizeOrRaise (getPool : PoolId → Option Nat) (poolsizes : PoolSizes) :
    Option (List PoolOp × Status) :=
  if poolsizes.all (fun e => (getPool e.1).isSome) = true then
    some (Resize (fun id => (getPool id).getD 0) poolsizes)
  else none

/-- The skipping of unknown pools that the specification describes: `Resize` returns
OK after exactly the calls it makes for the request without the entries of the pools
that are not `known`. -/
def SkipsUnknownPools (getPool : PoolId → Option Nat) (known : PoolId → Bool)
    (poolsizes : PoolSizes) : Prop :=
  ResizeOrRaise getPool poolsizes =
    some (Resize (fun id => (getPool id).getD 0) (poolsizes.filter fun e => known e.1))

instance (getPool : PoolId → Option Nat) (known : PoolId → Bool) (poolsizes : PoolSizes) :
    Decidable (SkipsUnknownPools getPool known poolsizes) :=
  inferInstanceAs (Decidable (_ = _))

/-- `Resize` with the answers of the engine: `accepted i` is what the engine returns
for the call number `i` of `shrinkPool` or `growPool`.  The second loop drops it: the
calls with their answers, and the status `Resize` returns. -/
def ResizeAnswered (getPoolSize : PoolId → Nat) (accepted : Nat → Bool)
    (poolsizes : PoolSizes) : List (PoolOp × Bool) × Status :=
  ((Resize getPoolSize poolsizes).1.enum.map fun e => (e.2, accepted e.1), Status.OK)

/-- The reporting of rejected calls that the specification describes: the status is OK
exactly when the engine accepted every call. -/
def ReportsRejection (getPoolSize : PoolId → Nat) (accepted : Nat → Bool)
    (poolsizes : PoolSizes) : Prop :=
  (ResizeAnswered getPoolSize accepted poolsizes).2 = Status.OK ↔
    ∀ call ∈ (ResizeAnswered getPoolSize accepted poolsizes).1, call.2 = true

/-- An engine that holds pool 0, of size 800, and raises for any other id. -/
def raisingEngine : PoolId → Option Nat := fun id => if id = 0 then some 800 else none

/-- An engine that holds pool 0, of size 800, and reports size 0 for any other id. -/
def lenientEngine : PoolId → Option Nat := fun id => if id = 0 then some 800 else some 0

/-! ## Control plane: the orchestrator program (`Main.cpp`)

The conversions `std::stoul`, `std::stol` and `std::stod` belong to the C++ library.
The first two are given in base 10; `std::stod` is a parameter of `main`.  A conversion
is `none` when it throws (`std::invalid_argument`, `std::out_of_range`). -/

/-- The loop of `split` over the characters still to read: `std::getline` pushes the
token read up to the next delimiter, and fails at the end of the input when it has
read no character. -/
def getlineTokens (delimiter : Char) : List Char → List Char → List String
  | [], token => if token.isEmpty then [] else [String.mk token]
  | c :: rest, token =>
    if c = delimiter then String.mk token :: getlineTokens delimiter rest []
    else getlineTokens delimiter rest (token ++ [c])

/-- `split(str, delimiter)`. -/
def split (str : String) (delimiter : Char) : List String :=
  getlineTokens delimiter str.toList []

/-- `isspace` in the C locale. -/
def isspace (c : Char) : Bool := c.toNat == 32 || (9 ≤ c.toNat && c.toNat ≤ 13)

/-- What `strtoul` and `strtol` read in base 10: white space, an optional sign, then
the digits that follow; the sign and the number the digits denote, or `none` when there
is no digit. -/
def leadingNumber (cs : List Char) : Option (Bool × Nat) :=
  let unsigned := cs.dropWhile isspace
  let negative := unsigned.head? == some '-'
  let body := if negative || unsigned.head? == some '+' then unsigned.tail else unsigned
  let digits := body.takeWhile Char.isDigit
  if digits.isEmpty then none
  else some (negative, digits.foldl (fun n c => 10 * n + (c.toNat - 48)) 0)

/-- `std::stoul(str)`: `none` when there is no digit to read or the number does not fit
`unsigned long`; a number with a minus sign is negated as an `unsigned long`. -/
def stoul (str : String) : Option Nat :=
  match leadingNumber str.toList with
  | none => none
  | some (negative, n) =>
    if 2 ^ 64 ≤ n then none else some (if negative then (2 ^ 64 - n) % 2 ^ 64 else n)

/-- `std::stol(str)`: `none` when there is no digit to read or the number does not fit
`long`. -/
def stol (str : String) : Option Int :=
  match leadingNumber str.toList with
  | none => none
  | some (negative, n) =>
    if negative then (if 2 ^ 63 < n then none else some (-(n : Int)))
    else (if 2 ^ 63 ≤ n then none else some (n : Int))

/-- What `main` writes to standard error before it returns 1. -/
inductive Usage
  | help
  | missingArguments
  | throughputMaximization
  | motivation
  | unknownAlgorithm (name : String)
  deriving DecidableEq, Repr

/-- A call of `orchestrator.addAlgorithm` with its arguments: the periodicity in
milliseconds, and for `PerformanceMaximization` the delta, the fake-enforce flag and
the number of latency entries to print. -/
inductive AlgorithmCall
  | performanceMaximization (periodicity : Int) (delta : ℚ) (fakeEnforce : Bool)
      (printLatenciesOnEntries : Nat)
  | motivation (periodicity : Int)
  deriving DecidableEq, Repr

/-- How a run of `main` goes on: it returns a code after a message on standard error,
or an exception leaves `main`, which catches none, and `std::terminate` ends the
process, or it reaches the endless loop with the algorithms it has installed. -/
inductive MainOutcome
  | returns (code : Nat) (message : Usage)
  | terminate
  | serves (calls : List AlgorithmCall)
  deriving DecidableEq, Repr

/-- The loop of `main` over the arguments after the address: `argv[i]`, `argv[i + 1]`
and the rest. -/
def mainLoop (stod : String → Option ℚ) : List String → List AlgorithmCall → MainOutcome
  | [], calls => MainOutcome.serves calls
  | [_], _ => MainOutcome.returns 1 Usage.missingArguments
  | name :: argument :: rest, calls =>
    let args := split argument ':'
    if name = "ThroughputMaximization" then
      if args.length < 2 then MainOutcome.returns 1 Usage.throughputMaximization
      else
        match stoul (args.getD 0 ""), stod (args.getD 1 ""),
          stol (if args.length > 3 then args.getD 3 "" else "0") with
        | some periodicity, some delta, some entries =>
          mainLoop stod rest (calls ++ [AlgorithmCall.performanceMaximization
            (toInt64 periodicity) delta (decide (args.length > 2) && args.getD 2 "" == "true")
            (toUInt64 entries)])
        | _, _, _ => MainOutcome.terminate
    else if name = "Motivation" then
      if args.length < 1 then MainOutcome.returns 1 Usage.motivation
      else
        match stoul (args.getD 0 "") with
        | some periodicity =>
          mainLoop stod rest (calls ++ [AlgorithmCall.motivation (toInt64 periodicity)])
        | none => MainOutcome.terminate
    else MainOutcome.returns 1 (Usage.unknownAlgorithm name)

/-- `main(argc, argv)`, `argv` holding the `argc` arguments, the name of the program
first. -/
def main (stod : String → Option ℚ) (argv : List String) : MainOutcome :=
  if argv.length < 2 then MainOutcome.returns 1 Usage.help
  else mainLoop stod (argv.drop 2) []

/-- A `std::stod` that reads "0.05" and throws on any other string. -/
def stodOnly005 : String → Option ℚ := fun s => if s = "0.05" then some (1 / 20) else none

/-! ## The preliminary sizes in the words of the specification -/

namespace PerformanceMaximization

end PerformanceMaximization

/-- A pool status with an MRC of two points and the given size. -/
def shortCurvePool (maxSize : Nat) : PoolStatus :=
  ⟨maxSize, 0, 0, 0, 1, 0, 1, [(100, 1 / 2), (200, 1 / 4)]⟩

/-- Scenario of the specification: one cache of capacity 1000 with two pools, each with
an MRC of length 2. -/
def twoShortCurves : List (Address × CacheStatus) :=
  [("C", ⟨1000, 1, [(0, shortCurvePool 600), (1, shortCurvePool 400)]⟩)]

/-- The pool on which an engine call acts. -/
def PoolOp.poolId : PoolOp → PoolId
  | PoolOp.shrinkPool id _ => id
  | PoolOp.growPool id _ => id

/-- What C28 says of a request on the pools of a cache: after the calls of `Resize`,
applied exactly, every requested pool has its target size, every other pool its size
of before, and no pool is the object of two calls. -/
def ReachesTargets (pools : Pools) (poolsizes : PoolSizes) : Prop :=
  (∀ e ∈ poolsizes,
      poolSize (applyOps pools (Resize (poolSize pools) poolsizes).1) e.1 = e.2) ∧
    (∀ id, id ∉ poolsizes.map Prod.fst →
      poolSize (applyOps pools (Resize (poolSize pools) poolsizes).1) id = poolSize pools id) ∧
    ((Resize (poolSize pools) poolsizes).1.map PoolOp.poolId).Nodup

/-- A construction of splines that refuses fewer than 3 points, as `tk::spline` does,
and returns the curve that is 0 everywhere otherwise. -/
def strictFit : List ℚ → List ℚ → Option Spline :=
  fun sizes _ => if sizes.length < 3 then none else some fun _ => 0

/-- A pool status with an MRC of three points whose miss ratios are all 0. -/
def flatCurvePool (used : Nat) : PoolStatus :=
  ⟨0, used, 0, 0, 0, 0, 1, [(100, 0), (200, 0), (300, 0)]⟩

/-- One cache of capacity 1000 with pool 0, whose MRC is usable, and pool 1, whose MRC
has three points with miss ratio 0. -/
def oneFlatCurve : List (Address × CacheStatus) :=
  [("C", ⟨1000, 1, [(0, usablePool 500 0 80), (1, flatCurvePool 300)]⟩)]

/-- The two pools `Context::step` selects, each by the index of its cache and its index
within that cache; `none` when `getNth` throws or the pool index is taken modulo 0. -/
def Context.selection (ctx : Context) (r : StepDraws) : Option ((Nat × Nat) × (Nat × Nat)) :=
  let cacheIdx1 := randomUniformInt ctx.m_cacheConfigs.length r.cache1
  let cacheIdx2 := randomUniformInt ctx.m_cacheConfigs.length r.cache2
  match ctx.m_cacheConfigs[cacheIdx1.toNat]?, ctx.m_cacheConfigs[cacheIdx2.toNat]? with
  | some cache1, some cache2 =>
    let poolIdx1 := randomUniformInt cache1.2.m_poolConfigs.length r.pool1
    if cacheIdx1 = cacheIdx2 ∧ cache2.2.m_poolConfigs.length = 0 then none
    else
      let poolIdx2 :=
        if cacheIdx1 ≠ cacheIdx2 then randomUniformInt cache2.2.m_poolConfigs.length r.pool2
        else (poolIdx1 + 1 +
          randomUniformInt ((cache2.2.m_poolConfigs.length : Int) - 1) r.pool2) %
            (cache2.2.m_poolConfigs.length : Int)
      match ctx.poolAt cacheIdx1.toNat poolIdx1.toNat, ctx.poolAt cacheIdx2.toNat poolIdx2.toNat with
      | some _, some _ =>
        some ((cacheIdx1.toNat, poolIdx1.toNat), (cacheIdx2.toNat, poolIdx2.toNat))
      | _, _ => none
  | _, _ => none

/-- The number of pools the context holds, as `Context::skip` accumulates it. -/
def Context.poolCount (ctx : Context) : Nat :=
  (ctx.m_cacheConfigs.map fun c => c.2.m_poolConfigs.length).sum

/-- A context of two caches with one pool each, both of optimal size 500 within the
bounds 400 and 600. -/
def twoSinglePoolCaches : Context :=
  ⟨[("A", ⟨[(0, ⟨500, 400, 600, fun _ => 0⟩)]⟩), ("B", ⟨[(0, ⟨500, 400, 600, fun _ => 0⟩)]⟩)]⟩

/-! # Theorems -/

/-! ## Machine integers -/

theorem toInt64_of_lt {n : Nat} (h : n < 2 ^ 63) : toInt64 n = (n : Int) := by
  unfold toInt64
  have h64 : n % 2 ^ 64 = n := Nat.mod_eq_of_lt (by omega)
  rw [h64, if_pos h]

theorem wrapInt64_of_mem {z : Int} (h₁ : -2 ^ 63 ≤ z) (h₂ : z < 2 ^ 63) : wrapInt64 z = z := by
  unfold wrapInt64
  rw [Int.emod_eq_of_lt (by omega) (by omega)]
  omega

theorem toUInt64_of_nonneg {z : Int} (h₁ : 0 ≤ z) (h₂ : z < 2 ^ 64) :
    toUInt64 z = z.toNat := by
  unfold toUInt64
  rw [Int.emod_eq_of_lt h₁ h₂]

/-! ## `CacheAllocator::Resize` -/

/-- Within the `int64_t` range the first loop of `Resize` computes the exact deltas. -/
theorem relSizes_eq_of_lt (current : PoolId → Nat) (poolsizes : PoolSizes)
    (h : ∀ e ∈ poolsizes, e.2 < 2 ^ 63 ∧ current e.1 < 2 ^ 63) :
    relSizes current poolsizes =
      exactDeltas current poolsizes := by
  unfold exactDeltas
  induction poolsizes with
  | nil => rfl
  | cons e l ih =>
    have he := h e (List.mem_cons_self _ _)
    have ih' := ih fun x hx => h x (List.mem_cons_of_mem _ hx)
    have hcons : relSizes current (e :: l) =
        (if e.2 ≠ current e.1 then
          [(e.1, wrapInt64 (toInt64 e.2 - toInt64 (current e.1)))] else []) ++
          relSizes current l := by
      unfold relSizes
      rw [List.filterMap_cons]
      by_cases heq : e.2 = current e.1 <;> simp [heq]
    rw [hcons, ih', List.map_cons, List.filter_cons, toInt64_of_lt he.1, toInt64_of_lt he.2,
      wrapInt64_of_mem (by omega) (by omega)]
    by_cases heq : e.2 = current e.1
    · simp [heq]
    · have hne : (e.2 : Int) - (current e.1 : Int) ≠ 0 := by omega
      simp [heq, hne]

theorem resizeOp_eq_of_mem {d : PoolId × Int} (h₁ : -2 ^ 63 < d.2) (h₂ : d.2 < 2 ^ 63) :
    resizeOp d = ruleOp d := by
  unfold resizeOp ruleOp
  split
  · rw [wrapInt64_of_mem (by omega) (by omega), toUInt64_of_nonneg (by omega) (by omega)]
  · rw [toUInt64_of_nonneg (by omega) (by omega)]

theorem shrinksBeforeGrows_map_resizeOp {l : List (PoolId × Int)} (h : l.Sorted relLE) :
    ShrinksBeforeGrows (l.map resizeOp) := by
  unfold ShrinksBeforeGrows
  rw [List.pairwise_map]
  refine List.Pairwise.imp ?_ h
  intro a b hab hb
  unfold relLE at hab
  unfold resizeOp at hb ⊢
  by_cases hb0 : b.2 < 0
  · have ha0 : a.2 < 0 := by omega
    simp [ha0, PoolOp.isShrink]
  · simp [hb0, PoolOp.isShrink] at hb

theorem mem_exactDeltas {current : PoolId → Nat} {poolsizes : PoolSizes} {d : PoolId × Int}
    (hd : d ∈ exactDeltas current poolsizes) :
    ∃ e ∈ poolsizes, d = (e.1, (e.2 : Int) - (current e.1 : Int)) := by
  obtain ⟨hm, -⟩ := List.mem_filter.mp hd
  obtain ⟨e, he, rfl⟩ := List.mem_map.mp hm
  exact ⟨e, he, rfl⟩

/-- Within the `int64_t` range the calls of `Resize` are the operations of the
ordering rule on the sorted exact deltas. -/
theorem Resize_ops_eq_of_lt (current : PoolId → Nat) (poolsizes : PoolSizes)
    (h : ∀ e ∈ poolsizes, e.2 < 2 ^ 63 ∧ current e.1 < 2 ^ 63) :
    (Resize current poolsizes).1 =
      (sortedRelSizes (relSizes current poolsizes)).map ruleOp := by
  show List.map resizeOp _ = _
  refine List.map_congr_left fun d hd => ?_
  have hd' : d ∈ relSizes current poolsizes :=
    (List.perm_insertionSort relLE _).mem_iff.mp hd
  rw [relSizes_eq_of_lt current poolsizes h] at hd'
  obtain ⟨e, he, rfl⟩ := mem_exactDeltas hd'
  have hb := h e he
  exact resizeOp_eq_of_mem (by simp only; omega) (by simp only; omega)

/-- C1 (amended). When every current size and every target of the request is below
2^63, `Resize` applies the ordering rule: it realises the deltas `target - current`,
leaves out the zero deltas, issues the calls in ascending order of delta, a shrink by
`-delta` for a negative delta and a grow by `delta` for a positive one, so no shrink
follows a grow, and returns OK.  On {P0:800, P1:200} with targets {P0:300, P1:700} the
calls are shrink(P0,500), grow(P1,500). -/
theorem Resize_follows_ordering_rule (current : PoolId → Nat) (poolsizes : PoolSizes)
    (h : ∀ e ∈ poolsizes, e.2 < 2 ^ 63 ∧ current e.1 < 2 ^ 63) :
    FollowsOrderingRule current poolsizes (Resize current poolsizes).1 ∧
      ShrinksBeforeGrows (Resize current poolsizes).1 ∧
      (Resize current poolsizes).2 = Status.OK ∧
      Resize (fun id => if id = 0 then 800 else 200) [(0, 300), (1, 700)] =
        ([PoolOp.shrinkPool 0 500, PoolOp.growPool 1 500], Status.OK) := by
  have hsorted : (sortedRelSizes (relSizes current poolsizes)).Sorted relLE :=
    List.sorted_insertionSort relLE _
  refine ⟨⟨sortedRelSizes (relSizes current poolsizes), ?_, hsorted, ?_⟩,
    shrinksBeforeGrows_map_resizeOp hsorted, rfl, by decide⟩
  · rw [relSizes_eq_of_lt current poolsizes h]
    exact List.perm_insertionSort relLE _
  · rw [Resize_ops_eq_of_lt current poolsizes h, relSizes_eq_of_lt current poolsizes h]

/-- Witness of C1: the scenario of the specification, {P0:800, P1:200} resized to
{P0:300, P1:700}. -/
theorem Resize_follows_ordering_rule_witness :
    (∀ e ∈ ([(0, 300), (1, 700)] : PoolSizes),
        e.2 < 2 ^ 63 ∧ (fun id : PoolId => if id = 0 then 800 else 200) e.1 < 2 ^ 63) ∧
      FollowsOrderingRule (fun id => if id = 0 then 800 else 200) [(0, 300), (1, 700)]
        (Resize (fun id => if id = 0 then 800 else 200) [(0, 300), (1, 700)]).1 :=
  ⟨by decide,
    (Resize_follows_ordering_rule (fun id => if id = 0 then 800 else 200) [(0, 300), (1, 700)]
      (by decide)).1⟩

/-- C1 as stated fails on a target that does not fit `int64_t`: for a pool of size 0
and the target 2^64 - 1 the delta is 2^64 - 1, a grow, but `Resize` calls
`shrinkPool(P0, 1)`. -/
theorem Resize_breaks_ordering_rule_beyond_int64 :
    Resize (fun _ => 0) [(0, 2 ^ 64 - 1)] = ([PoolOp.shrinkPool 0 1], Status.OK) ∧
      ¬ FollowsOrderingRule (fun _ => 0) [(0, 2 ^ 64 - 1)]
        (Resize (fun _ => 0) [(0, 2 ^ 64 - 1)]).1 := by
  have h1 : Resize (fun _ => 0) [(0, 2 ^ 64 - 1)] = ([PoolOp.shrinkPool 0 1], Status.OK) := by
    decide
  refine ⟨h1, ?_⟩
  rintro ⟨deltas, hperm, -, hops⟩
  have h2 : exactDeltas (fun _ => 0) [(0, 2 ^ 64 - 1)] = [(0, 2 ^ 64 - 1)] := by decide
  rw [h2] at hperm
  rw [List.perm_singleton.mp hperm, h1] at hops
  revert hops
  decide

/-! ## Effect of the engine calls on the pools -/

theorem poolSize_cons (p : PoolId × Nat) (l : Pools) (id : PoolId) :
    poolSize (p :: l) id = if id = p.1 then p.2 else poolSize l id := by
  obtain ⟨k, v⟩ := p
  unfold poolSize
  by_cases h : id = k
  · subst h
    simp [List.lookup_cons]
  · have hb : (id == k) = false := by simpa using h
    simp [List.lookup_cons, hb, h]

theorem poolSize_le_totalSize (pools : Pools) (id : PoolId) :
    poolSize pools id ≤ totalSize pools := by
  induction pools with
  | nil => simp [poolSize, totalSize]
  | cons p l ih =>
    rw [poolSize_cons]
    have ht : totalSize (p :: l) = p.2 + totalSize l := by simp [totalSize]
    split <;> omega

theorem map_update_of_not_mem (l : Pools) (id : PoolId) (g : Nat → Nat)
    (h : id ∉ l.map Prod.fst) :
    (l.map fun p => if p.1 = id then (p.1, g p.2) else p) = l := by
  induction l with
  | nil => rfl
  | cons p l ih =>
    simp only [List.map_cons, List.mem_cons, not_or] at h
    rw [List.map_cons, ih h.2, if_neg (fun hp => h.1 hp.symm)]

theorem keys_map_update (l : Pools) (id : PoolId) (g : Nat → Nat) :
    (l.map fun p => if p.1 = id then (p.1, g p.2) else p).map Prod.fst = l.map Prod.fst := by
  rw [List.map_map]
  refine List.map_congr_left fun p _ => ?_
  by_cases h : p.1 = id <;> simp [h]

theorem poolSize_map_update_of_ne (l : Pools) (id id' : PoolId) (g : Nat → Nat)
    (h : id' ≠ id) :
    poolSize (l.map fun p => if p.1 = id then (p.1, g p.2) else p) id' = poolSize l id' := by
  induction l with
  | nil => rfl
  | cons p l ih =>
    rw [List.map_cons, poolSize_cons, poolSize_cons, ih]
    by_cases hp : p.1 = id
    · have h1 : ¬ id' = p.1 := fun h2 => h (h2.trans hp)
      simp [hp, h1, h]
    · simp [hp]

theorem totalSize_map_update (l : Pools) (id : PoolId) (g : Nat → Nat)
    (hnd : (l.map Prod.fst).Nodup) (hid : id ∈ l.map Prod.fst) :
    totalSize (l.map fun p => if p.1 = id then (p.1, g p.2) else p) + poolSize l id =
      totalSize l + g (poolSize l id) := by
  induction l with
  | nil => simp at hid
  | cons p l ih =>
    rw [List.map_cons, List.nodup_cons] at hnd
    rw [List.map_cons, poolSize_cons]
    by_cases hp : p.1 = id
    · have hnot : id ∉ l.map Prod.fst := hp ▸ hnd.1
      rw [map_update_of_not_mem l id g hnot, if_pos hp, if_pos hp.symm]
      simp only [totalSize, List.map_cons, List.sum_cons]
      omega
    · have hin : id ∈ l.map Prod.fst := by
        rw [List.map_cons, List.mem_cons] at hid
        rcases hid with h | h
        · exact absurd h.symm hp
        · exact h
      have := ih hnd.2 hin
      rw [if_neg hp, if_neg (fun h => hp h.symm)]
      simp only [totalSize, List.map_cons, List.sum_cons] at this ⊢
      omega

theorem keys_applyOp (pools : Pools) (op : PoolOp) :
    (applyOp pools op).map Prod.fst = pools.map Prod.fst := by
  cases op with
  | shrinkPool id bytes => exact keys_map_update pools id (fun n => n - bytes)
  | growPool id bytes => exact keys_map_update pools id (fun n => n + bytes)

theorem poolSize_applyOp_ruleOp_of_ne (pools : Pools) (d : PoolId × Int) (id : PoolId)
    (h : id ≠ d.1) : poolSize (applyOp pools (ruleOp d)) id = poolSize pools id := by
  unfold ruleOp
  split
  · exact poolSize_map_update_of_ne pools d.1 id (fun n => n - (-d.2).toNat) h
  · exact poolSize_map_update_of_ne pools d.1 id (fun n => n + d.2.toNat) h

/-- An operation of the ordering rule that does not shrink a pool below 0 changes the
sum of the pool sizes by exactly its delta. -/
theorem totalSize_applyOp_ruleOp (pools : Pools) (d : PoolId × Int)
    (hnd : (pools.map Prod.fst).Nodup) (hid : d.1 ∈ pools.map Prod.fst)
    (hd : -(poolSize pools d.1 : Int) ≤ d.2) :
    (totalSize (applyOp pools (ruleOp d)) : Int) = (totalSize pools : Int) + d.2 := by
  unfold ruleOp
  split
  · have h := totalSize_map_update pools d.1 (fun n => n - (-d.2).toNat) hnd hid
    show ((totalSize (pools.map fun p =>
      if p.1 = d.1 then (p.1, p.2 - (-d.2).toNat) else p) : Nat) : Int) = _
    simp only at h
    omega
  · have h := totalSize_map_update pools d.1 (fun n => n + d.2.toNat) hnd hid
    show ((totalSize (pools.map fun p =>
      if p.1 = d.1 then (p.1, p.2 + d.2.toNat) else p) : Nat) : Int) = _
    simp only at h
    omega

/-- Applied to distinct existing pools, none shrunk below 0, the operations of the
ordering rule change the sum of the pool sizes by the sum of their deltas. -/
theorem totalSize_applyOps_ruleOp (ds : List (PoolId × Int)) :
    ∀ pools : Pools, (pools.map Prod.fst).Nodup → (ds.map Prod.fst).Nodup →
      (∀ d ∈ ds, d.1 ∈ pools.map Prod.fst ∧ -(poolSize pools d.1 : Int) ≤ d.2) →
      (totalSize (applyOps pools (ds.map ruleOp)) : Int) =
        (totalSize pools : Int) + (ds.map Prod.snd).sum := by
  induction ds with
  | nil => intro pools _ _ _; simp [applyOps]
  | cons d t ih =>
    intro pools hnd hds hmem
    rw [List.map_cons, List.nodup_cons] at hds
    have hd := hmem d (List.mem_cons_self _ _)
    have hstep := totalSize_applyOp_ruleOp pools d hnd hd.1 hd.2
    have hrest := ih (applyOp pools (ruleOp d)) (by rw [keys_applyOp]; exact hnd) hds.2
      (by
        intro x hx
        have hxm := hmem x (List.mem_cons_of_mem _ hx)
        have hne : x.1 ≠ d.1 := fun he => hds.1 (he ▸ List.mem_map_of_mem Prod.fst hx)
        rw [keys_applyOp, poolSize_applyOp_ruleOp_of_ne pools d x.1 hne]
        exact hxm)
    show (totalSize (List.foldl applyOp pools (ruleOp d :: t.map ruleOp)) : Int) = _
    rw [List.foldl_cons, List.map_cons, List.sum_cons]
    have hrest' : (totalSize (List.foldl applyOp (applyOp pools (ruleOp d)) (t.map ruleOp)) : Int)
        = _ := hrest
    rw [hrest', hstep]
    ring

/-- No prefix of a list sorted by delta sums to more than `max 0` of the whole sum. -/
theorem sum_take_le_of_sorted (l : List (PoolId × Int)) (hs : l.Sorted relLE) :
    ∀ k, ((l.take k).map Prod.snd).sum ≤ max 0 (l.map Prod.snd).sum := by
  induction l with
  | nil => intro k; simp
  | cons a t ih =>
    intro k
    cases k with
    | zero => simp
    | succ k =>
      have hle := List.rel_of_sorted_cons hs
      have ih' := ih hs.of_cons k
      rw [List.take_succ_cons, List.map_cons, List.sum_cons, List.map_cons, List.sum_cons]
      by_cases hneg : (t.map Prod.snd).sum < 0
      · have hex : ∃ x ∈ t, x.2 < 0 := by
          by_contra hcon
          push_neg at hcon
          have : 0 ≤ (t.map Prod.snd).sum :=
            List.sum_nonneg (by
              intro y hy
              obtain ⟨x, hx, rfl⟩ := List.mem_map.mp hy
              exact hcon x hx)
          omega
        obtain ⟨x, hx, hx0⟩ := hex
        have hax : a.2 ≤ x.2 := hle x hx
        have h1 : max 0 (t.map Prod.snd).sum = 0 := max_eq_left (le_of_lt hneg)
        rw [h1] at ih'
        have h2 : a.2 + (t.map Prod.snd).sum ≤ 0 := by omega
        rw [max_eq_left h2]
        omega
      · push_neg at hneg
        rw [max_eq_right hneg] at ih'
        exact le_trans (by omega) (le_max_right _ _)

theorem sum_exactDeltas (current : PoolId → Nat) (poolsizes : PoolSizes) :
    ((exactDeltas current poolsizes).map Prod.snd).sum =
      ((poolsizes.map Prod.snd).sum : Int) - ((poolsizes.map fun e => current e.1).sum : Int) := by
  unfold exactDeltas
  induction poolsizes with
  | nil => simp
  | cons e l ih =>
    rw [List.map_cons, List.filter_cons]
    by_cases h0 : (e.2 : Int) - (current e.1 : Int) = 0
    · simp only [h0, ne_eq, not_true_eq_false, decide_False, Bool.false_eq_true, if_false, ih,
        List.map_cons, List.sum_cons]
      push_cast
      omega
    · simp only [h0, ne_eq, not_false_eq_true, decide_True, if_true, ih,
        List.map_cons, List.sum_cons]
      push_cast
      omega

theorem keys_exactDeltas_sublist (current : PoolId → Nat) (poolsizes : PoolSizes) :
    ((exactDeltas current poolsizes).map Prod.fst).Sublist (poolsizes.map Prod.fst) := by
  have h : ((poolsizes.map fun e => (e.1, (e.2 : Int) - (current e.1 : Int))).map Prod.fst) =
      poolsizes.map Prod.fst := by
    rw [List.map_map]; rfl
  rw [← h]
  exact (List.filter_sublist _).map Prod.fst

/-- C2 (amended). For pools summing to at most `maxSize`, and a target map (sizes and
targets below 2^63) that names only existing pools and whose targets sum to the
current total of the pools it names, the pool sizes sum to at most `maxSize` after
every prefix of the calls made by `Resize`, each call changing its pool by exactly the
requested amount. -/
theorem Resize_stays_within_capacity (maxSize : Nat) (pools : Pools) (poolsizes : PoolSizes)
    (hpools : (pools.map Prod.fst).Nodup) (hreq : (poolsizes.map Prod.fst).Nodup)
    (hexist : ∀ e ∈ poolsizes, e.1 ∈ pools.map Prod.fst)
    (hlt : ∀ e ∈ poolsizes, e.2 < 2 ^ 63 ∧ poolSize pools e.1 < 2 ^ 63)
    (hcap : totalSize pools ≤ maxSize)
    (hsum : (poolsizes.map Prod.snd).sum = (poolsizes.map fun e => poolSize pools e.1).sum) :
    StaysWithinCapacity maxSize pools (Resize (poolSize pools) poolsizes).1 := by
  intro k
  rw [Resize_ops_eq_of_lt (poolSize pools) poolsizes hlt,
    relSizes_eq_of_lt (poolSize pools) poolsizes hlt, ← List.map_take]
  have hperm : (sortedRelSizes (exactDeltas (poolSize pools) poolsizes)).Perm
      (exactDeltas (poolSize pools) poolsizes) := List.perm_insertionSort relLE _
  have hsorted : (sortedRelSizes (exactDeltas (poolSize pools) poolsizes)).Sorted relLE :=
    List.sorted_insertionSort relLE _
  have hkeys : ((sortedRelSizes (exactDeltas (poolSize pools) poolsizes)).map Prod.fst).Nodup :=
    ((hperm.map Prod.fst).nodup_iff).mpr
      (hreq.sublist (keys_exactDeltas_sublist (poolSize pools) poolsizes))
  have htake := List.take_sublist k (sortedRelSizes (exactDeltas (poolSize pools) poolsizes))
  have htotal := totalSize_applyOps_ruleOp
    ((sortedRelSizes (exactDeltas (poolSize pools) poolsizes)).take k) pools hpools
    (hkeys.sublist (htake.map Prod.fst))
    (by
      intro d hd
      obtain ⟨e, he, rfl⟩ := mem_exactDeltas (hperm.mem_iff.mp (htake.subset hd))
      exact ⟨hexist e he, by simp only; omega⟩)
  have hzero : ((sortedRelSizes (exactDeltas (poolSize pools) poolsizes)).map Prod.snd).sum
      = 0 := by
    rw [(hperm.map Prod.snd).sum_eq, sum_exactDeltas, hsum]
    omega
  have hprefix := sum_take_le_of_sorted _ hsorted k
  rw [hzero, max_self] at hprefix
  omega

/-- Witness of C2: the scenario of the specification, capacity 1000, pools
{P0:800, P1:200} resized to {P0:300, P1:700}. -/
theorem Resize_stays_within_capacity_witness :
    StaysWithinCapacity 1000 [(0, 800), (1, 200)]
      (Resize (poolSize [(0, 800), (1, 200)]) [(0, 300), (1, 700)]).1 :=
  Resize_stays_within_capacity 1000 [(0, 800), (1, 200)] [(0, 300), (1, 700)]
    (by decide) (by decide) (by decide) (by decide) (by decide) (by decide)

/-- C2 as stated fails twice.  A target map that leaves a pool out: capacity 1000,
pools {P0:800, P1:200}, targets {P0:1000} sum to the current total 1000, and the
single call grow(P0,200) takes the sum to 1200.  Sizes beyond `int64_t`: capacity
2^64-1, pools {P0:2^63+2, P1:0, P2:0}, targets {P0:0, P1:2^62+1, P2:2^62+1}; all three
deltas are computed as positive and the sum ends at 3*2^63+2. -/
theorem Resize_exceeds_capacity :
    (totalSize [(0, 800), (1, 200)] ≤ 1000 ∧
      (([(0, 1000)] : PoolSizes).map Prod.snd).sum = totalSize [(0, 800), (1, 200)] ∧
      ¬ StaysWithinCapacity 1000 [(0, 800), (1, 200)]
        (Resize (poolSize [(0, 800), (1, 200)]) [(0, 1000)]).1) ∧
    (totalSize [(0, 2 ^ 63 + 2), (1, 0), (2, 0)] ≤ 2 ^ 64 - 1 ∧
      (([(0, 0), (1, 2 ^ 62 + 1), (2, 2 ^ 62 + 1)] : PoolSizes).map Prod.snd).sum =
        totalSize [(0, 2 ^ 63 + 2), (1, 0), (2, 0)] ∧
      ¬ StaysWithinCapacity (2 ^ 64 - 1) [(0, 2 ^ 63 + 2), (1, 0), (2, 0)]
        (Resize (poolSize [(0, 2 ^ 63 + 2), (1, 0), (2, 0)])
          [(0, 0), (1, 2 ^ 62 + 1), (2, 2 ^ 62 + 1)]).1) := by
  refine ⟨⟨by decide, by decide, fun h => ?_⟩, ⟨by decide, by decide, fun h => ?_⟩⟩
  · exact absurd (h 1) (by decide)
  · exact absurd (h 3) (by decide)

/-! ## `Orchestrator` -/

/-- C4. When the plan does not hold one `CacheResize` per registered proxy,
`Orchestrator::resize` sends no `Resize` RPC, leaves the proxy map alone, and the pools
of every agent are what they were. -/
theorem resize_discards_plan_of_other_length (o : Orchestrator) (plan : List CacheResize)
    (agents : Agents) (h : plan.length ≠ o.m_proxies.entries.length) :
    (o.resize plan).sent = [] ∧ (o.resize plan).proxies = o.m_proxies ∧
      (o.resize plan).nullDeref = false ∧
      deliverAll agents (o.resize plan).sent = agents := by
  have hr : o.resize plan = ⟨o.m_proxies, [], false⟩ := by
    unfold Orchestrator.resize
    rw [if_pos h]
  rw [hr]
  exact ⟨rfl, rfl, rfl, rfl⟩

/-- Witness of C4: two proxies and a plan of length 1. -/
theorem resize_discards_plan_of_other_length_witness :
    ((((⟨∅⟩ : Orchestrator).Connect "a").1.Connect "b").1.resize
      [⟨"a", [⟨0, 500⟩]⟩]).sent = [] :=
  (resize_discards_plan_of_other_length (((⟨∅⟩ : Orchestrator).Connect "a").1.Connect "b").1
    [⟨"a", [⟨0, 500⟩]⟩] (fun _ => []) (by decide)).1

/-- C6. `Connect(a)` twice: both calls return OK, one proxy entry is keyed by `a`, and
the keys are those after a single `Connect(a)`. -/
theorem Connect_twice (o : Orchestrator) (a : Address) :
    (o.Connect a).2 = Status.OK ∧ ((o.Connect a).1.Connect a).2 = Status.OK ∧
      ((o.Connect a).1.Connect a).1.m_proxies.keys.count a = 1 ∧
      ((o.Connect a).1.Connect a).1.m_proxies.keys = (o.Connect a).1.m_proxies.keys := by
  have hsame : ((o.Connect a).1.Connect a).1.m_proxies = (o.Connect a).1.m_proxies :=
    AList.insert_insert o.m_proxies
  refine ⟨rfl, rfl, ?_, by rw [hsame]⟩
  rw [hsame]
  exact List.count_eq_one_of_mem (AList.keys_nodup _)
    (AList.mem_keys.mp ((AList.mem_insert o.m_proxies).mpr (Or.inl rfl)))

/-- C7. `Disconnect(a)` returns OK and leaves a map without `a` in which every other
address has the entry it had; on a map without `a` nothing changes, and a second
`Disconnect(a)` changes nothing. -/
theorem Disconnect_erases (o : Orchestrator) (a : Address) :
    (o.Disconnect a).2 = Status.OK ∧ a ∉ (o.Disconnect a).1.m_proxies ∧
      (∀ b, b ≠ a → (o.Disconnect a).1.m_proxies.lookup b = o.m_proxies.lookup b) ∧
      (a ∉ o.m_proxies → (o.Disconnect a).1.m_proxies = o.m_proxies) ∧
      ((o.Disconnect a).1.Disconnect a).1.m_proxies = (o.Disconnect a).1.m_proxies := by
  have hnot : ∀ m : ProxyMap, a ∉ m → m.erase a = m := by
    intro m hm
    apply AList.ext
    show List.kerase a m.entries = m.entries
    exact List.kerase_of_not_mem_keys hm
  have hgone : a ∉ o.m_proxies.erase a := by
    rw [AList.mem_erase]
    exact fun h => h.1 rfl
  exact ⟨rfl, hgone, fun b hb => AList.lookup_erase_ne hb, hnot o.m_proxies,
    hnot (o.m_proxies.erase a) hgone⟩

/-- The loop of `getStatus` over proxies without a null stub ends normally; its
result holds the keys it started with and one key per proxy, mapped to the contents
of the response of that proxy. -/
theorem getStatusLoop_spec (rpc : Stub → GetStatusOutcome) :
    ∀ (l : List (Sigma fun _ : Address => Option Stub)) (acc : CacheStatuses),
      (∀ e ∈ l, e.2 ≠ none) → l.NodupKeys →
      ∃ r, getStatusLoop rpc l acc = some r ∧
        (∀ a, a ∈ r ↔ a ∈ acc ∨ a ∈ l.keys) ∧
        (∀ a proxy, (⟨a, some proxy⟩ : Sigma fun _ : Address => Option Stub) ∈ l →
          r.lookup a = some (rpc proxy).cachestatus) ∧
        (∀ a, a ∉ l.keys → r.lookup a = acc.lookup a) := by
  intro l
  induction l with
  | nil =>
    intro acc _ _
    exact ⟨acc, rfl, fun a => by simp, fun a proxy h => by simp at h, fun a _ => rfl⟩
  | cons e t ih =>
    intro acc hnn hnd
    obtain ⟨peer, p⟩ := e
    rw [List.nodupKeys_cons] at hnd
    cases p with
    | none => exact absurd rfl (hnn ⟨peer, none⟩ (List.mem_cons_self _ _))
    | some proxy =>
      obtain ⟨r, hr, hmem, hlook, hother⟩ :=
        ih (acc.insert peer (rpc proxy).cachestatus)
          (fun x hx => hnn x (List.mem_cons_of_mem _ hx)) hnd.2
      refine ⟨r, hr, ?_, ?_, ?_⟩
      · intro a
        rw [hmem a, AList.mem_insert, List.keys_cons, List.mem_cons]
        tauto
      · intro a q hq
        rw [List.mem_cons] at hq
        rcases hq with hq | hq
        · cases hq
          rw [hother _ hnd.1, AList.lookup_insert]
        · exact hlook a q hq
      · intro a ha
        rw [List.keys_cons, List.mem_cons, not_or] at ha
        rw [hother a ha.2, AList.lookup_insert_ne ha.1]

/-- C8 (amended). On a proxy map without a null stub and for every outcome of the
`GetStatus` RPCs, `getStatus` returns an entry for every registered proxy, whether
its RPC succeeded or not; the entry holds what the response object of that proxy
contains, and the proxy map is unchanged. -/
theorem getStatus_keeps_every_proxy (o : Orchestrator) (rpc : Stub → GetStatusOutcome)
    (hnn : ∀ e ∈ o.m_proxies.entries, e.2 ≠ none) :
    ∃ r, (o.getStatus rpc).1 = some r ∧
      (∀ a, a ∈ r ↔ a ∈ o.m_proxies) ∧
      (∀ a proxy, o.m_proxies.lookup a = some (some proxy) →
        r.lookup a = some (rpc proxy).cachestatus) ∧
      (o.getStatus rpc).2.m_proxies = o.m_proxies := by
  obtain ⟨r, hr, hmem, hlook, -⟩ :=
    getStatusLoop_spec rpc o.m_proxies.entries ∅ hnn o.m_proxies.nodupKeys
  refine ⟨r, hr, ?_, ?_, rfl⟩
  · intro a
    rw [hmem a]
    constructor
    · rintro (h | h)
      · exact absurd h (AList.not_mem_empty a)
      · exact h
    · exact fun h => Or.inr h
  · intro a proxy h
    exact hlook a proxy (AList.mem_lookup_iff.mp h)

/-- Witness of C8: one connected proxy whose `GetStatus` RPC fails. -/
theorem getStatus_keeps_every_proxy_witness :
    ∃ r, ((((⟨∅⟩ : Orchestrator).Connect "a").1).getStatus
        (fun _ => ⟨Status.Error, ⟨0, 0, []⟩⟩)).1 = some r ∧ "a" ∈ r := by
  obtain ⟨r, hr, hmem, -, -⟩ := getStatus_keeps_every_proxy
    ((⟨∅⟩ : Orchestrator).Connect "a").1 (fun _ => ⟨Status.Error, ⟨0, 0, []⟩⟩) (by decide)
  exact ⟨r, hr, (hmem "a").mpr (by decide)⟩

/-- C8 as stated fails: with one proxy `a` whose `GetStatus` RPC fails, the map
returned by `getStatus` still has an entry for `a`. -/
theorem getStatus_keeps_failed_proxy :
    ¬ DropsFailedProxies ((⟨∅⟩ : Orchestrator).Connect "a").1
      (fun _ => ⟨Status.Error, ⟨0, 0, []⟩⟩) := by
  rintro ⟨r, hr, h⟩
  have hr' : r = AList.insert "a" (⟨0, 0, []⟩ : CacheStatus) ∅ := by
    have : ((((⟨∅⟩ : Orchestrator).Connect "a").1).getStatus
        (fun _ => ⟨Status.Error, ⟨0, 0, []⟩⟩)).1 =
        some (AList.insert "a" (⟨0, 0, []⟩ : CacheStatus) ∅) := rfl
    rw [this] at hr
    exact (Option.some.inj hr).symm
  have ha : "a" ∈ r := by
    rw [hr', AList.mem_insert]
    exact Or.inl rfl
  obtain ⟨proxy, -, hok⟩ := (h "a").mp ha
  exact absurd (show Status.Error = Status.OK from hok) (by decide)

/-- C5 (code at the failing input). `a` and `b` connect, the controller observes them,
`b` disconnects and `c` connects, and the controller calls `resize` with its plan for
`a` and `b`.  The lengths agree, so `m_proxies[b]` inserts a null proxy under `b` and
dereferences it: `b` is a key of the proxy map although it is disconnected. -/
theorem resize_registers_unconnected_address :
    "b" ∈ ((⟨∅⟩ : Orchestrator).calls
        [OrchestratorCall.Connect "a", OrchestratorCall.Connect "b",
          OrchestratorCall.getStatus (fun _ => ⟨Status.OK, ⟨0, 0, []⟩⟩),
          OrchestratorCall.Disconnect "b", OrchestratorCall.Connect "c",
          OrchestratorCall.resize [⟨"a", []⟩, ⟨"b", []⟩]]).m_proxies ∧
      "b" ∉ connectedAddresses
        [OrchestratorCall.Connect "a", OrchestratorCall.Connect "b",
          OrchestratorCall.getStatus (fun _ => ⟨Status.OK, ⟨0, 0, []⟩⟩),
          OrchestratorCall.Disconnect "b", OrchestratorCall.Connect "c",
          OrchestratorCall.resize [⟨"a", []⟩, ⟨"b", []⟩]] ∧
      (((⟨∅⟩ : Orchestrator).calls
        [OrchestratorCall.Connect "a", OrchestratorCall.Connect "b",
          OrchestratorCall.getStatus (fun _ => ⟨Status.OK, ⟨0, 0, []⟩⟩),
          OrchestratorCall.Disconnect "b", OrchestratorCall.Connect "c"]).resize
        [⟨"a", []⟩, ⟨"b", []⟩]).nullDeref = true := by
  refine ⟨by decide, by decide, by decide⟩

/-! ## `Motivation` -/

theorem Motivation.sum_eq (caches : List (Address × CacheStatus)) :
    Motivation.sum caches = proportionSum caches := by
  have hin : ∀ (c : ℚ) (l : List (PoolId × PoolStatus)) (acc : ℚ),
      l.foldl (fun sum p => sum + p.2.m_proportion * c) acc =
        acc + (l.map fun p => c * p.2.m_proportion).sum := by
    intro c l
    induction l with
    | nil => intro acc; simp
    | cons p t ih =>
      intro acc
      rw [List.foldl_cons, ih, List.map_cons, List.sum_cons]
      ring
  have hout : ∀ (l : List (Address × CacheStatus)) (acc : ℚ),
      l.foldl (fun sum c =>
        c.2.m_pools.foldl (fun sum p => sum + p.2.m_proportion * c.2.m_proportion) sum) acc =
        acc + proportionSum l := by
    intro l
    induction l with
    | nil => intro acc; simp [proportionSum]
    | cons c t ih =>
      intro acc
      rw [List.foldl_cons, ih, hin]
      simp only [proportionSum, List.map_cons, List.sum_cons]
      ring
  unfold Motivation.sum
  rw [hout, zero_add]

/-- Whatever the statuses, the plan of `Motivation::loop` names the observed caches, in
order, and for each of them the observed pools, in order. -/
theorem Motivation.plan_shape (ub : Option ℚ → Nat) (caches : List (Address × CacheStatus)) :
    (Motivation.plan ub caches).map (fun r => r.m_kName) = caches.map (fun c => c.1) ∧
      (Motivation.plan ub caches).map (fun r => r.m_kPoolResizes.map fun q => q.m_kId) =
        caches.map (fun c => c.2.m_pools.map fun p => p.1) := by
  unfold Motivation.plan
  constructor
  · rw [List.map_map]
    rfl
  · rw [List.map_map]
    refine List.map_congr_left fun c _ => ?_
    simp only [Function.comp, List.map_map]
    rfl

/-- C10 (code at the failing input). `Motivation::loop` has no test of `sum`: its plan
names every observed cache and pool whatever the statuses.  With one connected cache
of capacity 1000 and proportion 0 holding one pool, `S = 0`, the target of the pool is
the conversion of 0/0, and the tick sends a `Resize` RPC carrying it. -/
theorem Motivation_loop_dispatches_with_zero_sum :
    (∀ (ub : Option ℚ → Nat) (caches : List (Address × CacheStatus)),
      (Motivation.plan ub caches).map (fun r => r.m_kPoolResizes.map fun q => q.m_kId) =
        caches.map (fun c => c.2.m_pools.map fun p => p.1)) ∧
      proportionSum [("a", ⟨1000, 0, [(0, ⟨1000, 0, 0, 0, 1, 0, 1, []⟩)]⟩)] = 0 ∧
      ∀ ub : Option ℚ → Nat,
        Option.map (fun r => r.sent)
          (Motivation.loop ub ((⟨∅⟩ : Orchestrator).Connect "a").1
            (fun _ => ⟨Status.OK, ⟨1000, 0, [(0, ⟨1000, 0, 0, 0, 1, 0, 1, []⟩)]⟩⟩)) =
          some [⟨⟨"a"⟩, [(0, ub none % 2 ^ 64)]⟩] := by
  refine ⟨fun ub caches => (Motivation.plan_shape ub caches).2,
    by norm_num [proportionSum], fun ub => ?_⟩
  have hstatus : (((⟨∅⟩ : Orchestrator).Connect "a").1.getStatus
      (fun _ => ⟨Status.OK, ⟨1000, 0, [(0, ⟨1000, 0, 0, 0, 1, 0, 1, []⟩)]⟩⟩)).1 =
      some (AList.insert "a" (⟨1000, 0, [(0, ⟨1000, 0, 0, 0, 1, 0, 1, []⟩)]⟩ : CacheStatus) ∅) :=
    rfl
  have hentries : statusList (AList.insert "a"
      (⟨1000, 0, [(0, ⟨1000, 0, 0, 0, 1, 0, 1, []⟩)]⟩ : CacheStatus) ∅) =
      [("a", ⟨1000, 0, [(0, ⟨1000, 0, 0, 0, 1, 0, 1, []⟩)]⟩)] := rfl
  have hsum : Motivation.sum [("a", ⟨1000, 0, [(0, ⟨1000, 0, 0, 0, 1, 0, 1, []⟩)]⟩)] = 0 := by
    norm_num [Motivation.sum]
  have hplan : Motivation.plan ub [("a", ⟨1000, 0, [(0, ⟨1000, 0, 0, 0, 1, 0, 1, []⟩)]⟩)] =
      [⟨"a", [⟨0, ub none % 2 ^ 64⟩]⟩] := by
    unfold Motivation.plan Motivation.target
    rw [hsum]
    simp [doubleDiv, doubleToUInt64]
  unfold Motivation.loop
  rw [hstatus]
  simp only [hentries, hplan, Option.map_some']
  rfl

/-! ## The pools of an agent after `Resize` -/

theorem doubleToUInt64_of_nonneg (ub : Option ℚ → Nat) {q : ℚ} (h₀ : 0 ≤ q) (h₁ : q < 2 ^ 64) :
    doubleToUInt64 ub (some q) = ⌊q⌋.toNat := by
  unfold doubleToUInt64
  simp only
  rw [if_pos ⟨by linarith, h₁⟩]

theorem cast_floor_toNat_le {q : ℚ} (h₀ : 0 ≤ q) : ((⌊q⌋.toNat : Nat) : ℚ) ≤ q := by
  have h : ((⌊q⌋.toNat : Nat) : Int) = ⌊q⌋ := Int.toNat_of_nonneg (Int.floor_nonneg.mpr h₀)
  have h' : ((⌊q⌋.toNat : Nat) : ℚ) = ((⌊q⌋ : Int) : ℚ) := by exact_mod_cast h
  rw [h']
  exact Int.floor_le q

theorem floor_toNat_le_of_le {q : ℚ} {n : Nat} (h : q ≤ n) : ⌊q⌋.toNat ≤ n := by
  rw [Int.toNat_le]
  have h1 : ((⌊q⌋ : Int) : ℚ) ≤ ((n : Int) : ℚ) := le_trans (Int.floor_le q) (by simpa using h)
  exact_mod_cast h1

theorem getElem?_modifyAt {α : Type} (f : α → α) :
    ∀ (i : Nat) (l : List α) (j : Nat),
      (modifyAt f i l)[j]? = if i = j then (l[j]?).map f else l[j]? := by
  intro i l
  induction l generalizing i with
  | nil => intro j; simp [modifyAt]
  | cons a t ih =>
    intro j
    cases i with
    | zero =>
      cases j with
      | zero => simp [modifyAt]
      | succ j => simp [modifyAt]
    | succ i =>
      cases j with
      | zero => simp [modifyAt]
      | succ j =>
        have := ih i j
        simp only [modifyAt, List.getElem?_cons_succ, this]
        by_cases h : i = j <;> simp [h]

theorem map_modifyAt_of_eq {α β : Type} (f : α → α) (g : α → β) (h : ∀ a, g (f a) = g a) :
    ∀ (i : Nat) (l : List α), (modifyAt f i l).map g = l.map g := by
  intro i l
  induction l generalizing i with
  | nil => simp [modifyAt]
  | cons a t ih =>
    cases i with
    | zero => simp [modifyAt, h]
    | succ i => simp [modifyAt, ih i]

theorem sum_map_modifyAt {α : Type} (f : α → α) (g : α → Nat) :
    ∀ (i : Nat) (l : List α) (a : α), l[i]? = some a →
      ((modifyAt f i l).map g).sum + g a = (l.map g).sum + g (f a) := by
  intro i l
  induction l generalizing i with
  | nil => intro a h; simp at h
  | cons b t ih =>
    intro a h
    cases i with
    | zero =>
      simp only [List.getElem?_cons_zero, Option.some.injEq] at h
      subst h
      simp only [modifyAt, List.map_cons, List.sum_cons]
      omega
    | succ i =>
      simp only [List.getElem?_cons_succ] at h
      have := ih i a h
      simp only [modifyAt, List.map_cons, List.sum_cons]
      omega

theorem forall_mem_modifyAt {α : Type} (f : α → α) (P : α → Prop) :
    ∀ (i : Nat) (l : List α), (∀ a ∈ l, P a) → (∀ a, l[i]? = some a → P (f a)) →
      ∀ a ∈ modifyAt f i l, P a := by
  intro i l
  induction l generalizing i with
  | nil => intro _ _ a ha; simp [modifyAt] at ha
  | cons b t ih =>
    intro hall hf a ha
    cases i with
    | zero =>
      simp only [modifyAt, List.mem_cons] at ha
      rcases ha with rfl | ha
      · exact hf b (by simp)
      · exact hall a (List.mem_cons_of_mem _ ha)
    | succ i =>
      simp only [modifyAt, List.mem_cons] at ha
      rcases ha with rfl | ha
      · exact hall a (List.mem_cons_self _ _)
      · exact ih i (fun x hx => hall x (List.mem_cons_of_mem _ hx))
          (fun x hx => hf x (by simpa using hx)) a ha

theorem Context.keys_setOptimalSize (ctx : Context) (i j size : Nat) :
    (ctx.setOptimalSize i j size).keys = ctx.keys := by
  unfold Context.keys Context.setOptimalSize
  refine map_modifyAt_of_eq _ _ (fun c => ?_) i ctx.m_cacheConfigs
  simp only
  congr 1
  exact map_modifyAt_of_eq
    (fun p : PoolId × PoolConfig => (p.1, { p.2 with m_optimalSize := size })) Prod.fst
    (fun _ => rfl) j c.2.m_poolConfigs

theorem Context.poolAt_setOptimalSize (ctx : Context) (i j size i' j' : Nat) :
    (ctx.setOptimalSize i j size).poolAt i' j' =
      (ctx.poolAt i' j').map fun p =>
        if i = i' ∧ j = j' then { p with m_optimalSize := size } else p := by
  unfold Context.poolAt Context.setOptimalSize
  simp only
  rw [getElem?_modifyAt]
  by_cases hi : i = i'
  · subst hi
    cases hc : ctx.m_cacheConfigs[i]? with
    | none => simp
    | some c =>
      simp only [if_true, Option.map_some', Option.some_bind, true_and]
      rw [getElem?_modifyAt]
      by_cases hj : j = j'
      · subst hj
        cases hp : c.2.m_poolConfigs[j]? with
        | none => simp
        | some q => simp
      · cases hp : c.2.m_poolConfigs[j']? with
        | none => simp [hj]
        | some q => simp [hj]
  · cases hc : ctx.m_cacheConfigs[i']? with
    | none => simp [hi]
    | some c =>
      cases hp : c.2.m_poolConfigs[j']? with
      | none => simp [hi, hp]
      | some q => simp [hi, hp]

theorem Context.totalOptimalSize_setOptimalSize (ctx : Context) (i j size : Nat)
    (pool : PoolConfig) (h : ctx.poolAt i j = some pool) :
    (ctx.setOptimalSize i j size).totalOptimalSize + pool.m_optimalSize =
      ctx.totalOptimalSize + size := by
  unfold Context.poolAt at h
  cases hc : ctx.m_cacheConfigs[i]? with
  | none => simp [hc] at h
  | some c =>
    rw [hc, Option.some_bind] at h
    cases hp : c.2.m_poolConfigs[j]? with
    | none => simp [hp] at h
    | some q =>
      rw [hp, Option.map_some', Option.some.injEq] at h
      have hin := sum_map_modifyAt
        (fun p : PoolId × PoolConfig => (p.1, { p.2 with m_optimalSize := size }))
        (fun p => p.2.m_optimalSize) j c.2.m_poolConfigs q hp
      have hout := sum_map_modifyAt
        (fun c : Address × CacheConfig =>
          (c.1, (⟨modifyAt (fun p => (p.1, { p.2 with m_optimalSize := size })) j
            c.2.m_poolConfigs⟩ : CacheConfig)))
        (fun c => (c.2.m_poolConfigs.map fun p => p.2.m_optimalSize).sum)
        i ctx.m_cacheConfigs c hc
      simp only at hin hout
      unfold Context.totalOptimalSize Context.setOptimalSize
      simp only
      rw [← h]
      omega

theorem Context.inBounds_setOptimalSize (ctx : Context) (i j size : Nat) (pool : PoolConfig)
    (hctx : ctx.InBounds) (h : ctx.poolAt i j = some pool)
    (hlo : pool.m_lowerBound ≤ size) (hhi : size ≤ pool.m_upperBound) :
    (ctx.setOptimalSize i j size).InBounds := by
  unfold Context.InBounds Context.setOptimalSize
  simp only
  refine forall_mem_modifyAt _
    (fun c : Address × CacheConfig => ∀ p ∈ c.2.m_poolConfigs, p.2.InBounds) i
    ctx.m_cacheConfigs hctx ?_
  intro c hc
  simp only
  refine forall_mem_modifyAt _ (fun p : PoolId × PoolConfig => p.2.InBounds) j
    c.2.m_poolConfigs (hctx c (List.getElem?_mem hc)) ?_
  intro q hq
  have hpool : pool = q.2 := by
    unfold Context.poolAt at h
    rw [hc, Option.some_bind, hq, Option.map_some', Option.some.injEq] at h
    exact h.symm
  have hb := hctx c (List.getElem?_mem hc) q (List.getElem?_mem hq)
  subst hpool
  exact ⟨hlo, hhi, hb.2.2⟩

theorem Context.inBounds_of_poolAt (ctx : Context) (i j : Nat) (pool : PoolConfig)
    (hctx : ctx.InBounds) (h : ctx.poolAt i j = some pool) : pool.InBounds := by
  unfold Context.poolAt at h
  cases hc : ctx.m_cacheConfigs[i]? with
  | none => simp [hc] at h
  | some c =>
    rw [hc, Option.some_bind] at h
    cases hp : c.2.m_poolConfigs[j]? with
    | none => simp [hp] at h
    | some q =>
      rw [hp, Option.map_some', Option.some.injEq] at h
      rw [← h]
      exact hctx c (List.getElem?_mem hc) q (List.getElem?_mem hp)

theorem toInt32_le_of_pos {n : Nat} (h : 0 < toInt32 n) : toInt32 n ≤ (n : Int) := by
  unfold toInt32 at h ⊢
  have hmod : n % 2 ^ 32 ≤ n := Nat.mod_le _ _
  split at h <;> split <;> omega

theorem randomUniformInt_lt {max : Int} (h : 0 < max) (draw : Nat) :
    0 ≤ randomUniformInt max draw ∧ randomUniformInt max draw < max := by
  unfold randomUniformInt
  rw [if_neg (by omega)]
  have hpos : 0 < max.toNat := by omega
  have hlt := Nat.mod_lt draw hpos
  omega

/-- The exchange made by `Context::step` between two pools within their bounds keeps
every pool within its bounds, the keys, and the sum of the optimal sizes. -/
theorem Context.trade_preserves (ctx : Context) (i₁ j₁ i₂ j₂ : Nat)
    (pool1 pool2 pool2' : PoolConfig) (delta : Int) (hctx : ctx.InBounds)
    (h₁ : ctx.poolAt i₁ j₁ = some pool1) (h₂ : ctx.poolAt i₂ j₂ = some pool2)
    (h0 : 0 ≤ delta)
    (hlt : delta < toInt32 (min
      ((pool1.m_optimalSize + (2 ^ 64 - pool1.m_lowerBound % 2 ^ 64)) % 2 ^ 64)
      ((pool2.m_upperBound + (2 ^ 64 - pool2.m_optimalSize % 2 ^ 64)) % 2 ^ 64)))
    (h₂' : (ctx.setOptimalSize i₁ j₁
      ((pool1.m_optimalSize + (2 ^ 64 - delta.toNat)) % 2 ^ 64)).poolAt i₂ j₂ = some pool2') :
    ((ctx.setOptimalSize i₁ j₁
        ((pool1.m_optimalSize + (2 ^ 64 - delta.toNat)) % 2 ^ 64)).setOptimalSize i₂ j₂
        ((pool2'.m_optimalSize + delta.toNat) % 2 ^ 64)).InBounds ∧
      ((ctx.setOptimalSize i₁ j₁
        ((pool1.m_optimalSize + (2 ^ 64 - delta.toNat)) % 2 ^ 64)).setOptimalSize i₂ j₂
        ((pool2'.m_optimalSize + delta.toNat) % 2 ^ 64)).keys = ctx.keys ∧
      ((ctx.setOptimalSize i₁ j₁
        ((pool1.m_optimalSize + (2 ^ 64 - delta.toNat)) % 2 ^ 64)).setOptimalSize i₂ j₂
        ((pool2'.m_optimalSize + delta.toNat) % 2 ^ 64)).totalOptimalSize =
        ctx.totalOptimalSize := by
  obtain ⟨b1lo, b1hi, b1u⟩ := ctx.inBounds_of_poolAt i₁ j₁ pool1 hctx h₁
  obtain ⟨b2lo, b2hi, b2u⟩ := ctx.inBounds_of_poolAt i₂ j₂ pool2 hctx h₂
  have hM1 : (pool1.m_optimalSize + (2 ^ 64 - pool1.m_lowerBound % 2 ^ 64)) % 2 ^ 64 =
      pool1.m_optimalSize - pool1.m_lowerBound := by omega
  have hM2 : (pool2.m_upperBound + (2 ^ 64 - pool2.m_optimalSize % 2 ^ 64)) % 2 ^ 64 =
      pool2.m_upperBound - pool2.m_optimalSize := by omega
  rw [hM1, hM2] at hlt
  have hle := toInt32_le_of_pos (lt_of_le_of_lt h0 hlt)
  have hmin1 : min (pool1.m_optimalSize - pool1.m_lowerBound)
      (pool2.m_upperBound - pool2.m_optimalSize) ≤ pool1.m_optimalSize - pool1.m_lowerBound :=
    min_le_left _ _
  have hmin2 : min (pool1.m_optimalSize - pool1.m_lowerBound)
      (pool2.m_upperBound - pool2.m_optimalSize) ≤ pool2.m_upperBound - pool2.m_optimalSize :=
    min_le_right _ _
  have hd1 : delta.toNat < pool1.m_optimalSize - pool1.m_lowerBound := by omega
  have hd2 : delta.toNat < pool2.m_upperBound - pool2.m_optimalSize := by omega
  have hv1 : (pool1.m_optimalSize + (2 ^ 64 - delta.toNat)) % 2 ^ 64 =
      pool1.m_optimalSize - delta.toNat := by omega
  rw [hv1] at h₂' ⊢
  have hctx1 := ctx.inBounds_setOptimalSize i₁ j₁ (pool1.m_optimalSize - delta.toNat) pool1
    hctx h₁ (by omega) (by omega)
  have ht1 := ctx.totalOptimalSize_setOptimalSize i₁ j₁ (pool1.m_optimalSize - delta.toNat)
    pool1 h₁
  have ht2 := (ctx.setOptimalSize i₁ j₁ (pool1.m_optimalSize - delta.toNat)).totalOptimalSize_setOptimalSize
    i₂ j₂ ((pool2'.m_optimalSize + delta.toNat) % 2 ^ 64) pool2' h₂'
  have hkeys : ((ctx.setOptimalSize i₁ j₁ (pool1.m_optimalSize - delta.toNat)).setOptimalSize
      i₂ j₂ ((pool2'.m_optimalSize + delta.toNat) % 2 ^ 64)).keys = ctx.keys := by
    rw [Context.keys_setOptimalSize, Context.keys_setOptimalSize]
  have hp2 := h₂'
  rw [Context.poolAt_setOptimalSize, h₂, Option.map_some', Option.some.injEq] at hp2
  by_cases hsame : i₁ = i₂ ∧ j₁ = j₂
  · rw [if_pos hsame] at hp2
    obtain ⟨hi, hj⟩ := hsame
    subst hi hj
    have hpp : pool1 = pool2 := by
      rw [h₁] at h₂
      exact Option.some.inj h₂
    subst hpp
    subst hp2
    simp only at ht2 ⊢
    have hv2 : (pool1.m_optimalSize - delta.toNat + delta.toNat) % 2 ^ 64 =
        pool1.m_optimalSize := by omega
    rw [hv2] at ht2 ⊢
    refine ⟨?_, hkeys ▸ ?_, by omega⟩
    · exact Context.inBounds_setOptimalSize _ _ _ _ _ hctx1 h₂' b1lo b1hi
    · rw [hv2]
  · rw [if_neg hsame] at hp2
    subst hp2
    have hv2 : (pool2.m_optimalSize + delta.toNat) % 2 ^ 64 =
        pool2.m_optimalSize + delta.toNat := by omega
    rw [hv2] at ht2 hkeys ⊢
    refine ⟨?_, hkeys, by omega⟩
    exact Context.inBounds_setOptimalSize _ _ _ _ _ hctx1 h₂' (by omega) (by omega)

/-- A call of `Context::step` on a context within its bounds keeps every pool within
its bounds, the keys, and the sum of the optimal sizes. -/
theorem Context.step_preserves (ctx next : Context) (r : StepDraws) (hctx : ctx.InBounds)
    (h : ctx.step r = some next) :
    next.InBounds ∧ next.keys = ctx.keys ∧ next.totalOptimalSize = ctx.totalOptimalSize := by
  unfold Context.step at h
  simp only at h
  split at h
  · split at h
    · exact absurd h (by simp)
    · split at h
      · rename_i pool1 pool2 hp1 hp2
        split at h
        · rename_i hpos
          split at h
          · rename_i pool2' hp2'
            rw [Option.some.injEq] at h
            rw [← h]
            exact Context.trade_preserves ctx _ _ _ _ pool1 pool2 pool2' _ hctx hp1 hp2
              (randomUniformInt_lt hpos r.delta).1 (randomUniformInt_lt hpos r.delta).2 hp2'
          · exact absurd h (by simp)
        · cases h
          exact ⟨hctx, rfl, rfl⟩
      · exact absurd h (by simp)
  · exact absurd h (by simp)

theorem Context.run_preserves (ctx final : Context) (hctx : ctx.InBounds)
    (h : ctx.Run final) :
    final.InBounds ∧ final.keys = ctx.keys ∧ final.totalOptimalSize = ctx.totalOptimalSize := by
  unfold Context.Run at h
  split at h
  · subst h
    exact ⟨hctx, rfl, rfl⟩
  · induction h with
    | refl => exact ⟨hctx, rfl, rfl⟩
    | tail _ hstep ih =>
      obtain ⟨r, hr⟩ := hstep
      obtain ⟨h1, h2, h3⟩ := Context.step_preserves _ _ r ih.1 hr
      exact ⟨h1, h2.trans ih.2.1, h3.trans ih.2.2⟩

/-! ## Preliminary sizes of `PerformanceMaximization` -/

namespace PerformanceMaximization

theorem sum_map_ite_isNew (l : List PoolStatus) (a : ℚ) (b : PoolStatus → ℚ) :
    (l.map fun p => if isNew p = true then a else b p).sum =
      (l.countP isNew : ℚ) * a + ((l.filter fun p => !isNew p).map b).sum := by
  induction l with
  | nil => simp
  | cons p t ih =>
    rw [List.map_cons, List.sum_cons, ih]
    by_cases h : isNew p = true
    · rw [List.countP_cons_of_pos _ _ h, List.filter_cons_of_neg (by simp [h]), if_pos h]
      push_cast
      ring
    · rw [List.countP_cons_of_neg _ _ h, List.filter_cons_of_pos (by simp [h]), if_neg h,
        List.map_cons, List.sum_cons]
      ring

theorem length_filter_usable (l : List PoolStatus) :
    (l.filter fun p => !isNew p).length + l.countP isNew = l.length := by
  induction l with
  | nil => rfl
  | cons p t ih =>
    by_cases h : isNew p = true
    · rw [List.countP_cons_of_pos _ _ h, List.filter_cons_of_neg (by simp [h]), List.length_cons]
      omega
    · rw [List.countP_cons_of_neg _ _ h, List.filter_cons_of_pos (by simp [h]), List.length_cons,
        List.length_cons]
      omega

end PerformanceMaximization

namespace PerformanceMaximization

/-- The sum of the used sizes of the pools with a usable MRC, before it is reduced to
64 bits. -/
theorem usedSpace_eq (all : List (Address × CacheStatus))
    (hU : (((observedPools all).filter fun p => !isNew p).map fun p => p.m_usedSize).sum < 2 ^ 64) :
    usedSpace all =
      (((observedPools all).filter fun p => !isNew p).map fun p => p.m_usedSize).sum := by
  unfold usedSpace
  exact Nat.mod_eq_of_lt hU

theorem totalSize_eq_totalCapacity (all : List (Address × CacheStatus)) (hT : totalCapacity all < 2 ^ 64) :
    totalSize all = totalCapacity all := by
  unfold totalSize
  exact Nat.mod_eq_of_lt hT

theorem newPoolsShare_eq (all : List (Address × CacheStatus)) (hT : totalCapacity all < 2 ^ 64)
    (hmT : newPools all * totalCapacity all < 2 ^ 64) :
    newPoolsShare all = (newPools all : ℚ) * (totalCapacity all : ℚ) / (pools all : ℚ) := by
  unfold newPoolsShare
  rw [totalSize_eq_totalCapacity all hT, Nat.mod_eq_of_lt hmT]
  push_cast
  rfl

/-- The exact value whose integer part is the preliminary size of a pool. -/
theorem exact_newPoolSize (ub : Option ℚ → Nat) (all : List (Address × CacheStatus))
    (hT : totalCapacity all < 2 ^ 64)
    (hU : (((observedPools all).filter fun p => !isNew p).map fun p => p.m_usedSize).sum < 2 ^ 64)
    (hmT : newPools all * totalCapacity all < 2 ^ 64) :
    ∃ x : PoolStatus → ℚ,
      (∀ ps ∈ observedPools all, 0 ≤ x ps ∧ x ps ≤ (totalCapacity all : ℚ) ∧
        newPoolSize ub all ps = ⌊x ps⌋.toNat) ∧
      ((observedPools all).map x).sum ≤ (totalCapacity all : ℚ) := by
  have hTq : (0 : ℚ) ≤ (totalCapacity all : ℚ) := Nat.cast_nonneg _
  have hTlt : (totalCapacity all : ℚ) < 2 ^ 64 := by exact_mod_cast hT
  have hcount := length_filter_usable (observedPools all)
  have hmn : newPools all ≤ pools all := by
    unfold newPools pools
    omega
  by_cases hn : pools all = 0
  · refine ⟨fun _ => 0, ?_, ?_⟩
    · intro ps hps
      have : (observedPools all).length = 0 := hn
      rw [List.length_eq_zero] at this
      rw [this] at hps
      simp at hps
    · have : (observedPools all) = [] := List.length_eq_zero.mp hn
      rw [this]
      simp
  have hnpos : (0 : ℚ) < (pools all : ℚ) := by
    have : 0 < pools all := Nat.pos_of_ne_zero hn
    exact_mod_cast this
  have hX := newPoolsShare_eq all hT hmT
  have hXle : newPoolsShare all ≤ (totalCapacity all : ℚ) := by
    rw [hX, div_le_iff₀ hnpos, mul_comm]
    exact mul_le_mul_of_nonneg_left (by exact_mod_cast hmn) hTq
  have hX0 : 0 ≤ newPoolsShare all := by
    rw [hX]
    exact div_nonneg (mul_nonneg (Nat.cast_nonneg _) hTq) (le_of_lt hnpos)
  have hshare : 0 ≤ (totalCapacity all : ℚ) / (pools all : ℚ) ∧
      (totalCapacity all : ℚ) / (pools all : ℚ) ≤ (totalCapacity all : ℚ) := by
    refine ⟨div_nonneg hTq (le_of_lt hnpos), ?_⟩
    rw [div_le_iff₀ hnpos]
    have h1 : (1 : ℚ) ≤ (pools all : ℚ) := by
      have : 1 ≤ pools all := Nat.pos_of_ne_zero hn
      exact_mod_cast this
    nlinarith
  have hUeq := usedSpace_eq all hU
  have hTeq := totalSize_eq_totalCapacity all hT
  by_cases hUz : usedSpace all = 0
  · -- no used space: every pool gets `T / pools`
    have hfactor : kAdjustmentFactor all = 0 := by
      unfold kAdjustmentFactor
      rw [if_neg (by simpa using hUz)]
    refine ⟨fun _ => (totalCapacity all : ℚ) / (pools all : ℚ), ?_, ?_⟩
    · intro ps hps
      refine ⟨hshare.1, hshare.2, ?_⟩
      unfold newPoolSize
      by_cases hnew : isNew ps = true
      · rw [if_pos hnew, hTeq, doubleToUInt64_of_nonneg ub hshare.1 (by linarith)]
      · rw [if_neg hnew]
        have hmem : ps ∈ (observedPools all).filter fun p => !isNew p :=
          List.mem_filter.mpr ⟨hps, by simpa using hnew⟩
        have hlen : 0 < ((observedPools all).filter fun p => !isNew p).length :=
          List.length_pos_of_mem hmem
        have hlt : newPools all < pools all := by
          unfold newPools pools
          omega
        have hdelta : kAdjustmentDelta all = (totalCapacity all : ℚ) / (pools all : ℚ) := by
          unfold kAdjustmentDelta
          rw [hfactor, hX, hTeq]
          have hd : ((((pools all : Int) - (newPools all : Int) : Int)) : ℚ) =
              (pools all : ℚ) - (newPools all : ℚ) := by
            push_cast
            ring
          have hdpos : (0 : ℚ) < (pools all : ℚ) - (newPools all : ℚ) := by
            have : (newPools all : ℚ) < (pools all : ℚ) := by exact_mod_cast hlt
            linarith
          rw [hd]
          field_simp
          ring
        rw [hfactor, hdelta, mul_zero, zero_add, max_eq_right hshare.1,
          doubleToUInt64_of_nonneg ub hshare.1 (by linarith)]
    · rw [List.map_const', List.sum_replicate, nsmul_eq_mul]
      have : ((observedPools all).length : ℚ) = (pools all : ℚ) := rfl
      rw [this, mul_div_cancel₀ _ (ne_of_gt hnpos)]
  · -- some used space: the pools with a usable MRC share what the new pools leave
    have hUpos : (0 : ℚ) < (usedSpace all : ℚ) := by
      have : 0 < usedSpace all := Nat.pos_of_ne_zero hUz
      exact_mod_cast this
    have hfactor : kAdjustmentFactor all =
        ((totalCapacity all : ℚ) - newPoolsShare all) / (usedSpace all : ℚ) := by
      unfold kAdjustmentFactor
      rw [if_pos (by simpa using hUz), hTeq]
    have hfnn : 0 ≤ kAdjustmentFactor all := by
      rw [hfactor]
      exact div_nonneg (by linarith) (le_of_lt hUpos)
    have hfU : kAdjustmentFactor all * (usedSpace all : ℚ) =
        (totalCapacity all : ℚ) - newPoolsShare all := by
      rw [hfactor, div_mul_cancel₀ _ (ne_of_gt hUpos)]
    have hdelta : kAdjustmentDelta all = 0 := by
      unfold kAdjustmentDelta
      rw [hfU, hTeq, sub_self, zero_div]
    refine ⟨fun ps => if isNew ps = true then (totalCapacity all : ℚ) / (pools all : ℚ)
      else (ps.m_usedSize : ℚ) * kAdjustmentFactor all, ?_, ?_⟩
    · intro ps hps
      by_cases hnew : isNew ps = true
      · simp only [if_pos hnew]
        refine ⟨hshare.1, hshare.2, ?_⟩
        unfold newPoolSize
        rw [if_pos hnew, hTeq, doubleToUInt64_of_nonneg ub hshare.1 (by linarith)]
      · simp only [if_neg hnew]
        have hmem : ps.m_usedSize ∈
            ((observedPools all).filter fun p => !isNew p).map fun p => p.m_usedSize :=
          List.mem_map_of_mem _ (List.mem_filter.mpr ⟨hps, by simpa using hnew⟩)
        have hle : ps.m_usedSize ≤ usedSpace all := by
          rw [hUeq]
          exact List.single_le_sum (fun _ _ => Nat.zero_le _) _ hmem
        have h0 : 0 ≤ (ps.m_usedSize : ℚ) * kAdjustmentFactor all :=
          mul_nonneg (Nat.cast_nonneg _) hfnn
        have h1 : (ps.m_usedSize : ℚ) * kAdjustmentFactor all ≤ (totalCapacity all : ℚ) := by
          have : (ps.m_usedSize : ℚ) * kAdjustmentFactor all ≤
              (usedSpace all : ℚ) * kAdjustmentFactor all :=
            mul_le_mul_of_nonneg_right (by exact_mod_cast hle) hfnn
          rw [mul_comm (usedSpace all : ℚ), hfU] at this
          linarith
        refine ⟨h0, h1, ?_⟩
        unfold newPoolSize
        rw [if_neg hnew, hdelta, add_zero, max_eq_right h0,
          doubleToUInt64_of_nonneg ub h0 (by linarith)]
    · rw [sum_map_ite_isNew, List.sum_map_mul_right]
      have hcast : (((observedPools all).filter fun p => !isNew p).map
          fun p => (p.m_usedSize : ℚ)).sum = (usedSpace all : ℚ) := by
        rw [hUeq, Nat.cast_list_sum, List.map_map]
        rfl
      rw [hcast, mul_comm (usedSpace all : ℚ), hfU]
      have hm : ((observedPools all).countP isNew : ℚ) * ((totalCapacity all : ℚ) /
          (pools all : ℚ)) = newPoolsShare all := by
        rw [hX]
        have : ((observedPools all).countP isNew : ℚ) = (newPools all : ℚ) := rfl
        rw [this]
        ring
      rw [hm]
      linarith

/-- In exact arithmetic and without overflow, each preliminary size is at most `T` and
the preliminary sizes of all observed pools sum to at most `T`. -/
theorem newPoolSize_le_totalCapacity (ub : Option ℚ → Nat) (all : List (Address × CacheStatus))
    (hT : totalCapacity all < 2 ^ 64)
    (hU : (((observedPools all).filter fun p => !isNew p).map fun p => p.m_usedSize).sum < 2 ^ 64)
    (hmT : newPools all * totalCapacity all < 2 ^ 64) :
    (∀ ps ∈ observedPools all, newPoolSize ub all ps ≤ totalCapacity all) ∧
      ((observedPools all).map (newPoolSize ub all)).sum ≤ totalCapacity all := by
  obtain ⟨x, hx, hsum⟩ := exact_newPoolSize ub all hT hU hmT
  constructor
  · intro ps hps
    obtain ⟨-, h1, he⟩ := hx ps hps
    rw [he]
    exact floor_toNat_le_of_le h1
  · have hle : ((((observedPools all).map (newPoolSize ub all)).sum : Nat) : ℚ) ≤
        ((observedPools all).map x).sum := by
      rw [Nat.cast_list_sum, List.map_map]
      refine List.sum_le_sum fun ps hps => ?_
      obtain ⟨h0, -, he⟩ := hx ps hps
      simp only [Function.comp]
      rw [he]
      exact cast_floor_toNat_le h0
    exact_mod_cast le_trans hle hsum

end PerformanceMaximization

/-! ## The context built by `PerformanceMaximization` -/

namespace PerformanceMaximization

theorem poolConfigs_spec (config : PoolId → PoolStatus → Option PoolConfig)
    (f : PoolStatus → Nat) :
    ∀ (ps : List (PoolId × PoolStatus)) (pcs : List (PoolId × PoolConfig)),
      poolConfigs config ps = some pcs →
      (∀ p ∈ ps, isNew p.2 = false → ∀ pc, config p.1 p.2 = some pc →
        pc.m_optimalSize = f p.2 ∧ pc.InBounds) →
      pcs.map Prod.fst = (ps.filter fun p => !isNew p.2).map Prod.fst ∧
        (∀ q ∈ pcs, q.2.InBounds) ∧
        (pcs.map fun q => q.2.m_optimalSize).sum =
          (ps.map fun p => if isNew p.2 = true then 0 else f p.2).sum := by
  intro ps
  induction ps with
  | nil =>
    intro pcs h _
    simp only [poolConfigs, Option.some.injEq] at h
    subst h
    simp
  | cons p t ih =>
    intro pcs h hcfg
    have hcfg' : ∀ q ∈ t, isNew q.2 = false → ∀ pc, config q.1 q.2 = some pc →
        pc.m_optimalSize = f q.2 ∧ pc.InBounds :=
      fun q hq => hcfg q (List.mem_cons_of_mem _ hq)
    unfold poolConfigs at h
    by_cases hnew : isNew p.2 = true
    · rw [if_pos hnew] at h
      obtain ⟨h1, h2, h3⟩ := ih pcs h hcfg'
      refine ⟨?_, h2, ?_⟩
      · rw [h1, List.filter_cons_of_neg (by simp [hnew])]
      · rw [h3, List.map_cons, List.sum_cons, if_pos hnew, zero_add]
    · rw [if_neg hnew] at h
      have hfalse : isNew p.2 = false := by simpa using hnew
      cases hc : config p.1 p.2 with
      | none => simp [hc] at h
      | some c =>
        cases ht : poolConfigs config t with
        | none => simp [hc, ht] at h
        | some tail =>
          simp only [hc, ht, Option.some.injEq] at h
          subst h
          obtain ⟨h1, h2, h3⟩ := ih tail ht hcfg'
          obtain ⟨hopt, hb⟩ := hcfg p (List.mem_cons_self _ _) hfalse c hc
          refine ⟨?_, ?_, ?_⟩
          · rw [List.map_cons, h1, List.filter_cons_of_pos (by simp [hfalse]), List.map_cons]
          · intro q hq
            rcases List.mem_cons.mp hq with rfl | hq
            · exact hb
            · exact h2 q hq
          · rw [List.map_cons, List.sum_cons, h3, List.map_cons, List.sum_cons, if_neg hnew,
              hopt]

theorem cacheConfigs_spec (config : Address → PoolId → PoolStatus → Option PoolConfig)
    (f : PoolStatus → Nat) :
    ∀ (all : List (Address × CacheStatus)) (l : List (Address × CacheConfig)),
      cacheConfigs config all = some l →
      (∀ c ∈ all, ∀ p ∈ c.2.m_pools, isNew p.2 = false → ∀ pc, config c.1 p.1 p.2 = some pc →
        pc.m_optimalSize = f p.2 ∧ pc.InBounds) →
      (⟨l⟩ : Context).keys = usableKeys all ∧ (⟨l⟩ : Context).InBounds ∧
        (⟨l⟩ : Context).totalOptimalSize =
          (all.map fun c =>
            (c.2.m_pools.map fun p => if isNew p.2 = true then 0 else f p.2).sum).sum := by
  intro all
  induction all with
  | nil =>
    intro l h _
    simp only [cacheConfigs, Option.some.injEq] at h
    subst h
    exact ⟨rfl, fun c hc => by simp at hc, rfl⟩
  | cons c t ih =>
    intro l h hcfg
    have hcfg' : ∀ d ∈ t, ∀ p ∈ d.2.m_pools, isNew p.2 = false → ∀ pc,
        config d.1 p.1 p.2 = some pc → pc.m_optimalSize = f p.2 ∧ pc.InBounds :=
      fun d hd => hcfg d (List.mem_cons_of_mem _ hd)
    unfold cacheConfigs at h
    cases hp : poolConfigs (config c.1) c.2.m_pools with
    | none => simp [hp] at h
    | some pcs =>
      cases ht : cacheConfigs config t with
      | none => simp [hp, ht] at h
      | some tail =>
        simp only [hp, ht] at h
        obtain ⟨k1, k2, k3⟩ := poolConfigs_spec (config c.1) f c.2.m_pools pcs hp
          (hcfg c (List.mem_cons_self _ _))
        obtain ⟨h1, h2, h3⟩ := ih tail ht hcfg'
        simp only [Context.keys, Context.InBounds, Context.totalOptimalSize] at h1 h2 h3 ⊢
        by_cases hempty : pcs.isEmpty = true
        · rw [if_pos hempty, Option.some.injEq] at h
          subst h
          have hnil : pcs = [] := List.isEmpty_iff.mp hempty
          subst hnil
          refine ⟨?_, h2, ?_⟩
          · rw [h1]
            unfold usableKeys
            rw [List.filterMap_cons]
            simp only [List.map_nil] at k1
            rw [← k1]
            simp
          · rw [h3, List.map_cons, List.sum_cons, ← k3]
            simp
        · rw [if_neg hempty, Option.some.injEq] at h
          subst h
          refine ⟨?_, ?_, ?_⟩
          · rw [List.map_cons, h1]
            unfold usableKeys
            rw [List.filterMap_cons, ← k1]
            have : (pcs.map Prod.fst).isEmpty = false := by
              cases pcs with
              | nil => simp at hempty
              | cons _ _ => rfl
            simp [this]
          · intro d hd
            rcases List.mem_cons.mp hd with rfl | hd
            · exact k2
            · exact h2 d hd
          · rw [List.map_cons, List.sum_cons, h3, List.map_cons, List.sum_cons, k3]

theorem le_floor_toNat {q : ℚ} {n : Nat} (h : (n : ℚ) ≤ q) : n ≤ ⌊q⌋.toNat := by
  have h1 : (n : Int) ≤ ⌊q⌋ := Int.le_floor.mpr (by simpa using h)
  omega

end PerformanceMaximization

/-! ## The targets of the plan of `PerformanceMaximization` -/

theorem lookup_cons_ite {α β : Type} [DecidableEq α] (k a : α) (b : β) (es : List (α × β)) :
    ((k, b) :: es).lookup a = if a = k then some b else es.lookup a := by
  rw [List.lookup_cons]
  by_cases h : a = k
  · subst h
    simp
  · have hb : (a == k) = false := by simpa using h
    rw [hb, if_neg h]

theorem lookup_eq_none_of_not_mem {α β : Type} [DecidableEq α] (a : α) :
    ∀ es : List (α × β), a ∉ es.map Prod.fst → es.lookup a = none := by
  intro es
  induction es with
  | nil => intro _; rfl
  | cons e t ih =>
    intro h
    obtain ⟨k, b⟩ := e
    rw [List.map_cons, List.mem_cons, not_or] at h
    rw [lookup_cons_ite, if_neg h.1, ih h.2]

namespace PerformanceMaximization

theorem usableKeys_cons (c : Address × CacheStatus) (t : List (Address × CacheStatus)) :
    usableKeys (c :: t) =
      if ((c.2.m_pools.filter fun p => !isNew p.2).map Prod.fst).isEmpty then usableKeys t
      else (c.1, (c.2.m_pools.filter fun p => !isNew p.2).map Prod.fst) :: usableKeys t := by
  unfold usableKeys
  rw [List.filterMap_cons]
  by_cases h : ((c.2.m_pools.filter fun p => !isNew p.2).map Prod.fst).isEmpty = true
  · simp only [h, if_true]
  · simp only [h, if_false, Bool.false_eq_true]

end PerformanceMaximization

namespace PerformanceMaximization

end PerformanceMaximization

/-! ## Capacity after a tick -/

theorem emits_of_no_usable_pool (pm : PerformanceMaximization) (ub : Option ℚ → Nat)
    (fit : List ℚ → List ℚ → Option Spline) (all : List (Address × CacheStatus))
    (h : PerformanceMaximization.context pm ub fit all = some ⟨[]⟩) :
    PerformanceMaximization.Emits pm ub fit all (PerformanceMaximization.plan pm ub all ⟨[]⟩) := by
  refine ⟨⟨[]⟩, ⟨[]⟩, h, ?_, rfl⟩
  unfold Context.Run
  rw [if_pos (by rfl)]

theorem Context.poolAt_of_lt (ctx : Context) (i j : Nat) (c : Address × CacheConfig)
    (hc : ctx.m_cacheConfigs[i]? = some c) (hj : j < c.2.m_poolConfigs.length) :
    ∃ p, ctx.poolAt i j = some p := by
  unfold Context.poolAt
  rw [hc]
  obtain ⟨q, hq⟩ : ∃ q, c.2.m_poolConfigs[j]? = some q :=
    ⟨c.2.m_poolConfigs[j], List.getElem?_eq_getElem hj⟩
  exact ⟨q.2, by simp [hq]⟩

/-- `Context::step` returns on a context that has a cache and whose caches all have a
pool, whatever the generator draws. -/
theorem Context.step_returns (ctx : Context) (r : StepDraws)
    (hne : ctx.m_cacheConfigs ≠ [])
    (hpools : ∀ c ∈ ctx.m_cacheConfigs, c.2.m_poolConfigs ≠ []) :
    ∃ next, ctx.step r = some next := by
  have hlen : (0 : Int) < (ctx.m_cacheConfigs.length : Int) := by
    have := List.length_pos.mpr hne
    omega
  have hi1 := randomUniformInt_lt hlen r.cache1
  have hi2 := randomUniformInt_lt hlen r.cache2
  have hi1' : (randomUniformInt ctx.m_cacheConfigs.length r.cache1).toNat <
      ctx.m_cacheConfigs.length := by omega
  have hi2' : (randomUniformInt ctx.m_cacheConfigs.length r.cache2).toNat <
      ctx.m_cacheConfigs.length := by omega
  have h1 := List.getElem?_eq_getElem hi1'
  have h2 := List.getElem?_eq_getElem hi2'
  have hc1 := hpools _ (List.getElem_mem hi1')
  have hc2 := hpools _ (List.getElem_mem hi2')
  generalize ctx.m_cacheConfigs[(randomUniformInt ctx.m_cacheConfigs.length r.cache1).toNat] =
    cache1 at h1 hc1
  generalize ctx.m_cacheConfigs[(randomUniformInt ctx.m_cacheConfigs.length r.cache2).toNat] =
    cache2 at h2 hc2
  have hl1 : (0 : Int) < (cache1.2.m_poolConfigs.length : Int) := by
    have := List.length_pos.mpr hc1
    omega
  have hl2 : (0 : Int) < (cache2.2.m_poolConfigs.length : Int) := by
    have := List.length_pos.mpr hc2
    omega
  have hp1 := randomUniformInt_lt hl1 r.pool1
  have hcond : ¬ (randomUniformInt ctx.m_cacheConfigs.length r.cache1 =
      randomUniformInt ctx.m_cacheConfigs.length r.cache2 ∧
      cache2.2.m_poolConfigs.length = 0) := by
    intro h
    have := h.2
    omega
  unfold Context.step
  simp only [h1, h2, if_neg hcond]
  generalize hp2def : (if randomUniformInt ctx.m_cacheConfigs.length r.cache1 ≠
      randomUniformInt ctx.m_cacheConfigs.length r.cache2 then
      randomUniformInt cache2.2.m_poolConfigs.length r.pool2
    else (randomUniformInt cache1.2.m_poolConfigs.length r.pool1 + 1 +
      randomUniformInt ((cache2.2.m_poolConfigs.length : Int) - 1) r.pool2) %
        (cache2.2.m_poolConfigs.length : Int)) = poolIdx2
  have hp2 : 0 ≤ poolIdx2 ∧ poolIdx2 < (cache2.2.m_poolConfigs.length : Int) := by
    rw [← hp2def]
    split
    · exact randomUniformInt_lt hl2 r.pool2
    · exact ⟨Int.emod_nonneg _ (by omega), Int.emod_lt_of_pos _ hl2⟩
  obtain ⟨pool1, hpool1⟩ := Context.poolAt_of_lt ctx _
    (randomUniformInt cache1.2.m_poolConfigs.length r.pool1).toNat cache1 h1 (by omega)
  obtain ⟨pool2, hpool2⟩ := Context.poolAt_of_lt ctx _ poolIdx2.toNat cache2 h2 (by omega)
  simp only [hpool1, hpool2]
  split
  · rw [Context.poolAt_setOptimalSize, hpool2]
    simp
  · exact ⟨ctx, rfl⟩

/-- C12: a call of `Context::step` on a context whose pool configurations are within
their bounds leaves the sum of the optimal sizes unchanged, for every outcome of the
draws (the two selected pools may be the same pool); and on a context that has a cache
and whose caches all have a pool the call returns. -/
theorem step_keeps_total_optimal_size (ctx : Context) (r : StepDraws) (hctx : ctx.InBounds) :
    (∀ next, ctx.step r = some next → next.totalOptimalSize = ctx.totalOptimalSize) ∧
      (ctx.m_cacheConfigs ≠ [] → (∀ c ∈ ctx.m_cacheConfigs, c.2.m_poolConfigs ≠ []) →
        ∃ next, ctx.step r = some next ∧ next.totalOptimalSize = ctx.totalOptimalSize) := by
  refine ⟨fun next h => (Context.step_preserves ctx next r hctx h).2.2, fun hne hpools => ?_⟩
  obtain ⟨next, h⟩ := Context.step_returns ctx r hne hpools
  exact ⟨next, h, (Context.step_preserves ctx next r hctx h).2.2⟩


theorem step_keeps_total_optimal_size_witness :
    singlePoolContext.InBounds ∧
      ∃ next, singlePoolContext.step ⟨0, 0, 0, 0, 7⟩ = some next ∧
        next.totalOptimalSize = singlePoolContext.totalOptimalSize :=
  ⟨by unfold Context.InBounds PoolConfig.InBounds singlePoolContext; decide,
    (step_keeps_total_optimal_size singlePoolContext ⟨0, 0, 0, 0, 7⟩
      (by unfold Context.InBounds PoolConfig.InBounds singlePoolContext; decide)).2
      (by simp [singlePoolContext]) (by simp [singlePoolContext])⟩

/-! ## Bounds of the context built by a tick -/

namespace PerformanceMaximization

/-- A pool configuration built by Step 4 holds the preliminary size of its pool and lies
within its bounds, for `delta ≥ 0` and a defined conversion of the upper bound. -/
theorem poolConfig_inBounds (pm : PerformanceMaximization) (ub : Option ℚ → Nat)
    (fit : List ℚ → List ℚ → Option Spline) (all : List (Address × CacheStatus))
    (history : MetricsHistory) (cacheId : Address) (poolId : PoolId) (ps : PoolStatus)
    (pc : PoolConfig) (h : poolConfig pm ub fit all history cacheId poolId ps = some pc)
    (hd0 : 0 ≤ pm.m_kDelta)
    (hdef : (newPoolSize ub all ps : ℚ) + (totalSize all : ℚ) * pm.m_kDelta < 2 ^ 64) :
    pc.m_optimalSize = newPoolSize ub all ps ∧ pc.InBounds := by
  unfold poolConfig at h
  simp only [Option.bind_eq_some, Option.map_eq_some'] at h
  obtain ⟨spline, -, spline', -, rfl⟩ := h
  have hTq : (0 : ℚ) ≤ (totalSize all : ℚ) := Nat.cast_nonneg _
  have hk0 : (0 : ℚ) ≤ (newPoolSize ub all ps : ℚ) := Nat.cast_nonneg _
  have hTd : 0 ≤ (totalSize all : ℚ) * pm.m_kDelta := mul_nonneg hTq hd0
  have hlow : doubleToUInt64 ub (some (max 0 ((newPoolSize ub all ps : ℚ) -
      (totalSize all : ℚ) * pm.m_kDelta))) ≤ newPoolSize ub all ps := by
    rw [doubleToUInt64_of_nonneg ub (le_max_left _ _)
      (lt_of_le_of_lt (max_le hk0 (by linarith)) (by linarith))]
    exact floor_toNat_le_of_le (max_le hk0 (by linarith))
  have hup0 : 0 ≤ (newPoolSize ub all ps : ℚ) + (totalSize all : ℚ) * pm.m_kDelta := by
    linarith
  have hupeq : doubleToUInt64 ub (some ((newPoolSize ub all ps : ℚ) +
      (totalSize all : ℚ) * pm.m_kDelta)) =
      ⌊(newPoolSize ub all ps : ℚ) + (totalSize all : ℚ) * pm.m_kDelta⌋.toNat := by
    rw [doubleToUInt64_of_nonneg ub hup0 hdef]
  have hup1 : newPoolSize ub all ps ≤
      ⌊(newPoolSize ub all ps : ℚ) + (totalSize all : ℚ) * pm.m_kDelta⌋.toNat :=
    le_floor_toNat (by linarith)
  have hup2 : ⌊(newPoolSize ub all ps : ℚ) + (totalSize all : ℚ) * pm.m_kDelta⌋.toNat <
      2 ^ 64 := by
    have h1 : ((⌊(newPoolSize ub all ps : ℚ) + (totalSize all : ℚ) * pm.m_kDelta⌋.toNat : Nat) : ℚ)
        < ((2 ^ 64 : Nat) : ℚ) := by
      push_cast
      exact lt_of_le_of_lt (cast_floor_toNat_le hup0) hdef
    exact_mod_cast h1
  refine ⟨rfl, ?_, ?_, ?_⟩
  · dsimp only
    split
    · exact le_refl _
    · exact hlow
  · dsimp only
    rw [hupeq]
    exact hup1
  · dsimp only
    rw [hupeq]
    exact hup2

/-- The context built by Step 4 has the keys of the pools with a usable MRC and is
within its bounds. -/
theorem context_inBounds (pm : PerformanceMaximization) (ub : Option ℚ → Nat)
    (fit : List ℚ → List ℚ → Option Spline) (all : List (Address × CacheStatus))
    (ctx : Context) (hd0 : 0 ≤ pm.m_kDelta) (hdef : UpperBoundsDefined pm ub all)
    (hctx : context pm ub fit all = some ctx) :
    ctx.keys = usableKeys all ∧ ctx.InBounds := by
  unfold context at hctx
  rw [Option.map_eq_some'] at hctx
  obtain ⟨l, hl, rfl⟩ := hctx
  obtain ⟨h1, h2, -⟩ := cacheConfigs_spec _ (newPoolSize ub all) all l hl
    (fun c hc p hp hnew pc hpc =>
      poolConfig_inBounds pm ub fit all _ c.1 p.1 p.2 pc hpc hd0 (hdef c hc p hp hnew))
  exact ⟨h1, h2⟩

theorem mem_observedPools (all : List (Address × CacheStatus)) (c : Address × CacheStatus)
    (hc : c ∈ all) (p : PoolId × PoolStatus) (hp : p ∈ c.2.m_pools) :
    p.2 ∈ observedPools all := by
  unfold observedPools
  rw [List.mem_flatMap]
  exact ⟨c, hc, List.mem_map.mpr ⟨p, hp, rfl⟩⟩

/-- The conversions of the upper bounds are defined when the capacities sum to less than
`2^63`, for `delta ≤ 1`. -/
theorem upperBoundsDefined_of_small (pm : PerformanceMaximization) (ub : Option ℚ → Nat)
    (all : List (Address × CacheStatus)) (hT : totalCapacity all < 2 ^ 63)
    (hU : (((observedPools all).filter fun p => !isNew p).map fun p => p.m_usedSize).sum < 2 ^ 64)
    (hmT : newPools all * totalCapacity all < 2 ^ 64) (hd1 : pm.m_kDelta ≤ 1) :
    UpperBoundsDefined pm ub all := by
  intro c hc p hp _
  have hle := (newPoolSize_le_totalCapacity ub all (by omega) hU hmT).1 p.2
    (mem_observedPools all c hc p hp)
  rw [totalSize_eq_totalCapacity all (by omega)]
  have hkq : (newPoolSize ub all p.2 : ℚ) ≤ (totalCapacity all : ℚ) := by exact_mod_cast hle
  have hTq : (0 : ℚ) ≤ (totalCapacity all : ℚ) := Nat.cast_nonneg _
  have hTlt : (totalCapacity all : ℚ) < 2 ^ 63 := by exact_mod_cast hT
  have hTd1 : (totalCapacity all : ℚ) * pm.m_kDelta ≤ (totalCapacity all : ℚ) := by
    nlinarith
  linarith

end PerformanceMaximization

/-- C11: for every `delta ≥ 0` (so for every `delta` in [0,1]) and every context built by a tick of
`PerformanceMaximization` whose conversions of the upper bounds are defined, every pool
configuration satisfies `lowerBound ≤ optimalSize ≤ upperBound` when the context is
built; every call of `Context::step` keeps this, for every outcome of the draws (the
`int` that receives the unsigned difference is part of `Context.step`); hence it holds
after the optimisation. -/
theorem context_stays_in_bounds (pm : PerformanceMaximization) (ub : Option ℚ → Nat)
    (fit : List ℚ → List ℚ → Option Spline) (all : List (Address × CacheStatus))
    (ctx : Context) (hd0 : 0 ≤ pm.m_kDelta)
    (hdef : PerformanceMaximization.UpperBoundsDefined pm ub all)
    (hctx : PerformanceMaximization.context pm ub fit all = some ctx) :
    ctx.InBounds ∧
      (∀ (cur next : Context) (r : StepDraws), cur.InBounds → cur.step r = some next →
        next.InBounds) ∧
      (∀ final, ctx.Run final → final.InBounds) := by
  have hb := (PerformanceMaximization.context_inBounds pm ub fit all ctx hd0 hdef hctx).2
  exact ⟨hb, fun cur next r hcur h => (Context.step_preserves cur next r hcur h).1,
    fun final h => (Context.run_preserves ctx final hb h).1⟩

theorem context_stays_in_bounds_witness :
    ∃ ctx, PerformanceMaximization.context freshController (fun _ => 0) flatFit oneUsablePool =
        some ctx ∧ ctx.InBounds ∧
      (∀ next, widePoolsContext.step ⟨0, 0, 0, 0, 3⟩ = some next → next.InBounds) ∧
      (∀ final, ctx.Run final → final.InBounds) := by
  obtain ⟨ctx, h⟩ := Option.isSome_iff_exists.mp (by decide :
    (PerformanceMaximization.context freshController (fun _ => 0) flatFit
      oneUsablePool).isSome = true)
  have hw := context_stays_in_bounds freshController (fun _ => 0) flatFit oneUsablePool ctx
    (by norm_num [freshController])
    (PerformanceMaximization.upperBoundsDefined_of_small freshController (fun _ => 0)
      oneUsablePool (by decide) (by decide) (by decide) (by norm_num [freshController])) h
  exact ⟨ctx, h, hw.1, fun next hn => hw.2.1 widePoolsContext next ⟨0, 0, 0, 0, 3⟩
    (by unfold Context.InBounds PoolConfig.InBounds widePoolsContext; decide) hn, hw.2.2⟩

/-! ## The QoS clamp of the lower bound -/

theorem Context.bounds_setOptimalSize (ctx : Context) (i j size : Nat) :
    (ctx.setOptimalSize i j size).bounds = ctx.bounds := by
  unfold Context.setOptimalSize Context.bounds
  dsimp only
  refine map_modifyAt_of_eq _ _ (fun c => ?_) i ctx.m_cacheConfigs
  dsimp only
  congr 1
  exact map_modifyAt_of_eq (fun p : PoolId × PoolConfig => (p.1, { p.2 with m_optimalSize := size }))
    (fun p : PoolId × PoolConfig => (p.1, p.2.m_lowerBound, p.2.m_upperBound))
    (fun _ => rfl) j c.2.m_poolConfigs

/-- A call of `Context::step` changes no bound and no key. -/
theorem Context.step_bounds (ctx next : Context) (r : StepDraws)
    (h : ctx.step r = some next) : next.bounds = ctx.bounds := by
  unfold Context.step at h
  simp only at h
  split at h
  · split at h
    · exact absurd h (by simp)
    · split at h
      · split at h
        · split at h
          · rw [Option.some.injEq] at h
            rw [← h, Context.bounds_setOptimalSize, Context.bounds_setOptimalSize]
          · exact absurd h (by simp)
        · cases h
          rfl
      · exact absurd h (by simp)
  · exact absurd h (by simp)

theorem Context.run_bounds (ctx final : Context) (h : ctx.Run final) :
    final.bounds = ctx.bounds := by
  unfold Context.Run at h
  split at h
  · subst h
    rfl
  · induction h with
    | refl => rfl
    | tail _ hstep ih =>
      obtain ⟨r, hr⟩ := hstep
      exact (Context.step_bounds _ _ r hr).trans ih

namespace PerformanceMaximization

theorem mem_usableKeys (all : List (Address × CacheStatus)) (c : Address × CacheStatus)
    (hc : c ∈ all) (p : PoolId × PoolStatus) (hp : p ∈ c.2.m_pools)
    (husable : isNew p.2 = false) :
    ∃ ids, (c.1, ids) ∈ usableKeys all ∧ p.1 ∈ ids := by
  have hmem : p.1 ∈ (c.2.m_pools.filter fun p => !isNew p.2).map Prod.fst :=
    List.mem_map.mpr ⟨p, List.mem_filter.mpr ⟨hp, by simp [husable]⟩, rfl⟩
  refine ⟨_, ?_, hmem⟩
  unfold usableKeys
  rw [List.mem_filterMap]
  refine ⟨c, hc, ?_⟩
  rw [if_neg]
  intro hempty
  rw [List.isEmpty_iff] at hempty
  rw [hempty] at hmem
  exact absurd hmem (List.not_mem_nil _)

end PerformanceMaximization

namespace PerformanceMaximization

/-- A context with the keys of the usable pools has a pool configuration for each pool
with a usable MRC. -/
theorem has_pool_of_keys (all : List (Address × CacheStatus)) (final : Context)
    (hkeys : final.keys = usableKeys all) (c : Address × CacheStatus) (hc : c ∈ all)
    (p : PoolId × PoolStatus) (hp : p ∈ c.2.m_pools) (husable : isNew p.2 = false) :
    ∃ e ∈ final.m_cacheConfigs, e.1 = c.1 ∧ ∃ q ∈ e.2.m_poolConfigs, q.1 = p.1 := by
  obtain ⟨ids, hids, hmem⟩ := mem_usableKeys all c hc p hp husable
  rw [← hkeys] at hids
  obtain ⟨e, he, heq⟩ := List.mem_map.mp hids
  rw [Prod.mk.injEq] at heq
  rw [← heq.2] at hmem
  obtain ⟨q, hq, hq1⟩ := List.mem_map.mp hmem
  exact ⟨e, he, heq.1, q, hq, hq1⟩

end PerformanceMaximization

theorem doubleToUInt32_of_floor (ub : Option ℚ → Nat) {q : ℚ} {n : Nat} (h₀ : (n : ℚ) ≤ q)
    (h₁ : q < (n : ℚ) + 1) (hn : n < 2 ^ 32) : doubleToUInt32 ub (some q) = n := by
  have hq0 : (0 : ℚ) ≤ (n : ℚ) := Nat.cast_nonneg _
  have hnq : ((n : ℚ) + 1) ≤ 2 ^ 32 := by exact_mod_cast hn
  unfold doubleToUInt32
  simp only
  rw [if_pos ⟨by linarith, by linarith⟩]
  have hfl : ⌊q⌋ = (n : Int) := Int.floor_eq_iff.mpr ⟨by simpa using h₀, by simpa using h₁⟩
  rw [hfl]
  rfl

namespace PerformanceMaximization

/-- One more tick with the same observation: the entry of the pool after it. -/
theorem observe_succ (ub : Option ℚ → Nat) (cacheId : Address) (poolId : PoolId)
    (poolStatus : PoolStatus) (n : Nat) (history : MetricsHistory) :
    observe ub cacheId poolId poolStatus (n + 1) history cacheId poolId =
      some
        { m_diskIOPS := doubleToUInt32 ub (some
            (((((observe ub cacheId poolId poolStatus n history cacheId poolId).getD
              ⟨poolStatus.m_missRatio, poolStatus.m_diskIOPS, poolStatus.m_throughput⟩).m_diskIOPS
                : Nat) : ℚ) * m_kMovingAverageParam +
              (poolStatus.m_diskIOPS : ℚ) * (1 - m_kMovingAverageParam)))
          m_missRatio :=
            ((observe ub cacheId poolId poolStatus n history cacheId poolId).getD
              ⟨poolStatus.m_missRatio, poolStatus.m_diskIOPS, poolStatus.m_throughput⟩).m_missRatio *
                m_kMovingAverageParam + poolStatus.m_missRatio * (1 - m_kMovingAverageParam)
          m_throughput := doubleToUInt32 ub (some
            (((((observe ub cacheId poolId poolStatus n history cacheId poolId).getD
              ⟨poolStatus.m_missRatio, poolStatus.m_diskIOPS, poolStatus.m_throughput⟩).m_throughput
                : Nat) : ℚ) * m_kMovingAverageParam +
              (poolStatus.m_throughput : ℚ) * (1 - m_kMovingAverageParam))) } := by
  show updatePoolAvg ub _ cacheId poolId poolStatus cacheId poolId = _
  unfold updatePoolAvg
  simp only [and_self, if_true]

/-- The averaged miss ratio follows the geometric law of factor 0.3. -/
theorem missRatio_observe (ub : Option ℚ → Nat) (cacheId : Address) (poolId : PoolId)
    (poolStatus : PoolStatus) (history : MetricsHistory) (n : Nat) :
    ((observe ub cacheId poolId poolStatus n history cacheId poolId).getD
        ⟨poolStatus.m_missRatio, poolStatus.m_diskIOPS, poolStatus.m_throughput⟩).m_missRatio -
        poolStatus.m_missRatio =
      (3 / 10) ^ n *
        (((history cacheId poolId).getD
          ⟨poolStatus.m_missRatio, poolStatus.m_diskIOPS, poolStatus.m_throughput⟩).m_missRatio -
          poolStatus.m_missRatio) := by
  induction n with
  | zero => simp [observe]
  | succ n ih =>
    rw [observe_succ, Option.getD_some]
    dsimp only
    have key : ∀ a b x : ℚ, a - x = (3 / 10) ^ n * b →
        a * (3 / 10) + x * (1 - 3 / 10) - x = (3 / 10) ^ (n + 1) * b := by
      intro a b x h
      rw [pow_succ, mul_assoc, mul_comm (3 / 10 : ℚ) b, ← mul_assoc, ← h]
      ring
    exact key _ _ _ ih

/-- From averages 0, a pool that reports 10 has averages 9 after two ticks, and keeps
them. -/
theorem integer_averages_busyPool (ub : Option ℚ → Nat) (n : Nat) :
    (observe ub "C" 0 busyPool (n + 2) idleHistory "C" 0).map
      (fun a => (a.m_diskIOPS, a.m_throughput)) = some (9, 9) := by
  induction n with
  | zero =>
    have h0 : observe ub "C" 0 busyPool 0 idleHistory "C" 0 = some ⟨1, 0, 0⟩ := rfl
    have h7 : doubleToUInt32 ub (some (((0 : Nat) : ℚ) * m_kMovingAverageParam +
        ((10 : Nat) : ℚ) * (1 - m_kMovingAverageParam))) = 7 :=
      doubleToUInt32_of_floor ub (by norm_num [m_kMovingAverageParam])
        (by norm_num [m_kMovingAverageParam]) (by norm_num)
    have h9 : doubleToUInt32 ub (some (((7 : Nat) : ℚ) * m_kMovingAverageParam +
        ((10 : Nat) : ℚ) * (1 - m_kMovingAverageParam))) = 9 :=
      doubleToUInt32_of_floor ub (by norm_num [m_kMovingAverageParam])
        (by norm_num [m_kMovingAverageParam]) (by norm_num)
    rw [observe_succ, observe_succ, h0]
    simp only [Option.getD_some, Option.map_some', busyPool]
    rw [h7, h9]
  | succ n ih =>
    have h9 : doubleToUInt32 ub (some (((9 : Nat) : ℚ) * m_kMovingAverageParam +
        ((10 : Nat) : ℚ) * (1 - m_kMovingAverageParam))) = 9 :=
      doubleToUInt32_of_floor ub (by norm_num [m_kMovingAverageParam])
        (by norm_num [m_kMovingAverageParam]) (by norm_num)
    rw [Option.map_eq_some'] at ih
    obtain ⟨a, ha, hpair⟩ := ih
    rw [Prod.mk.injEq] at hpair
    rw [observe_succ, ha]
    simp only [Option.getD_some, Option.map_some', busyPool, hpair.1, hpair.2]
    rw [h9]

end PerformanceMaximization

/-- C14: under a constant stream of observations the averaged miss ratio, a double,
follows the law of the claim: after `n` ticks its distance to the observation is
`0.3^n` times the distance of the prior average.  The averaged `diskIOPS` and
`throughput` are cut to 32-bit integers at each tick: from averages 0, a pool that
reports 10 has averages 7, then 9 at every later tick, at distance 1 from the
observation and not `0.3^n · 10`. -/
theorem moving_average_integer_fields_stall :
    (∀ (ub : Option ℚ → Nat) (cacheId : Address) (poolId : PoolId) (poolStatus : PoolStatus)
      (history : MetricsHistory) (n : Nat),
      ((PerformanceMaximization.observe ub cacheId poolId poolStatus n history cacheId
          poolId).getD
          ⟨poolStatus.m_missRatio, poolStatus.m_diskIOPS, poolStatus.m_throughput⟩).m_missRatio -
          poolStatus.m_missRatio =
        (3 / 10) ^ n *
          (((history cacheId poolId).getD
            ⟨poolStatus.m_missRatio, poolStatus.m_diskIOPS,
              poolStatus.m_throughput⟩).m_missRatio - poolStatus.m_missRatio)) ∧
    (∀ (ub : Option ℚ → Nat) (n : Nat),
      (PerformanceMaximization.observe ub "C" 0 busyPool (n + 2) idleHistory "C" 0).map
        (fun a => (a.m_diskIOPS, a.m_throughput)) = some (9, 9)) ∧
    busyPool.m_diskIOPS = 10 ∧ busyPool.m_throughput = 10 ∧
    (∀ n : Nat, (3 / 10 : ℚ) ^ (n + 2) * 10 < 1) := by
  refine ⟨PerformanceMaximization.missRatio_observe,
    PerformanceMaximization.integer_averages_busyPool, rfl, rfl, fun n => ?_⟩
  have h : (3 / 10 : ℚ) ^ (n + 2) ≤ (3 / 10) ^ 2 :=
    pow_le_pow_of_le_one (by norm_num) (by norm_num) (by omega)
  have h2 : ((3 : ℚ) / 10) ^ 2 * 10 < 1 := by norm_num
  linarith

/-! ## The agent: pools, metrics and `GetStatus` -/

theorem toUInt64_toInt64 (n : Nat) (h : n < 2 ^ 64) : toUInt64 (toInt64 n) = n := by
  unfold toUInt64 toInt64
  split <;> omega

namespace CacheAllocator

theorem poolStatus_of_shard (a : CacheAllocator) (byteMRC : List ShardsCall → List (Nat × ℚ))
    (poolId : PoolId) (shard : List ShardsCall) (h : a.m_shards poolId = some shard) :
    a.poolStatus byteMRC poolId = some (a.statusOf byteMRC poolId) := by
  unfold poolStatus statusOf
  rw [h]
  rfl

/-- The loop of `GetStatus` when every active pool has an estimator: the statuses of the
active pools, in the order of the ids. -/
theorem poolStatuses_eq (a : CacheAllocator) (byteMRC : List ShardsCall → List (Nat × ℚ))
    (h : ∀ id ∈ a.m_activePools, ∃ shard, a.m_shards id = some shard) :
    ∀ l : List PoolId, a.poolStatuses byteMRC l =
      some ((l.filter fun id => decide (id ∈ a.m_activePools)).map
        fun id => (id, a.statusOf byteMRC id)) := by
  intro l
  induction l with
  | nil => rfl
  | cons id rest ih =>
    unfold poolStatuses
    by_cases hid : id ∈ a.m_activePools
    · obtain ⟨shard, hs⟩ := h id hid
      rw [if_pos hid, poolStatus_of_shard a byteMRC id shard hs, ih]
      simp [List.filter_cons, hid]
    · rw [if_neg hid, ih]
      simp [List.filter_cons, hid]

/-- `GetStatus` on an agent that holds the pools `live`. -/
theorem GetStatus_of_holds (a : CacheAllocator) (byteMRC : List ShardsCall → List (Nat × ℚ))
    (live : List (PoolId × ℚ × ℚ)) (h : a.Holds live) :
    a.GetStatus byteMRC = some
      { m_maxSize := min a.m_kVirtualSize a.engine.ramCacheSize
        m_proportion := a.m_kProportion
        m_pools := (live.map Prod.fst).map fun id => (id, a.statusOf byteMRC id) } := by
  unfold GetStatus
  rw [poolStatuses_eq a byteMRC h.shards, h.live_ids]
  rfl

theorem holds_new (config : CacheAllocatorConfig) (ramCacheSize : Nat) :
    (new config ramCacheSize).Holds [] :=
  { ids_lt := fun _ hid => absurd hid (List.not_mem_nil _)
    live_ids := rfl
    levels := fun _ he => absurd he (List.not_mem_nil _)
    shards := fun _ hid => absurd hid (List.not_mem_nil _) }

theorem mem_getPoolIds_of_live (a : CacheAllocator) (live : List (PoolId × ℚ × ℚ))
    (h : a.Holds live) (e : PoolId × ℚ × ℚ) (he : e ∈ live) :
    e.1 ∈ a.engine.getPoolIds ∧ e.1 ∈ a.m_activePools := by
  have h1 : e.1 ∈ live.map Prod.fst := List.mem_map.mpr ⟨e, he, rfl⟩
  rw [h.live_ids, List.mem_filter] at h1
  exact ⟨h1.1, by simpa using h1.2⟩

theorem holds_addPool (a : CacheAllocator) (live : List (PoolId × ℚ × ℚ)) (h : a.Holds live)
    (name : String) (size : Nat) (qosLevel proportion : ℚ) :
    (a.addPool name size qosLevel proportion).2.Holds
      (live ++ [((a.addPool name size qosLevel proportion).1, qosLevel, proportion)]) := by
  have hids : ((a.addPool name size qosLevel proportion).2).engine.getPoolIds =
      a.engine.getPoolIds ++ [a.engine.pools.length] := by
    simp [addPool, Engine.addPool, Engine.getPoolIds]
  have hlen : ((a.addPool name size qosLevel proportion).2).engine.pools.length =
      a.engine.pools.length + 1 := by
    simp [addPool, Engine.addPool]
  have hact : ((a.addPool name size qosLevel proportion).2).m_activePools =
      a.engine.pools.length :: a.m_activePools := rfl
  have hid : (a.addPool name size qosLevel proportion).1 = a.engine.pools.length := rfl
  refine ⟨?_, ?_, ?_, ?_⟩
  · intro id hmem
    rw [hids, List.mem_append, List.mem_singleton] at hmem
    rw [hlen]
    rcases hmem with hmem | hmem
    · exact Nat.lt_succ_of_lt (h.ids_lt id hmem)
    · rw [hmem]
      exact Nat.lt_succ_self _
  · rw [hids, hact, hid, List.map_append, h.live_ids, List.filter_append]
    congr 1
    · refine List.filter_congr fun id hmem => ?_
      have hne : id ≠ a.engine.pools.length := Nat.ne_of_lt (h.ids_lt id hmem)
      simp [hne]
    · simp
  · intro e he
    rw [List.mem_append, List.mem_singleton] at he
    rcases he with he | he
    · have hlt := h.ids_lt e.1 (mem_getPoolIds_of_live a live h e he).1
      have hne : e.1 ≠ a.engine.pools.length := Nat.ne_of_lt hlt
      have := h.levels e he
      simp only [addPool, Engine.addPool, assign, if_neg hne]
      exact this
    · subst he
      simp [addPool, Engine.addPool, assign]
  · intro id hmem
    rw [hact, List.mem_cons] at hmem
    by_cases hne : id = a.engine.pools.length
    · exact ⟨[], by simp [addPool, Engine.addPool, assign, hne]⟩
    · rcases hmem with hmem | hmem
      · exact absurd hmem hne
      · obtain ⟨shard, hs⟩ := h.shards id hmem
        exact ⟨shard, by simp [addPool, Engine.addPool, assign, hne, hs]⟩

end CacheAllocator

namespace CacheAllocator

theorem getPoolIds_removePool (a : CacheAllocator) (id : PoolId) :
    (a.removePool id).engine.getPoolIds = a.engine.getPoolIds := by
  simp only [removePool, Engine.shrinkPool, Engine.getPoolIds]
  exact keys_applyOp _ _

theorem length_pools_removePool (a : CacheAllocator) (id : PoolId) :
    (a.removePool id).engine.pools.length = a.engine.pools.length := by
  have h := congrArg List.length (getPoolIds_removePool a id)
  simpa [Engine.getPoolIds] using h

theorem holds_removePool (a : CacheAllocator) (live : List (PoolId × ℚ × ℚ)) (h : a.Holds live)
    (id : PoolId) : (a.removePool id).Holds (live.filter fun e => e.1 ≠ id) := by
  have hact : (a.removePool id).m_activePools = a.m_activePools.filter fun p => p ≠ id := rfl
  refine ⟨?_, ?_, ?_, ?_⟩
  · intro id' hmem
    rw [getPoolIds_removePool] at hmem
    rw [length_pools_removePool]
    exact h.ids_lt id' hmem
  · rw [getPoolIds_removePool, hact]
    have h1 : (live.filter fun e => e.1 ≠ id).map Prod.fst =
        (live.map Prod.fst).filter fun p => p ≠ id := by
      rw [List.filter_map]
      rfl
    rw [h1, h.live_ids, List.filter_filter]
    refine List.filter_congr fun id' _ => ?_
    simp [List.mem_filter, and_comm]
  · intro e he
    exact h.levels e (List.mem_filter.mp he).1
  · intro id' hmem
    rw [hact] at hmem
    exact h.shards id' (List.mem_filter.mp hmem).1

theorem holds_registerMetrics (a : CacheAllocator) (live : List (PoolId × ℚ × ℚ))
    (h : a.Holds live) (poolId : PoolId) (diskIOPS : Nat) (missRatio : ℚ) (throughput : Nat) :
    (a.registerMetrics poolId diskIOPS missRatio throughput).Holds live :=
  ⟨h.ids_lt, h.live_ids, h.levels, h.shards⟩

/-- The agent after a sequence of calls holds the pools created and not since removed. -/
theorem holds_calls (cs : List AgentCall) :
    ∀ (a : CacheAllocator) (live : List (PoolId × ℚ × ℚ)), a.Holds live →
      (a.calls cs).Holds (livePools a live cs) := by
  induction cs with
  | nil => exact fun a live h => h
  | cons c cs ih =>
    intro a live h
    cases c with
    | addPool name size qosLevel proportion =>
      exact ih _ _ (holds_addPool a live h name size qosLevel proportion)
    | removePool id => exact ih _ _ (holds_removePool a live h id)
    | registerMetrics poolId diskIOPS missRatio throughput =>
      exact ih _ _ (holds_registerMetrics a live h poolId diskIOPS missRatio throughput)

/-- The pool statuses reported for the pools of `live` carry their QoS levels and
proportions. -/
theorem levels_of_holds (a : CacheAllocator) (byteMRC : List ShardsCall → List (Nat × ℚ))
    (live : List (PoolId × ℚ × ℚ)) (h : a.Holds live) :
    ((live.map Prod.fst).map fun id => (id, a.statusOf byteMRC id)).map
      (fun e => (e.1, e.2.m_qosLevel, e.2.m_proportion)) = live := by
  rw [List.map_map, List.map_map]
  conv_rhs => rw [← List.map_id live]
  refine List.map_congr_left fun e he => ?_
  obtain ⟨h1, h2⟩ := h.levels e he
  simp [statusOf, h1, h2]

theorem poolSize_map_update_self (l : Pools) (id : PoolId) (g : Nat → Nat) :
    poolSize (l.map fun p => if p.1 = id then (p.1, g p.2) else p) id =
      if id ∈ l.map Prod.fst then g (poolSize l id) else 0 := by
  induction l with
  | nil => rfl
  | cons p l ih =>
    rw [List.map_cons, poolSize_cons, poolSize_cons, ih]
    by_cases hp : p.1 = id
    · simp [hp]
    · have hp' : ¬ id = p.1 := fun h => hp h.symm
      simp only [if_neg hp, if_neg hp']
      by_cases hm : id ∈ l.map Prod.fst
      · rw [if_pos hm, List.map_cons, if_pos (List.mem_cons_of_mem _ hm)]
      · rw [if_neg hm, List.map_cons, if_neg (by simp [hp', hm])]

/-- The pool shrunk by exactly its size has size 0. -/
theorem poolSize_shrink_all (pools : Pools) (id : PoolId) :
    poolSize (applyOp pools (PoolOp.shrinkPool id (poolSize pools id))) id = 0 := by
  show poolSize (pools.map fun p => if p.1 = id then (p.1, p.2 - poolSize pools id) else p) id = 0
  rw [poolSize_map_update_self pools id fun n => n - poolSize pools id]
  split
  · exact Nat.sub_self _
  · rfl

end CacheAllocator

namespace CacheAllocator

/-- The calls of the application leave the virtual size, the proportion of the instance
and the size of the RAM cache as they are. -/
theorem constants_calls (cs : List AgentCall) :
    ∀ a : CacheAllocator, (a.calls cs).m_kVirtualSize = a.m_kVirtualSize ∧
      (a.calls cs).m_kProportion = a.m_kProportion ∧
      (a.calls cs).engine.ramCacheSize = a.engine.ramCacheSize := by
  induction cs with
  | nil => exact fun a => ⟨rfl, rfl, rfl⟩
  | cons c cs ih =>
    intro a
    obtain ⟨h1, h2, h3⟩ := ih (a.call c)
    have hc : (a.call c).m_kVirtualSize = a.m_kVirtualSize ∧
        (a.call c).m_kProportion = a.m_kProportion ∧
        (a.call c).engine.ramCacheSize = a.engine.ramCacheSize := by
      cases c <;> exact ⟨rfl, rfl, rfl⟩
    exact ⟨h1.trans hc.1, h2.trans hc.2.1, h3.trans hc.2.2⟩

/-- What `GetStatus` reports about the instance after any calls of the application. -/
theorem GetStatus_calls (config : CacheAllocatorConfig) (ramCacheSize : Nat)
    (byteMRC : List ShardsCall → List (Nat × ℚ)) (cs : List AgentCall) :
    ∃ status, ((new config ramCacheSize).calls cs).GetStatus byteMRC = some status ∧
      status.m_maxSize = min (new config ramCacheSize).m_kVirtualSize ramCacheSize ∧
      status.m_proportion = config.proportion ∧
      status.m_pools.map (fun e => (e.1, e.2.m_qosLevel, e.2.m_proportion)) =
        livePools (new config ramCacheSize) [] cs := by
  have h := holds_calls cs _ _ (holds_new config ramCacheSize)
  obtain ⟨h1, h2, h3⟩ := constants_calls cs (new config ramCacheSize)
  refine ⟨_, GetStatus_of_holds _ byteMRC _ h, ?_, ?_, ?_⟩
  · dsimp only
    rw [h1, h3]
    rfl
  · dsimp only
    rw [h2]
    rfl
  · exact levels_of_holds _ byteMRC _ h

end CacheAllocator

/-- C15: in every state the calls of the application lead to, the `maxSize` that
`GetStatus` reports is `min(virtualSize, ramCacheSize)`, where `virtualSize` is the
virtual size given to `setVirtualSize` when one was set and the `size` of the
configuration otherwise, and the reported proportion is the proportion of the
configuration. -/
theorem GetStatus_reports_instance_size (config : CacheAllocatorConfig) (ramCacheSize : Nat)
    (byteMRC : List ShardsCall → List (Nat × ℚ)) (cs : List AgentCall) :
    (∀ virtualSize, virtualSize < 2 ^ 64 →
      ∃ status, ((CacheAllocator.new (config.setVirtualSize virtualSize) ramCacheSize).calls
          cs).GetStatus byteMRC = some status ∧
        status.m_maxSize = min virtualSize ramCacheSize ∧
        status.m_proportion = config.proportion) ∧
    (config.m_hasVirtualSize = false →
      ∃ status, ((CacheAllocator.new config ramCacheSize).calls cs).GetStatus byteMRC =
          some status ∧
        status.m_maxSize = min config.size ramCacheSize ∧
        status.m_proportion = config.proportion) ∧
    (∀ proportion, ∃ status,
      ((CacheAllocator.new (config.setProportion proportion) ramCacheSize).calls
          cs).GetStatus byteMRC = some status ∧ status.m_proportion = proportion) := by
  refine ⟨fun virtualSize hv => ?_, fun hno => ?_, fun proportion => ?_⟩
  · obtain ⟨status, h, hmax, hprop, -⟩ :=
      CacheAllocator.GetStatus_calls (config.setVirtualSize virtualSize) ramCacheSize byteMRC cs
    refine ⟨status, h, ?_, hprop⟩
    rw [hmax]
    show min (if true = true then toUInt64 (toInt64 virtualSize) else config.size) _ = _
    rw [if_pos rfl, toUInt64_toInt64 virtualSize hv]
  · obtain ⟨status, h, hmax, hprop, -⟩ :=
      CacheAllocator.GetStatus_calls config ramCacheSize byteMRC cs
    refine ⟨status, h, ?_, hprop⟩
    rw [hmax]
    show min (if config.m_hasVirtualSize = true then _ else config.size) _ = _
    rw [hno, if_neg (by decide)]
  · obtain ⟨status, h, -, hprop, -⟩ :=
      CacheAllocator.GetStatus_calls (config.setProportion proportion) ramCacheSize byteMRC cs
    exact ⟨status, h, hprop⟩

theorem GetStatus_reports_instance_size_witness :
    (∃ status, ((CacheAllocator.new (plainConfig.setVirtualSize 600) 1000).calls
        [AgentCall.addPool "P0" 800 0 3]).GetStatus noCurve = some status ∧
      status.m_maxSize = min 600 1000 ∧ status.m_proportion = plainConfig.proportion) ∧
    (∃ status, ((CacheAllocator.new plainConfig 900).calls
        [AgentCall.addPool "P0" 800 0 3]).GetStatus noCurve = some status ∧
      status.m_maxSize = min plainConfig.size 900 ∧
      status.m_proportion = plainConfig.proportion) :=
  ⟨(GetStatus_reports_instance_size plainConfig 1000 noCurve
      [AgentCall.addPool "P0" 800 0 3]).1 600 (by norm_num),
    (GetStatus_reports_instance_size plainConfig 900 noCurve
      [AgentCall.addPool "P0" 800 0 3]).2.1 rfl⟩

/-- C20: in every state reached by calls of `addPool` and `removePool` (and of
`registerMetrics`), `GetStatus` reports exactly the pools created by `addPool` and not
since removed, each with the QoS level and the proportion given to its `addPool`;
`removePool(id)` asks the engine to shrink the pool by exactly its current size, after
which the size of the pool is 0. -/
theorem GetStatus_reports_live_pools (config : CacheAllocatorConfig) (ramCacheSize : Nat)
    (byteMRC : List ShardsCall → List (Nat × ℚ)) (cs : List AgentCall) :
    (∃ status, ((CacheAllocator.new config ramCacheSize).calls cs).GetStatus byteMRC =
        some status ∧
      status.m_pools.map (fun e => (e.1, e.2.m_qosLevel, e.2.m_proportion)) =
        CacheAllocator.livePools (CacheAllocator.new config ramCacheSize) [] cs) ∧
    (∀ id : PoolId,
      (((CacheAllocator.new config ramCacheSize).calls cs).removePool id).engine =
        ((CacheAllocator.new config ramCacheSize).calls cs).engine.shrinkPool id
          (poolSize ((CacheAllocator.new config ramCacheSize).calls cs).engine.pools id) ∧
      poolSize (((CacheAllocator.new config ramCacheSize).calls cs).removePool id).engine.pools
        id = 0) := by
  refine ⟨?_, fun id => ⟨rfl, ?_⟩⟩
  · obtain ⟨status, h, -, -, hlive⟩ :=
      CacheAllocator.GetStatus_calls config ramCacheSize byteMRC cs
    exact ⟨status, h, hlive⟩
  · exact CacheAllocator.poolSize_shrink_all _ id

namespace CacheAllocator

theorem poolStatus_registerMetrics (a : CacheAllocator)
    (byteMRC : List ShardsCall → List (Nat × ℚ)) (poolId : PoolId) (diskIOPS : Nat)
    (missRatio : ℚ) (throughput : Nat) (id : PoolId) :
    (a.registerMetrics poolId diskIOPS missRatio throughput).poolStatus byteMRC id =
      (a.poolStatus byteMRC id).map fun s =>
        if id = poolId then s.withMetrics diskIOPS missRatio throughput else s := by
  unfold poolStatus registerMetrics assign PoolStatus.withMetrics
  cases a.m_shards id with
  | none => rfl
  | some shard =>
    by_cases h : id = poolId
    · simp [h]
    · simp [h]

/-- The loop of `GetStatus` after `registerMetrics`: the statuses it gave before, with
the metrics of the pool replaced. -/
theorem poolStatuses_registerMetrics (a : CacheAllocator)
    (byteMRC : List ShardsCall → List (Nat × ℚ)) (poolId : PoolId) (diskIOPS : Nat)
    (missRatio : ℚ) (throughput : Nat) :
    ∀ l : List PoolId,
      (a.registerMetrics poolId diskIOPS missRatio throughput).poolStatuses byteMRC l =
        (a.poolStatuses byteMRC l).map fun pools => pools.map fun e =>
          if e.1 = poolId then (e.1, e.2.withMetrics diskIOPS missRatio throughput) else e := by
  intro l
  induction l with
  | nil => rfl
  | cons id rest ih =>
    unfold poolStatuses
    have hact : (a.registerMetrics poolId diskIOPS missRatio throughput).m_activePools =
        a.m_activePools := rfl
    rw [hact]
    by_cases hid : id ∈ a.m_activePools
    · rw [if_pos hid, if_pos hid, poolStatus_registerMetrics, ih]
      cases a.poolStatus byteMRC id with
      | none => rfl
      | some s =>
        cases a.poolStatuses byteMRC rest with
        | none => rfl
        | some tail =>
          by_cases h : id = poolId
          · simp [h]
          · simp [h]
    · rw [if_neg hid, if_neg hid, ih]

end CacheAllocator

/-- C19: after `registerMetrics(p, d, m, t)` the next `GetStatus` reports what it
reported before with the three metrics of pool `p` replaced by `d`, `m`, `t`: the last
write wins, and nothing reported for another pool changes; a pool just added to an
agent reached by calls of the application is reported with the metrics 0, 1.0, 0. -/
theorem registerMetrics_last_write_wins :
    (∀ (a : CacheAllocator) (byteMRC : List ShardsCall → List (Nat × ℚ)) (p : PoolId)
      (d : Nat) (m : ℚ) (t : Nat) (status : CacheStatus),
      a.GetStatus byteMRC = some status →
      (a.registerMetrics p d m t).GetStatus byteMRC = some
        { status with
          m_pools := status.m_pools.map fun e =>
            if e.1 = p then (e.1, e.2.withMetrics d m t) else e }) ∧
    (∀ (config : CacheAllocatorConfig) (ramCacheSize : Nat)
      (byteMRC : List ShardsCall → List (Nat × ℚ)) (cs : List AgentCall) (name : String)
      (size : Nat) (qosLevel proportion : ℚ),
      ∃ status s,
        (((CacheAllocator.new config ramCacheSize).calls cs).addPool name size qosLevel
          proportion).2.GetStatus byteMRC = some status ∧
        ((((CacheAllocator.new config ramCacheSize).calls cs).addPool name size qosLevel
          proportion).1, s) ∈ status.m_pools ∧
        s.m_diskIOPS = 0 ∧ s.m_missRatio = 1 ∧ s.m_throughput = 0) := by
  refine ⟨fun a byteMRC p d m t status h => ?_,
    fun config ramCacheSize byteMRC cs name size qosLevel proportion => ?_⟩
  · unfold CacheAllocator.GetStatus at h ⊢
    rw [Option.map_eq_some'] at h
    obtain ⟨pools, hpools, rfl⟩ := h
    have hids : (a.registerMetrics p d m t).engine.getPoolIds = a.engine.getPoolIds := rfl
    rw [hids, CacheAllocator.poolStatuses_registerMetrics, hpools]
    rfl
  · have h := CacheAllocator.holds_addPool _ _
      (CacheAllocator.holds_calls cs _ _ (CacheAllocator.holds_new config ramCacheSize))
      name size qosLevel proportion
    refine ⟨_, (((CacheAllocator.new config ramCacheSize).calls cs).addPool name size qosLevel
      proportion).2.statusOf byteMRC (((CacheAllocator.new config ramCacheSize).calls
        cs).addPool name size qosLevel proportion).1,
      CacheAllocator.GetStatus_of_holds _ byteMRC _ h, ?_, ?_⟩
    · dsimp only
      rw [List.map_map, List.map_append, List.mem_append]
      right
      simp only [List.map_cons, List.map_nil, List.mem_singleton, Function.comp]
    · simp [CacheAllocator.statusOf, CacheAllocator.addPool, assign]

theorem registerMetrics_last_write_wins_witness :
    ∃ status, twoPoolAgent.GetStatus noCurve = some status ∧
      (twoPoolAgent.registerMetrics 0 5 (1 / 2) 7).GetStatus noCurve = some
        { status with
          m_pools := status.m_pools.map fun e =>
            if e.1 = 0 then (e.1, e.2.withMetrics 5 (1 / 2) 7) else e } := by
  obtain ⟨status, h, -⟩ := CacheAllocator.GetStatus_calls plainConfig 1000 noCurve
    [AgentCall.addPool "P0" 800 0 3, AgentCall.addPool "P1" 200 0 1]
  exact ⟨status, h, registerMetrics_last_write_wins.1 twoPoolAgent noCurve 0 5 (1 / 2) 7
    status h⟩

/-! ## The estimator under `insert` and `insertOrReplace` -/

theorem resizeOrRaise_of_none (getPool : PoolId → Option Nat) (poolsizes : PoolSizes)
    (e : PoolId × Nat) (he : e ∈ poolsizes) (h : getPool e.1 = none) :
    ResizeOrRaise getPool poolsizes = none := by
  unfold ResizeOrRaise
  rw [if_neg]
  intro hall
  rw [List.all_eq_true] at hall
  have := hall e he
  rw [h] at this
  exact absurd this (by decide)

theorem resizeOrRaise_of_some (getPool : PoolId → Option Nat) (poolsizes : PoolSizes)
    (h : ∀ e ∈ poolsizes, ∃ s, getPool e.1 = some s) :
    ResizeOrRaise getPool poolsizes =
      some (Resize (fun id => (getPool id).getD 0) poolsizes) := by
  unfold ResizeOrRaise
  rw [if_pos]
  rw [List.all_eq_true]
  intro e he
  obtain ⟨s, hs⟩ := h e he
  rw [hs]
  rfl

/-- Within the `int64_t` range `Resize` makes a call for every entry whose target
differs from the size the engine reports for its pool. -/
theorem mem_Resize_ops (current : PoolId → Nat) (poolsizes : PoolSizes)
    (hlt : ∀ e ∈ poolsizes, e.2 < 2 ^ 63 ∧ current e.1 < 2 ^ 63) (e : PoolId × Nat)
    (he : e ∈ poolsizes) (hne : e.2 ≠ current e.1) :
    ruleOp (e.1, (e.2 : Int) - (current e.1 : Int)) ∈ (Resize current poolsizes).1 := by
  rw [Resize_ops_eq_of_lt current poolsizes hlt, relSizes_eq_of_lt current poolsizes hlt]
  refine List.mem_map.mpr ⟨(e.1, (e.2 : Int) - (current e.1 : Int)), ?_, rfl⟩
  refine (List.perm_insertionSort relLE _).mem_iff.mpr ?_
  unfold exactDeltas
  rw [List.mem_filter]
  refine ⟨List.mem_map.mpr ⟨e, he, rfl⟩, ?_⟩
  simp only [decide_eq_true_eq]
  omega

/-- C16 (amended): `Resize` has no check of its own for the pool ids of a request.  It
asks the engine for the size of every requested pool first: when the engine raises for
an id, `Resize` ends without any call and without a status; when the engine answers
for every id, an entry is treated like any other, whatever its id: within the `int64_t`
range a call is made for it when its target differs from the size the engine reports,
and the status is OK. -/
theorem Resize_has_no_check_for_unknown_pools (getPool : PoolId → Option Nat)
    (poolsizes : PoolSizes) (u t : Nat) (hmem : (u, t) ∈ poolsizes) :
    (getPool u = none → ResizeOrRaise getPool poolsizes = none) ∧
    (∀ s, getPool u = some s → (∀ e ∈ poolsizes, ∃ s', getPool e.1 = some s') →
      (∀ e ∈ poolsizes, e.2 < 2 ^ 63 ∧ (getPool e.1).getD 0 < 2 ^ 63) → t ≠ s →
      ∃ ops, ResizeOrRaise getPool poolsizes = some (ops, Status.OK) ∧
        ruleOp (u, (t : Int) - (s : Int)) ∈ ops) := by
  refine ⟨fun h => resizeOrRaise_of_none getPool poolsizes (u, t) hmem h,
    fun s hs hall hlt hne => ?_⟩
  refine ⟨(Resize (fun id => (getPool id).getD 0) poolsizes).1,
    resizeOrRaise_of_some getPool poolsizes hall, ?_⟩
  have h := mem_Resize_ops (fun id => (getPool id).getD 0) poolsizes hlt (u, t) hmem
    (by simpa [hs] using hne)
  simpa [hs] using h

theorem Resize_has_no_check_for_unknown_pools_witness :
    ResizeOrRaise raisingEngine [(0, 300), (7, 100)] = none ∧
      ∃ ops, ResizeOrRaise lenientEngine [(0, 300), (7, 100)] = some (ops, Status.OK) ∧
        PoolOp.growPool 7 100 ∈ ops :=
  ⟨(Resize_has_no_check_for_unknown_pools raisingEngine [(0, 300), (7, 100)] 7 100
      (by decide)).1 rfl,
    (Resize_has_no_check_for_unknown_pools lenientEngine [(0, 300), (7, 100)] 7 100
      (by decide)).2 0 rfl (by simp [lenientEngine]) (by decide) (by decide)⟩

/-- C16 as stated fails: for the request `{0 → 300, 7 → 100}` on an engine that holds
only pool 0, `Resize` does not return OK after the call for pool 0 alone: it ends with
no call when the engine raises for pool 7, and it grows pool 7 when the engine reports
a size for it; a pool removed by `removePool`, which `GetStatus` no longer reports, is
grown as well. -/
theorem Resize_does_not_skip_unknown_pool :
    ¬ SkipsUnknownPools raisingEngine (fun id => id == 0) [(0, 300), (7, 100)] ∧
      ResizeOrRaise raisingEngine [(0, 300), (7, 100)] = none ∧
      ¬ SkipsUnknownPools lenientEngine (fun id => id == 0) [(0, 300), (7, 100)] ∧
      ResizeOrRaise lenientEngine [(0, 300), (7, 100)] =
        some ([PoolOp.shrinkPool 0 500, PoolOp.growPool 7 100], Status.OK) ∧
      Resize (poolSize (twoPoolAgent.removePool 1).engine.pools) [(1, 100)] =
        ([PoolOp.growPool 1 100], Status.OK) := by
  refine ⟨by decide, by decide, by decide, by decide, by decide⟩

/-- C17 (amended): `Resize` returns OK whatever the engine answers to its calls of
`shrinkPool` and `growPool`, and the answers change none of its calls. -/
theorem Resize_returns_OK_whatever_engine_answers (getPoolSize : PoolId → Nat)
    (accepted : Nat → Bool) (poolsizes : PoolSizes) :
    (ResizeAnswered getPoolSize accepted poolsizes).2 = Status.OK ∧
      (ResizeAnswered getPoolSize accepted poolsizes).1.map Prod.fst =
        (Resize getPoolSize poolsizes).1 := by
  refine ⟨rfl, ?_⟩
  unfold ResizeAnswered
  rw [List.map_map]
  exact List.enum_map_snd _

/-- C17 as stated fails: the engine rejects the only call of the request, the growth of
pool 0 from 800 to 900, and `Resize` returns OK. -/
theorem Resize_hides_rejected_call :
    ResizeAnswered (poolSize [(0, 800), (1, 200)]) (fun _ => false) [(0, 900)] =
        ([(PoolOp.growPool 0 100, false)], Status.OK) ∧
      ¬ ReportsRejection (poolSize [(0, 800), (1, 200)]) (fun _ => false) [(0, 900)] := by
  have h : ResizeAnswered (poolSize [(0, 800), (1, 200)]) (fun _ => false) [(0, 900)] =
      ([(PoolOp.growPool 0 100, false)], Status.OK) := by decide
  refine ⟨h, ?_⟩
  unfold ReportsRejection
  rw [h]
  simp

/-! ## The orchestrator program -/

theorem mainLoop_unknown (stod : String → Option ℚ) (name argument : String)
    (rest : List String) (calls : List AlgorithmCall) (h₁ : name ≠ "ThroughputMaximization")
    (h₂ : name ≠ "Motivation") :
    mainLoop stod (name :: argument :: rest) calls =
      MainOutcome.returns 1 (Usage.unknownAlgorithm name) := by
  unfold mainLoop
  simp only [if_neg h₁, if_neg h₂]

theorem mainLoop_throughput_few (stod : String → Option ℚ) (argument : String)
    (rest : List String) (calls : List AlgorithmCall)
    (h : (split argument ':').length < 2) :
    mainLoop stod ("ThroughputMaximization" :: argument :: rest) calls =
      MainOutcome.returns 1 Usage.throughputMaximization := by
  unfold mainLoop
  simp only [if_true, if_pos h]

/-- C21: `main` returns 1 after a message on standard error when there is no bind
address, when an algorithm name has no argument string, when the algorithm name is
unknown, when `ThroughputMaximization` gets fewer than 2 colon-separated arguments (as
for "1000" and "1000:") and when `Motivation` gets an empty argument string.  For a
value that cannot be converted it does not: `std::stoul("abc")` throws, `main` catches
nothing, and the process is ended by `std::terminate` instead of returning 1. -/
theorem main_aborts_on_unparsable_value :
    (∀ (stod : String → Option ℚ) (argv : List String), argv.length < 2 →
      main stod argv = MainOutcome.returns 1 Usage.help) ∧
    (∀ (stod : String → Option ℚ) (program address : String) (rest : List String),
      main stod (program :: address :: rest) = mainLoop stod rest []) ∧
    (∀ (stod : String → Option ℚ) (name : String) (calls : List AlgorithmCall),
      mainLoop stod [name] calls = MainOutcome.returns 1 Usage.missingArguments) ∧
    (∀ (stod : String → Option ℚ) (name argument : String) (rest : List String)
      (calls : List AlgorithmCall), name ≠ "ThroughputMaximization" → name ≠ "Motivation" →
      mainLoop stod (name :: argument :: rest) calls =
        MainOutcome.returns 1 (Usage.unknownAlgorithm name)) ∧
    (∀ (stod : String → Option ℚ) (argument : String) (rest : List String)
      (calls : List AlgorithmCall), (split argument ':').length < 2 →
      mainLoop stod ("ThroughputMaximization" :: argument :: rest) calls =
        MainOutcome.returns 1 Usage.throughputMaximization) ∧
    split "1000" ':' = ["1000"] ∧ split "1000:" ':' = ["1000"] ∧ split "" ':' = [] ∧
    (∀ (stod : String → Option ℚ) (rest : List String) (calls : List AlgorithmCall),
      mainLoop stod ("Motivation" :: "" :: rest) calls =
        MainOutcome.returns 1 Usage.motivation) ∧
    stoul "abc" = none ∧
    (∀ stod : String → Option ℚ,
      main stod ["orchestrator", "localhost:11110", "Motivation", "abc"] =
        MainOutcome.terminate) ∧
    (∀ stod : String → Option ℚ,
      main stod ["orchestrator", "localhost:11110", "ThroughputMaximization", "abc:0.05"] =
        MainOutcome.terminate) ∧
    (∀ stod : String → Option ℚ, stod "abc" = none →
      main stod ["orchestrator", "localhost:11110", "ThroughputMaximization", "1000:abc"] =
        MainOutcome.terminate) := by
  refine ⟨fun stod argv h => ?_, fun _ _ _ _ => rfl, fun _ _ _ => rfl,
    mainLoop_unknown, mainLoop_throughput_few, by decide, by decide, by decide,
    fun _ _ _ => rfl, by decide, fun _ => rfl, fun stod => ?_, fun stod h => ?_⟩
  · unfold main
    rw [if_pos h]
  · have hs : split "abc:0.05" ':' = ["abc", "0.05"] := by decide
    have ha : stoul "abc" = none := by decide
    show mainLoop stod ["ThroughputMaximization", "abc:0.05"] [] = _
    unfold mainLoop
    simp [hs, ha]
  · have hs : split "1000:abc" ':' = ["1000", "abc"] := by decide
    show mainLoop stod ["ThroughputMaximization", "1000:abc"] [] = _
    unfold mainLoop
    simp [hs, h]

theorem main_aborts_on_unparsable_value_witness :
    main stodOnly005 ["orchestrator"] = MainOutcome.returns 1 Usage.help ∧
      main stodOnly005 ["orchestrator", "localhost:11110", "Greedy", "1000"] =
        MainOutcome.returns 1 (Usage.unknownAlgorithm "Greedy") ∧
      main stodOnly005 ["orchestrator", "localhost:11110", "ThroughputMaximization", "1000:"] =
        MainOutcome.returns 1 Usage.throughputMaximization ∧
      main stodOnly005 ["orchestrator", "localhost:11110", "ThroughputMaximization",
        "1000:abc"] = MainOutcome.terminate :=
  ⟨main_aborts_on_unparsable_value.1 stodOnly005 ["orchestrator"] (by decide),
    main_aborts_on_unparsable_value.2.2.2.1 stodOnly005 "Greedy" "1000" [] [] (by decide)
      (by decide),
    main_aborts_on_unparsable_value.2.2.2.2.1 stodOnly005 "1000:" [] [] (by decide),
    main_aborts_on_unparsable_value.2.2.2.2.2.2.2.2.2.2.2.2 stodOnly005 (by decide)⟩

/-! ## The preliminary sizes and the words of the specification -/

namespace PerformanceMaximization

end PerformanceMaximization

namespace PerformanceMaximization

end PerformanceMaximization

/-! ## Scenarios of the preliminary sizes -/

namespace PerformanceMaximization

end PerformanceMaximization

namespace PerformanceMaximization

theorem poolConfigs_keys (config : PoolId → PoolStatus → Option PoolConfig) :
    ∀ (ps : List (PoolId × PoolStatus)) (pcs : List (PoolId × PoolConfig)),
      poolConfigs config ps = some pcs →
      pcs.map Prod.fst = (ps.filter fun p => !isNew p.2).map Prod.fst := by
  intro ps
  induction ps with
  | nil =>
    intro pcs h
    simp only [poolConfigs, Option.some.injEq] at h
    subst h
    rfl
  | cons p t ih =>
    intro pcs h
    unfold poolConfigs at h
    by_cases hnew : isNew p.2 = true
    · rw [if_pos hnew] at h
      rw [ih pcs h, List.filter_cons_of_neg (by simp [hnew])]
    · rw [if_neg hnew] at h
      have hfalse : isNew p.2 = false := by simpa using hnew
      cases hc : config p.1 p.2 with
      | none => simp [hc] at h
      | some c =>
        cases ht : poolConfigs config t with
        | none => simp [hc, ht] at h
        | some tail =>
          simp only [hc, ht, Option.some.injEq] at h
          subst h
          rw [List.map_cons, ih tail ht, List.filter_cons_of_pos (by simp [hfalse]),
            List.map_cons]

/-- The caches Step 4 puts into the context are the caches with a usable pool, each with
the ids of its usable pools, and none of them is without a pool configuration. -/
theorem cacheConfigs_keys (config : Address → PoolId → PoolStatus → Option PoolConfig) :
    ∀ (all : List (Address × CacheStatus)) (l : List (Address × CacheConfig)),
      cacheConfigs config all = some l →
      (⟨l⟩ : Context).keys = usableKeys all ∧ ∀ e ∈ l, e.2.m_poolConfigs ≠ [] := by
  intro all
  induction all with
  | nil =>
    intro l h
    simp only [cacheConfigs, Option.some.injEq] at h
    subst h
    exact ⟨rfl, fun e he => absurd he (List.not_mem_nil _)⟩
  | cons c t ih =>
    intro l h
    unfold cacheConfigs at h
    cases hp : poolConfigs (config c.1) c.2.m_pools with
    | none => simp [hp] at h
    | some pcs =>
      cases ht : cacheConfigs config t with
      | none => simp [hp, ht] at h
      | some tail =>
        simp only [hp, ht] at h
        have k1 := poolConfigs_keys (config c.1) c.2.m_pools pcs hp
        obtain ⟨h1, h2⟩ := ih tail ht
        simp only [Context.keys] at h1 ⊢
        by_cases hempty : pcs.isEmpty = true
        · rw [if_pos hempty, Option.some.injEq] at h
          subst h
          have hnil : pcs = [] := List.isEmpty_iff.mp hempty
          subst hnil
          refine ⟨?_, h2⟩
          rw [h1]
          unfold usableKeys
          rw [List.filterMap_cons]
          simp only [List.map_nil] at k1
          rw [← k1]
          simp
        · rw [if_neg hempty, Option.some.injEq] at h
          subst h
          refine ⟨?_, ?_⟩
          · rw [List.map_cons, h1]
            unfold usableKeys
            rw [List.filterMap_cons, ← k1]
            have : (pcs.map Prod.fst).isEmpty = false := by
              cases pcs with
              | nil => simp at hempty
              | cons _ _ => rfl
            simp [this]
          · intro e he
            rcases List.mem_cons.mp he with rfl | he
            · intro hnil
              exact hempty (List.isEmpty_iff.mpr hnil)
            · exact h2 e he

theorem context_keys (pm : PerformanceMaximization) (ub : Option ℚ → Nat)
    (fit : List ℚ → List ℚ → Option Spline) (all : List (Address × CacheStatus))
    (ctx : Context) (hctx : context pm ub fit all = some ctx) :
    ctx.keys = usableKeys all ∧ ∀ e ∈ ctx.m_cacheConfigs, e.2.m_poolConfigs ≠ [] := by
  unfold context at hctx
  rw [Option.map_eq_some'] at hctx
  obtain ⟨l, hl, rfl⟩ := hctx
  exact cacheConfigs_keys _ all l hl

end PerformanceMaximization

theorem Context.keys_of_bounds_eq (a b : Context) (h : a.bounds = b.bounds) :
    a.keys = b.keys := by
  have key : ∀ c : Context, c.keys =
      c.bounds.map fun e => (e.1, e.2.map fun p => p.1) := by
    intro c
    unfold Context.keys Context.bounds
    rw [List.map_map]
    refine List.map_congr_left fun e _ => ?_
    simp only [Function.comp, List.map_map]
    rfl
  rw [key a, key b, h]

theorem Context.reachable_bounds (ctx cur : Context)
    (h : Relation.ReflTransGen Context.Step ctx cur) : cur.bounds = ctx.bounds := by
  induction h with
  | refl => rfl
  | tail _ hstep ih =>
    obtain ⟨r, hr⟩ := hstep
    exact (Context.step_bounds _ _ r hr).trans ih

/-- `Context::skip` holds exactly when no cache of the context has a pool. -/
theorem Context.skip_iff (ctx : Context) :
    ctx.skip = true ↔ ∀ e ∈ ctx.m_cacheConfigs, e.2.m_poolConfigs = [] := by
  unfold Context.skip
  rw [beq_iff_eq, List.sum_eq_zero_iff]
  constructor
  · intro h e he
    exact List.length_eq_zero.mp (h _ (List.mem_map.mpr ⟨e, he, rfl⟩))
  · intro h n hn
    obtain ⟨e, he, rfl⟩ := List.mem_map.mp hn
    rw [h e he]
    rfl

/-- Two contexts with the same keys: when no cache of the one is without a pool, none of
the other is. -/
theorem Context.pools_ne_nil_of_keys_eq (a b : Context) (h : a.keys = b.keys)
    (hb : ∀ e ∈ b.m_cacheConfigs, e.2.m_poolConfigs ≠ []) :
    ∀ e ∈ a.m_cacheConfigs, e.2.m_poolConfigs ≠ [] := by
  intro e he hnil
  have h1 : (e.1, e.2.m_poolConfigs.map Prod.fst) ∈ a.keys := List.mem_map.mpr ⟨e, he, rfl⟩
  rw [h] at h1
  obtain ⟨e', he', heq⟩ := List.mem_map.mp h1
  rw [Prod.mk.injEq, hnil, List.map_nil, List.map_eq_nil_iff] at heq
  exact hb e' he' heq.2

/-- C30: every cache of the context built by a tick holds at least one pool
configuration, and `Context::skip` holds exactly when the context holds no pool; hence
on every context that `run` reaches from it by calls of `step`, a call of `step`
returns, its lookups being in range, for every outcome of the draws. -/
theorem step_never_throws (pm : PerformanceMaximization) (ub : Option ℚ → Nat)
    (fit : List ℚ → List ℚ → Option Spline) (all : List (Address × CacheStatus))
    (ctx : Context) (hctx : PerformanceMaximization.context pm ub fit all = some ctx) :
    (∀ e ∈ ctx.m_cacheConfigs, e.2.m_poolConfigs ≠ []) ∧
      (ctx.skip = true ↔ ∀ e ∈ ctx.m_cacheConfigs, e.2.m_poolConfigs = []) ∧
      (ctx.skip = true ↔ ctx.m_cacheConfigs = []) ∧
      (ctx.skip = false → ∀ cur, Relation.ReflTransGen Context.Step ctx cur →
        ∀ r : StepDraws, ∃ next, cur.step r = some next) := by
  have hne := (PerformanceMaximization.context_keys pm ub fit all ctx hctx).2
  have hskip : ctx.skip = true ↔ ctx.m_cacheConfigs = [] := by
    rw [Context.skip_iff]
    constructor
    · intro h
      cases hl : ctx.m_cacheConfigs with
      | nil => rfl
      | cons e t =>
        have he : e ∈ ctx.m_cacheConfigs := by
          rw [hl]
          exact List.mem_cons_self _ _
        exact absurd (h e he) (hne e he)
    · intro h e he
      rw [h] at he
      exact absurd he (List.not_mem_nil _)
  refine ⟨hne, Context.skip_iff ctx, hskip, fun hrun cur hreach r => ?_⟩
  have hkeys := Context.keys_of_bounds_eq cur ctx (Context.reachable_bounds ctx cur hreach)
  have hcaches : cur.m_cacheConfigs ≠ [] := by
    intro hnil
    have hlen := congrArg List.length hkeys
    unfold Context.keys at hlen
    rw [List.length_map, List.length_map, hnil] at hlen
    have : ctx.m_cacheConfigs = [] := List.length_eq_zero.mp hlen.symm
    rw [hskip.mpr this] at hrun
    exact absurd hrun (by decide)
  exact Context.step_returns cur r hcaches
    (Context.pools_ne_nil_of_keys_eq cur ctx hkeys hne)

theorem step_never_throws_witness :
    ∃ ctx, PerformanceMaximization.context freshController (fun _ => 0) flatFit oneUsablePool =
        some ctx ∧
      (∀ e ∈ ctx.m_cacheConfigs, e.2.m_poolConfigs ≠ []) ∧
      (ctx.skip = false → ∀ cur, Relation.ReflTransGen Context.Step ctx cur →
        ∀ r : StepDraws, ∃ next, cur.step r = some next) := by
  obtain ⟨ctx, h⟩ := Option.isSome_iff_exists.mp (by decide :
    (PerformanceMaximization.context freshController (fun _ => 0) flatFit
      oneUsablePool).isSome = true)
  have hw := step_never_throws freshController (fun _ => 0) flatFit oneUsablePool ctx h
  exact ⟨ctx, h, hw.1, hw.2.2.2⟩

/-! ## The pool configurations of the context and the targets of the plan -/

theorem lookup_of_mem_nodup {α β : Type} [DecidableEq α] :
    ∀ (l : List (α × β)), (l.map Prod.fst).Nodup → ∀ (a : α) (b : β), (a, b) ∈ l →
      l.lookup a = some b := by
  intro l
  induction l with
  | nil => intro _ a b h; exact absurd h (List.not_mem_nil _)
  | cons e t ih =>
    intro hnd a b h
    obtain ⟨k, v⟩ := e
    rw [List.map_cons, List.nodup_cons] at hnd
    rw [lookup_cons_ite]
    rcases List.mem_cons.mp h with h | h
    · rw [Prod.mk.injEq] at h
      rw [if_pos h.1, h.2]
    · have hne : a ≠ k := by
        intro hak
        exact hnd.1 (List.mem_map.mpr ⟨(a, b), h, hak⟩)
      rw [if_neg hne]
      exact ih hnd.2 a b h

theorem mem_of_lookup_eq_some {α β : Type} [DecidableEq α] :
    ∀ (l : List (α × β)) (a : α) (b : β), l.lookup a = some b → (a, b) ∈ l := by
  intro l
  induction l with
  | nil => intro a b h; simp at h
  | cons e t ih =>
    intro a b h
    obtain ⟨k, v⟩ := e
    rw [lookup_cons_ite] at h
    by_cases hak : a = k
    · rw [if_pos hak, Option.some.injEq] at h
      rw [hak, h]
      exact List.mem_cons_self _ _
    · rw [if_neg hak] at h
      exact List.mem_cons_of_mem _ (ih a b h)

namespace PerformanceMaximization

theorem mem_usableKeys_origin (all : List (Address × CacheStatus)) (a : Address)
    (ids : List PoolId) (h : (a, ids) ∈ usableKeys all) :
    ∃ c ∈ all, c.1 = a ∧ ids = (c.2.m_pools.filter fun p => !isNew p.2).map Prod.fst := by
  unfold usableKeys at h
  rw [List.mem_filterMap] at h
  obtain ⟨c, hc, hsome⟩ := h
  split at hsome
  · exact absurd hsome (by simp)
  · rw [Option.some.injEq, Prod.mk.injEq] at hsome
    exact ⟨c, hc, hsome.1, hsome.2.symm⟩

theorem names_usableKeys_sublist (all : List (Address × CacheStatus)) :
    ((usableKeys all).map Prod.fst).Sublist (all.map Prod.fst) := by
  induction all with
  | nil => exact List.Sublist.slnil
  | cons c t ih =>
    rw [usableKeys_cons]
    split
    · exact List.Sublist.cons _ ih
    · rw [List.map_cons, List.map_cons]
      exact List.Sublist.cons₂ _ ih

/-- An entry of a context with the keys of the usable pools, under the name of an
observed cache, holds the ids of the usable pools of that cache. -/
theorem pool_keys_of_entry (all : List (Address × CacheStatus)) (final : Context)
    (hnames : (all.map Prod.fst).Nodup) (hkeys : final.keys = usableKeys all)
    (c : Address × CacheStatus) (hc : c ∈ all) (e : Address × CacheConfig)
    (he : e ∈ final.m_cacheConfigs) (he1 : e.1 = c.1) :
    e.2.m_poolConfigs.map Prod.fst = (c.2.m_pools.filter fun p => !isNew p.2).map Prod.fst := by
  have h1 : (e.1, e.2.m_poolConfigs.map Prod.fst) ∈ final.keys :=
    List.mem_map.mpr ⟨e, he, rfl⟩
  rw [hkeys] at h1
  obtain ⟨c', hc', hc1, hids⟩ := mem_usableKeys_origin all _ _ h1
  have hcc : c' = c := List.inj_on_of_nodup_map hnames hc' hc (by rw [hc1, he1])
  rw [hids, hcc]

/-- A pool with fewer than 3 MRC points has no pool configuration in a context with the
keys of the usable pools. -/
theorem not_mem_of_isNew (all : List (Address × CacheStatus)) (final : Context)
    (hnames : (all.map Prod.fst).Nodup) (hids : ∀ c ∈ all, (c.2.m_pools.map Prod.fst).Nodup)
    (hkeys : final.keys = usableKeys all) (c : Address × CacheStatus) (hc : c ∈ all)
    (p : PoolId × PoolStatus) (hp : p ∈ c.2.m_pools) (hnew : isNew p.2 = true)
    (e : Address × CacheConfig) (he : e ∈ final.m_cacheConfigs) (he1 : e.1 = c.1) :
    p.1 ∉ e.2.m_poolConfigs.map Prod.fst := by
  rw [pool_keys_of_entry all final hnames hkeys c hc e he he1]
  intro hmem
  obtain ⟨p', hp', hp1⟩ := List.mem_map.mp hmem
  rw [List.mem_filter] at hp'
  have hpp : p' = p := List.inj_on_of_nodup_map (hids c hc) hp'.1 hp hp1
  rw [hpp, hnew] at hp'
  exact absurd hp'.2 (by decide)

/-- What the plan reads from the context for an observed pool: the optimal size of its
pool configuration when its MRC is usable, nothing otherwise. -/
theorem optimalSize?_of_keys (all : List (Address × CacheStatus)) (final : Context)
    (hnames : (all.map Prod.fst).Nodup) (hids : ∀ c ∈ all, (c.2.m_pools.map Prod.fst).Nodup)
    (hkeys : final.keys = usableKeys all) (c : Address × CacheStatus) (hc : c ∈ all)
    (p : PoolId × PoolStatus) (hp : p ∈ c.2.m_pools) :
    (isNew p.2 = true → final.optimalSize? c.1 p.1 = none) ∧
      (isNew p.2 = false → ∃ e ∈ final.m_cacheConfigs, e.1 = c.1 ∧
        ∃ q ∈ e.2.m_poolConfigs, q.1 = p.1 ∧
          final.optimalSize? c.1 p.1 = some q.2.m_optimalSize) := by
  have hfn : (final.m_cacheConfigs.map Prod.fst).Nodup := by
    have h1 : final.keys.map Prod.fst = final.m_cacheConfigs.map Prod.fst := by
      unfold Context.keys
      rw [List.map_map]
      rfl
    rw [← h1, hkeys]
    exact hnames.sublist (names_usableKeys_sublist all)
  constructor
  · intro hnew
    unfold Context.optimalSize?
    cases hl : final.m_cacheConfigs.lookup c.1 with
    | none => rfl
    | some cc =>
      have hmem := mem_of_lookup_eq_some _ _ _ hl
      have hnot := not_mem_of_isNew all final hnames hids hkeys c hc p hp hnew (c.1, cc) hmem rfl
      rw [Option.some_bind, lookup_eq_none_of_not_mem p.1 cc.m_poolConfigs hnot]
      rfl
  · intro husable
    obtain ⟨e, he, he1, q, hq, hq1⟩ := has_pool_of_keys all final hkeys c hc p hp husable
    refine ⟨e, he, he1, q, hq, hq1, ?_⟩
    have hpn : (e.2.m_poolConfigs.map Prod.fst).Nodup := by
      rw [pool_keys_of_entry all final hnames hkeys c hc e he he1]
      exact (hids c hc).sublist ((List.filter_sublist _).map Prod.fst)
    unfold Context.optimalSize?
    rw [← he1, lookup_of_mem_nodup _ hfn e.1 e.2 he, Option.some_bind, ← hq1,
      lookup_of_mem_nodup _ hpn q.1 q.2 hq]
    rfl

end PerformanceMaximization

/-- C25: the plan a tick passes to `resize` has one `CacheResize` for each observed
cache, also for a cache without a pool or without a usable pool, and in it one
`PoolResize` for each observed pool; outside fake-enforce mode the target of a pool
with a usable MRC is the optimal size of its pool configuration in the context after
the optimisation, and the target of a pool with fewer than 3 MRC points, which has no
pool configuration, is its preliminary size; in fake-enforce mode every target is the
observed `maxSize` of the pool. -/
theorem plan_has_target_for_every_pool (pm : PerformanceMaximization) (ub : Option ℚ → Nat)
    (fit : List ℚ → List ℚ → Option Spline) (all : List (Address × CacheStatus))
    (plan : List CacheResize) (hemit : PerformanceMaximization.Emits pm ub fit all plan)
    (hnames : (all.map Prod.fst).Nodup) (hids : ∀ c ∈ all, (c.2.m_pools.map Prod.fst).Nodup) :
    ∃ (final : Context) (target : Address × CacheStatus → PoolId × PoolStatus → Nat),
      plan = (all.map fun c => ⟨c.1, c.2.m_pools.map fun p => ⟨p.1, target c p⟩⟩) ∧
      (∃ ctx, PerformanceMaximization.context pm ub fit all = some ctx ∧ ctx.Run final) ∧
      ∀ c ∈ all, ∀ p ∈ c.2.m_pools,
        (pm.m_kFakeEnforce = true → target c p = p.2.m_maxSize) ∧
        (pm.m_kFakeEnforce = false → PerformanceMaximization.isNew p.2 = true →
          target c p = PerformanceMaximization.newPoolSize ub all p.2 ∧
          ∀ e ∈ final.m_cacheConfigs, e.1 = c.1 → p.1 ∉ e.2.m_poolConfigs.map Prod.fst) ∧
        (pm.m_kFakeEnforce = false → PerformanceMaximization.isNew p.2 = false →
          ∃ e ∈ final.m_cacheConfigs, e.1 = c.1 ∧ ∃ q ∈ e.2.m_poolConfigs, q.1 = p.1 ∧
            target c p = q.2.m_optimalSize) := by
  obtain ⟨ctx, final, hctx, hrun, rfl⟩ := hemit
  have hkeys : final.keys = PerformanceMaximization.usableKeys all :=
    (Context.keys_of_bounds_eq final ctx (Context.run_bounds ctx final hrun)).trans
      (PerformanceMaximization.context_keys pm ub fit all ctx hctx).1
  refine ⟨final, fun c p => if pm.m_kFakeEnforce = true then p.2.m_maxSize
    else (final.optimalSize? c.1 p.1).getD (PerformanceMaximization.newPoolSize ub all p.2),
    rfl, ⟨ctx, hctx, hrun⟩, fun c hc p hp => ⟨fun hfake => ?_, fun hfake hnew => ?_,
      fun hfake husable => ?_⟩⟩
  · simp only [if_pos hfake]
  · obtain ⟨hnone, -⟩ := PerformanceMaximization.optimalSize?_of_keys all final hnames hids
      hkeys c hc p hp
    refine ⟨?_, fun e he he1 => PerformanceMaximization.not_mem_of_isNew all final hnames hids
      hkeys c hc p hp hnew e he he1⟩
    simp only [hfake, Bool.false_eq_true, if_false, hnone hnew, Option.getD_none]
  · obtain ⟨-, hsome⟩ := PerformanceMaximization.optimalSize?_of_keys all final hnames hids
      hkeys c hc p hp
    obtain ⟨e, he, he1, q, hq, hq1, hopt⟩ := hsome husable
    refine ⟨e, he, he1, q, hq, hq1, ?_⟩
    simp only [hfake, Bool.false_eq_true, if_false, hopt, Option.getD_some]

theorem plan_has_target_for_every_pool_witness :
    ∃ (final : Context) (target : Address × CacheStatus → PoolId × PoolStatus → Nat),
      PerformanceMaximization.plan freshController (fun _ => 0) twoShortCurves ⟨[]⟩ =
        (twoShortCurves.map fun c => ⟨c.1, c.2.m_pools.map fun p => ⟨p.1, target c p⟩⟩) ∧
      (∃ ctx, PerformanceMaximization.context freshController (fun _ => 0) flatFit
        twoShortCurves = some ctx ∧ ctx.Run final) ∧
      ∀ c ∈ twoShortCurves, ∀ p ∈ c.2.m_pools,
        (freshController.m_kFakeEnforce = true → target c p = p.2.m_maxSize) ∧
        (freshController.m_kFakeEnforce = false → PerformanceMaximization.isNew p.2 = true →
          target c p = PerformanceMaximization.newPoolSize (fun _ => 0) twoShortCurves p.2 ∧
          ∀ e ∈ final.m_cacheConfigs, e.1 = c.1 → p.1 ∉ e.2.m_poolConfigs.map Prod.fst) ∧
        (freshController.m_kFakeEnforce = false → PerformanceMaximization.isNew p.2 = false →
          ∃ e ∈ final.m_cacheConfigs, e.1 = c.1 ∧ ∃ q ∈ e.2.m_poolConfigs, q.1 = p.1 ∧
            target c p = q.2.m_optimalSize) :=
  plan_has_target_for_every_pool freshController (fun _ => 0) flatFit twoShortCurves _
    (emits_of_no_usable_pool freshController (fun _ => 0) flatFit twoShortCurves rfl)
    (by decide) (by decide)

/-! ## One update of the moving averages -/

namespace PerformanceMaximization

end PerformanceMaximization

theorem poolId_ruleOp (d : PoolId × Int) : (ruleOp d).poolId = d.1 := by
  unfold ruleOp
  split <;> rfl

/-- An operation of the ordering rule that does not shrink its pool below 0 changes the
size of that pool by exactly its delta. -/
theorem poolSize_applyOp_ruleOp_self (pools : Pools) (d : PoolId × Int)
    (hid : d.1 ∈ pools.map Prod.fst) (hd : -(poolSize pools d.1 : Int) ≤ d.2) :
    (poolSize (applyOp pools (ruleOp d)) d.1 : Int) = (poolSize pools d.1 : Int) + d.2 := by
  unfold ruleOp
  split
  · have h := CacheAllocator.poolSize_map_update_self pools d.1 (fun n => n - (-d.2).toNat)
    rw [if_pos hid] at h
    show ((poolSize (pools.map fun p =>
      if p.1 = d.1 then (p.1, p.2 - (-d.2).toNat) else p) d.1 : Nat) : Int) = _
    rw [h]
    omega
  · have h := CacheAllocator.poolSize_map_update_self pools d.1 (fun n => n + d.2.toNat)
    rw [if_pos hid] at h
    show ((poolSize (pools.map fun p =>
      if p.1 = d.1 then (p.1, p.2 + d.2.toNat) else p) d.1 : Nat) : Int) = _
    rw [h]
    omega

/-- Operations on other pools leave the size of a pool as it is. -/
theorem poolSize_applyOps_ruleOp_of_not_mem (ds : List (PoolId × Int)) (id : PoolId) :
    ∀ pools : Pools, id ∉ ds.map Prod.fst →
      poolSize (applyOps pools (ds.map ruleOp)) id = poolSize pools id := by
  induction ds with
  | nil => intro pools _; rfl
  | cons d ds ih =>
    intro pools h
    rw [List.map_cons, List.mem_cons, not_or] at h
    show poolSize (applyOps (applyOp pools (ruleOp d)) (ds.map ruleOp)) id = _
    rw [ih _ h.2, poolSize_applyOp_ruleOp_of_ne pools d id h.1]

/-- When no pool has two deltas, a pool with a delta ends at its size plus the delta. -/
theorem poolSize_applyOps_ruleOp (ds : List (PoolId × Int)) :
    ∀ pools : Pools, (ds.map Prod.fst).Nodup → ∀ d ∈ ds, d.1 ∈ pools.map Prod.fst →
      -(poolSize pools d.1 : Int) ≤ d.2 →
      (poolSize (applyOps pools (ds.map ruleOp)) d.1 : Int) = (poolSize pools d.1 : Int) + d.2 := by
  induction ds with
  | nil => intro _ _ d hd; exact absurd hd (List.not_mem_nil _)
  | cons d0 ds ih =>
    intro pools hnd d hd hid hle
    rw [List.map_cons, List.nodup_cons] at hnd
    show ((poolSize (applyOps (applyOp pools (ruleOp d0)) (ds.map ruleOp)) d.1 : Nat) : Int) = _
    rcases List.mem_cons.mp hd with rfl | hmem
    · rw [poolSize_applyOps_ruleOp_of_not_mem ds d.1 _ hnd.1]
      exact poolSize_applyOp_ruleOp_self pools d hid hle
    · have hne : d.1 ≠ d0.1 := fun h => hnd.1 (h ▸ List.mem_map_of_mem Prod.fst hmem)
      have hsame := poolSize_applyOp_ruleOp_of_ne pools d0 d.1 hne
      have h := ih (applyOp pools (ruleOp d0)) hnd.2 d hmem
        (by rw [keys_applyOp]; exact hid) (by rw [hsame]; exact hle)
      rw [h, hsame]

theorem not_mem_keys_exactDeltas (current : PoolId → Nat) (poolsizes : PoolSizes)
    (hreq : (poolsizes.map Prod.fst).Nodup) (e : PoolId × Nat) (he : e ∈ poolsizes)
    (heq : e.2 = current e.1) :
    e.1 ∉ (exactDeltas current poolsizes).map Prod.fst := by
  intro h
  obtain ⟨d, hd, hd1⟩ := List.mem_map.mp h
  have hne : d.2 ≠ 0 := by
    have := (List.mem_filter.mp hd).2
    simpa using this
  obtain ⟨e', he', rfl⟩ := mem_exactDeltas hd
  have hee : e' = e := List.inj_on_of_nodup_map hreq he' he hd1
  subst hee
  apply hne
  show (e'.2 : Int) - (current e'.1 : Int) = 0
  omega

/-- C28 (amended). When the request names each pool at most once, names only pools of
the cache, and all sizes and targets are below 2^63, then after the calls of `Resize`,
applied exactly, every requested pool has its target size, every other pool keeps its
size and no pool is resized twice. -/
theorem Resize_brings_each_pool_to_target (pools : Pools) (poolsizes : PoolSizes)
    (hreq : (poolsizes.map Prod.fst).Nodup)
    (hids : ∀ e ∈ poolsizes, e.1 ∈ pools.map Prod.fst)
    (hlt : ∀ e ∈ poolsizes, e.2 < 2 ^ 63 ∧ poolSize pools e.1 < 2 ^ 63) :
    ReachesTargets pools poolsizes := by
  unfold ReachesTargets
  rw [Resize_ops_eq_of_lt (poolSize pools) poolsizes hlt,
    relSizes_eq_of_lt (poolSize pools) poolsizes hlt]
  have hperm : (sortedRelSizes (exactDeltas (poolSize pools) poolsizes)).Perm
      (exactDeltas (poolSize pools) poolsizes) := List.perm_insertionSort relLE _
  have hsub := keys_exactDeltas_sublist (poolSize pools) poolsizes
  have hnd : ((sortedRelSizes (exactDeltas (poolSize pools) poolsizes)).map Prod.fst).Nodup :=
    ((hperm.map Prod.fst).nodup_iff).mpr (hreq.sublist hsub)
  have hkeys : ∀ id, id ∈ (sortedRelSizes (exactDeltas (poolSize pools) poolsizes)).map Prod.fst →
      id ∈ (exactDeltas (poolSize pools) poolsizes).map Prod.fst :=
    fun id h => (hperm.map Prod.fst).mem_iff.mp h
  refine ⟨fun e he => ?_, fun id hid => ?_, ?_⟩
  · by_cases heq : e.2 = poolSize pools e.1
    · rw [poolSize_applyOps_ruleOp_of_not_mem _ e.1 pools
        fun h => not_mem_keys_exactDeltas (poolSize pools) poolsizes hreq e he heq (hkeys _ h)]
      exact heq.symm
    · have hmem : (e.1, (e.2 : Int) - (poolSize pools e.1 : Int)) ∈
          sortedRelSizes (exactDeltas (poolSize pools) poolsizes) := by
        refine hperm.mem_iff.mpr ?_
        unfold exactDeltas
        rw [List.mem_filter]
        refine ⟨List.mem_map.mpr ⟨e, he, rfl⟩, ?_⟩
        simp only [decide_eq_true_eq]
        omega
      have h := poolSize_applyOps_ruleOp _ pools hnd _ hmem (hids e he) (by simp only; omega)
      simp only at h
      omega
  · exact poolSize_applyOps_ruleOp_of_not_mem _ id pools
      fun h => hid (hsub.subset (hkeys _ h))
  · rw [List.map_map]
    have hfun : (PoolOp.poolId ∘ ruleOp) = Prod.fst := funext fun d => poolId_ruleOp d
    rw [hfun]
    exact hnd

theorem Resize_brings_each_pool_to_target_witness :
    ReachesTargets [(0, 100), (1, 200), (2, 50)] [(0, 150), (1, 150)] :=
  Resize_brings_each_pool_to_target [(0, 100), (1, 200), (2, 50)] [(0, 150), (1, 150)]
    (by decide) (by decide) (by decide)

/-- C28 as stated fails: a pool of size 0 named with the target `2^63 + 5`, which does
not fit a signed 64-bit integer, is the object of a shrink and stays at size 0. -/
theorem Resize_misses_target_above_int64 :
    (∀ e ∈ [((0 : PoolId), 2 ^ 63 + 5)], e.1 ∈ ([(0, 0)] : Pools).map Prod.fst) ∧
      (Resize (poolSize [(0, 0)]) [(0, 2 ^ 63 + 5)]).1 = [PoolOp.shrinkPool 0 (2 ^ 63 - 5)] ∧
      poolSize (applyOps [(0, 0)] (Resize (poolSize [(0, 0)]) [(0, 2 ^ 63 + 5)]).1) 0 = 0 ∧
      ¬ ReachesTargets [(0, 0)] [(0, 2 ^ 63 + 5)] := by
  have h0 : poolSize (applyOps [(0, 0)] (Resize (poolSize [(0, 0)]) [(0, 2 ^ 63 + 5)]).1) 0 = 0 := by
    decide
  refine ⟨by decide, by decide, h0, fun h => ?_⟩
  have h1 := h.1 (0, 2 ^ 63 + 5) (List.mem_singleton.mpr rfl)
  rw [h0] at h1
  exact absurd h1 (by decide)

/-! ## A pool whose spline cannot be built -/

namespace PerformanceMaximization

theorem poolConfigs_eq_none (config : PoolId → PoolStatus → Option PoolConfig)
    (p : PoolId × PoolStatus) (husable : isNew p.2 = false) (hnone : config p.1 p.2 = none) :
    ∀ ps : List (PoolId × PoolStatus), p ∈ ps → poolConfigs config ps = none := by
  intro ps
  induction ps with
  | nil => intro h; exact absurd h (List.not_mem_nil _)
  | cons q rest ih =>
    intro h
    rcases List.mem_cons.mp h with rfl | hrest
    · simp only [poolConfigs, husable, hnone]
      simp
    · simp only [poolConfigs, ih hrest]
      split
      · rfl
      · split
        · rename_i heq
          exact absurd heq (by simp)
        · rfl

theorem cacheConfigs_eq_none (config : Address → PoolId → PoolStatus → Option PoolConfig)
    (c : Address × CacheStatus) (hnone : poolConfigs (config c.1) c.2.m_pools = none) :
    ∀ all : List (Address × CacheStatus), c ∈ all → cacheConfigs config all = none := by
  intro all
  induction all with
  | nil => intro h; exact absurd h (List.not_mem_nil _)
  | cons d rest ih =>
    intro h
    rcases List.mem_cons.mp h with rfl | hrest
    · simp only [cacheConfigs, hnone]
    · simp only [cacheConfigs, ih hrest]
      split
      · rename_i heq
        exact absurd heq (by simp)
      · rfl

/-- The points handed to the spline are those with a positive miss ratio: when the MRC
has none, the spline is built on no point at all. -/
theorem poolConfig_eq_none_of_flat (pm : PerformanceMaximization) (ub : Option ℚ → Nat)
    (fit : List ℚ → List ℚ → Option Spline) (all : List (Address × CacheStatus))
    (history : MetricsHistory) (cacheId : Address) (poolId : PoolId) (poolStatus : PoolStatus)
    (hflat : ∀ e ∈ poolStatus.m_MRC, e.2 ≤ 0) (hfit : fit [] [] = none) :
    poolConfig pm ub fit all history cacheId poolId poolStatus = none := by
  have hpoints : (poolStatus.m_MRC.filter fun e => decide (0 < e.2)) = [] := by
    rw [List.filter_eq_nil_iff]
    intro e he
    simp only [decide_eq_true_eq, not_lt]
    exact hflat e he
  unfold poolConfig
  simp only [hpoints, List.map_nil, hfit]
  rfl

end PerformanceMaximization

/-- C26: a pool whose MRC has at least 3 points is never left out of the Context.  The
length test of Step 4 is made on the MRC as observed; the points without a positive
miss ratio are removed afterwards, and the spline is built on what is left with nothing
around the construction to handle its failure.  When the construction does not return
for the pool (as for an MRC without any positive miss ratio, where it is given no
point, if the library refuses that), no Context is built and the tick emits no plan
for any pool; when the tick does build a Context, the pool is in it. -/
theorem unusable_curve_is_never_dropped (pm : PerformanceMaximization) (ub : Option ℚ → Nat)
    (fit : List ℚ → List ℚ → Option Spline) (all : List (Address × CacheStatus))
    (c : Address × CacheStatus) (hc : c ∈ all) (p : PoolId × PoolStatus)
    (hp : p ∈ c.2.m_pools) (husable : PerformanceMaximization.isNew p.2 = false) :
    (PerformanceMaximization.poolConfig pm ub fit all
        (PerformanceMaximization.updateHistory ub pm.m_poolAvgMetricsHistory all)
        c.1 p.1 p.2 = none →
      PerformanceMaximization.context pm ub fit all = none ∧
        ¬ ∃ cacheResizes, PerformanceMaximization.Emits pm ub fit all cacheResizes) ∧
    ((∀ e ∈ p.2.m_MRC, e.2 ≤ 0) → fit [] [] = none →
      PerformanceMaximization.context pm ub fit all = none ∧
        ¬ ∃ cacheResizes, PerformanceMaximization.Emits pm ub fit all cacheResizes) ∧
    (∀ ctx, PerformanceMaximization.context pm ub fit all = some ctx →
      ∃ e ∈ ctx.m_cacheConfigs, e.1 = c.1 ∧ ∃ q ∈ e.2.m_poolConfigs, q.1 = p.1) := by
  have hstop : PerformanceMaximization.poolConfig pm ub fit all
      (PerformanceMaximization.updateHistory ub pm.m_poolAvgMetricsHistory all)
      c.1 p.1 p.2 = none →
      PerformanceMaximization.context pm ub fit all = none ∧
        ¬ ∃ cacheResizes, PerformanceMaximization.Emits pm ub fit all cacheResizes := by
    intro hnone
    have hctx : PerformanceMaximization.context pm ub fit all = none := by
      unfold PerformanceMaximization.context
      rw [PerformanceMaximization.cacheConfigs_eq_none _ c
        (PerformanceMaximization.poolConfigs_eq_none _ p husable hnone _ hp) all hc]
      rfl
    refine ⟨hctx, ?_⟩
    rintro ⟨cacheResizes, ctx, final, hsome, -⟩
    rw [hctx] at hsome
    exact absurd hsome (by simp)
  refine ⟨hstop, fun hflat hfit => hstop ?_, fun ctx hctx => ?_⟩
  · exact PerformanceMaximization.poolConfig_eq_none_of_flat pm ub fit all _ c.1 p.1 p.2 hflat hfit
  · exact PerformanceMaximization.has_pool_of_keys all ctx
      (PerformanceMaximization.context_keys pm ub fit all ctx hctx).1 c hc p hp husable

theorem unusable_curve_is_never_dropped_witness :
    (PerformanceMaximization.context freshController (fun _ => 0) strictFit oneFlatCurve = none ∧
      ¬ ∃ cacheResizes,
        PerformanceMaximization.Emits freshController (fun _ => 0) strictFit oneFlatCurve
          cacheResizes) ∧
    (PerformanceMaximization.context freshController (fun _ => 0) flatFit oneFlatCurve).isSome
      = true ∧
    (∀ ctx, PerformanceMaximization.context freshController (fun _ => 0) flatFit oneFlatCurve
        = some ctx →
      ∃ e ∈ ctx.m_cacheConfigs, e.1 = "C" ∧ ∃ q ∈ e.2.m_poolConfigs, q.1 = 1) :=
  ⟨(unusable_curve_is_never_dropped freshController (fun _ => 0) strictFit oneFlatCurve
      ("C", ⟨1000, 1, [(0, usablePool 500 0 80), (1, flatCurvePool 300)]⟩)
      (List.mem_cons_self _ _) (1, flatCurvePool 300)
      (List.mem_cons_of_mem _ (List.mem_cons_self _ _)) (by decide)).2.1
      (by
        intro e he
        simp only [flatCurvePool, List.mem_cons, List.mem_singleton, List.not_mem_nil,
          or_false] at he
        rcases he with rfl | rfl | rfl <;> exact le_refl _)
      rfl,
    by decide,
    (unusable_curve_is_never_dropped freshController (fun _ => 0) flatFit oneFlatCurve
      ("C", ⟨1000, 1, [(0, usablePool 500 0 80), (1, flatCurvePool 300)]⟩)
      (List.mem_cons_self _ _) (1, flatCurvePool 300)
      (List.mem_cons_of_mem _ (List.mem_cons_self _ _)) (by decide)).2.2⟩

/-! ## The pools selected by `Context::step` -/

theorem randomUniformInt_nonneg (max : Int) (draw : Nat) : 0 ≤ randomUniformInt max draw := by
  unfold randomUniformInt
  split
  · exact le_refl _
  · exact Int.ofNat_nonneg _

/-- The second pool index drawn within the cache of the first differs from the first
index as soon as the cache holds two pools. -/
theorem shifted_index_ne (n p k : Int) (hp0 : 0 ≤ p) (hpn : p < n) (hk0 : 0 ≤ k)
    (hkn : k < n - 1) : (p + 1 + k) % n ≠ p := by
  intro h
  have hdiv := Int.emod_add_ediv (p + 1 + k) n
  rw [h] at hdiv
  have hq : n * ((p + 1 + k) / n) = 1 + k := by omega
  rcases le_or_lt ((p + 1 + k) / n) 0 with hle | hlt
  · have : n * ((p + 1 + k) / n) ≤ 0 :=
      Int.mul_nonpos_of_nonneg_of_nonpos (by omega) hle
    omega
  · have : n * 1 ≤ n * ((p + 1 + k) / n) :=
      Int.mul_le_mul_of_nonneg_left (by omega) (by omega)
    omega

/-- When `Context::step` selects the same pool twice, both cache draws fell on one
cache and that cache holds exactly one pool. -/
theorem Context.selection_same_pool (ctx : Context) (r : StepDraws)
    (s : (Nat × Nat) × (Nat × Nat)) (h : ctx.selection r = some s) (hsame : s.1 = s.2) :
    ∃ cache, ctx.m_cacheConfigs[s.1.1]? = some cache ∧ cache.2.m_poolConfigs.length = 1 := by
  unfold Context.selection at h
  simp only at h
  split at h
  · rename_i cache1 cache2 hc1 hc2
    split at h
    · exact absurd h (by simp)
    · rename_i hcond
      split at h
      · rw [Option.some.injEq] at h
        subst h
        simp only [Prod.mk.injEq] at hsame
        obtain ⟨hc, hp⟩ := hsame
        have hcc : randomUniformInt ctx.m_cacheConfigs.length r.cache1 =
            randomUniformInt ctx.m_cacheConfigs.length r.cache2 := by
          have h1 := randomUniformInt_nonneg ctx.m_cacheConfigs.length r.cache1
          have h2 := randomUniformInt_nonneg ctx.m_cacheConfigs.length r.cache2
          omega
        have hcache : cache1 = cache2 := by
          rw [hc, hc2] at hc1
          exact (Option.some.inj hc1).symm
        subst hcache
        refine ⟨cache1, hc1, ?_⟩
        have hlen : cache1.2.m_poolConfigs.length ≠ 0 := fun h0 => hcond ⟨hcc, h0⟩
        by_contra hne
        have hpos : (0 : Int) < (cache1.2.m_poolConfigs.length : Int) := by omega
        have hpos' : (0 : Int) < (cache1.2.m_poolConfigs.length : Int) - 1 := by omega
        have hp1 := randomUniformInt_lt hpos r.pool1
        have hk := randomUniformInt_lt hpos' r.pool2
        rw [if_neg (not_not.mpr hcc)] at hp
        have hnn := Int.emod_nonneg
          (randomUniformInt cache1.2.m_poolConfigs.length r.pool1 + 1 +
            randomUniformInt ((cache1.2.m_poolConfigs.length : Int) - 1) r.pool2)
          (ne_of_gt hpos)
        exact shifted_index_ne _ _ _ hp1.1 hp1.2 hk.1 hk.2 (by omega)
      · exact absurd h (by simp)
  · exact absurd h (by simp)

/-- The two assignments of `Context::step` for an amount that fits: on two different
pools the first loses the amount and the second gains it; on one and the same pool the
pool is left with its size. -/
theorem Context.trade_spec (ctx : Context) (i₁ j₁ i₂ j₂ : Nat)
    (pool1 pool2 pool2' : PoolConfig) (d : Nat)
    (h₁ : ctx.poolAt i₁ j₁ = some pool1) (h₂ : ctx.poolAt i₂ j₂ = some pool2)
    (hd1 : d ≤ pool1.m_optimalSize) (hu1 : pool1.m_optimalSize < 2 ^ 64)
    (hd2 : pool2.m_optimalSize + d < 2 ^ 64)
    (h₂' : (ctx.setOptimalSize i₁ j₁ (pool1.m_optimalSize - d)).poolAt i₂ j₂ = some pool2') :
    ((i₁, j₁) ≠ (i₂, j₂) →
      (ctx.setOptimalSize i₁ j₁ (pool1.m_optimalSize - d)).setOptimalSize i₂ j₂
          ((pool2'.m_optimalSize + d) % 2 ^ 64) =
        (ctx.setOptimalSize i₁ j₁ (pool1.m_optimalSize - d)).setOptimalSize i₂ j₂
          (pool2.m_optimalSize + d)) ∧
    ((i₁, j₁) = (i₂, j₂) →
      ((ctx.setOptimalSize i₁ j₁ (pool1.m_optimalSize - d)).setOptimalSize i₂ j₂
          ((pool2'.m_optimalSize + d) % 2 ^ 64)).poolAt i₁ j₁ = some pool1) := by
  have hp2eq := h₂'
  rw [Context.poolAt_setOptimalSize, h₂, Option.map_some', Option.some.injEq] at hp2eq
  refine ⟨fun hne => ?_, fun heq => ?_⟩
  · simp only [ne_eq, Prod.mk.injEq] at hne
    rw [if_neg hne] at hp2eq
    subst hp2eq
    congr 1
    omega
  · simp only [Prod.mk.injEq] at heq
    obtain ⟨hi, hj⟩ := heq
    subst hi hj
    rw [if_pos ⟨rfl, rfl⟩] at hp2eq
    have hpp : pool1 = pool2 := by
      rw [h₂] at h₁
      exact (Option.some.inj h₁).symm
    subst hpp
    subst hp2eq
    simp only
    have hv2 : (pool1.m_optimalSize - d + d) % 2 ^ 64 = pool1.m_optimalSize := by omega
    rw [hv2, Context.poolAt_setOptimalSize, h₂', Option.map_some', if_pos ⟨rfl, rfl⟩]

/-- A call of `Context::step` on a context within its bounds: the two selected pools,
and the amount moved from the first to the second. -/
theorem Context.step_trade (ctx next : Context) (r : StepDraws) (hctx : ctx.InBounds)
    (h : ctx.step r = some next) :
    ∃ s pool1 pool2, ctx.selection r = some s ∧ ctx.poolAt s.1.1 s.1.2 = some pool1 ∧
      ctx.poolAt s.2.1 s.2.2 = some pool2 ∧
      (min ((pool1.m_optimalSize : Int) - pool1.m_lowerBound)
          ((pool2.m_upperBound : Int) - pool2.m_optimalSize) ≤ 0 → next = ctx) ∧
      (next = ctx ∨ ∃ d : Nat,
        (d : Int) < min ((pool1.m_optimalSize : Int) - pool1.m_lowerBound)
          ((pool2.m_upperBound : Int) - pool2.m_optimalSize) ∧
        (s.1 ≠ s.2 → next = (ctx.setOptimalSize s.1.1 s.1.2 (pool1.m_optimalSize - d)).setOptimalSize
          s.2.1 s.2.2 (pool2.m_optimalSize + d)) ∧
        (s.1 = s.2 → next.poolAt s.1.1 s.1.2 = some pool1)) := by
  unfold Context.step at h
  simp only at h
  split at h
  · rename_i cache1 cache2 hc1 hc2
    split at h
    · exact absurd h (by simp)
    · rename_i hcond
      split at h
      · rename_i pool1 pool2 hp1 hp2
        have hsel : ctx.selection r = some
            (((randomUniformInt ctx.m_cacheConfigs.length r.cache1).toNat,
              (randomUniformInt cache1.2.m_poolConfigs.length r.pool1).toNat),
             ((randomUniformInt ctx.m_cacheConfigs.length r.cache2).toNat,
              (if randomUniformInt ctx.m_cacheConfigs.length r.cache1 ≠
                  randomUniformInt ctx.m_cacheConfigs.length r.cache2 then
                randomUniformInt cache2.2.m_poolConfigs.length r.pool2
              else
                (randomUniformInt cache1.2.m_poolConfigs.length r.pool1 + 1 +
                  randomUniformInt ((cache2.2.m_poolConfigs.length : Int) - 1) r.pool2) %
                    (cache2.2.m_poolConfigs.length : Int)).toNat)) := by
          unfold Context.selection
          simp only [hc1, hc2, if_neg hcond, hp1, hp2]
        refine ⟨_, pool1, pool2, hsel, hp1, hp2, ?_⟩
        obtain ⟨b1lo, b1hi, b1u⟩ := ctx.inBounds_of_poolAt _ _ pool1 hctx hp1
        obtain ⟨b2lo, b2hi, b2u⟩ := ctx.inBounds_of_poolAt _ _ pool2 hctx hp2
        have hM1 : (pool1.m_optimalSize + (2 ^ 64 - pool1.m_lowerBound % 2 ^ 64)) % 2 ^ 64 =
            pool1.m_optimalSize - pool1.m_lowerBound := by omega
        have hM2 : (pool2.m_upperBound + (2 ^ 64 - pool2.m_optimalSize % 2 ^ 64)) % 2 ^ 64 =
            pool2.m_upperBound - pool2.m_optimalSize := by omega
        rw [hM1, hM2] at h
        have hmin1 : min (pool1.m_optimalSize - pool1.m_lowerBound)
            (pool2.m_upperBound - pool2.m_optimalSize) ≤
              pool1.m_optimalSize - pool1.m_lowerBound := min_le_left _ _
        have hmin2 : min (pool1.m_optimalSize - pool1.m_lowerBound)
            (pool2.m_upperBound - pool2.m_optimalSize) ≤
              pool2.m_upperBound - pool2.m_optimalSize := min_le_right _ _
        split at h
        · rename_i hpos
          have hle := toInt32_le_of_pos hpos
          have hd := randomUniformInt_lt hpos r.delta
          generalize randomUniformInt (toInt32 (min (pool1.m_optimalSize - pool1.m_lowerBound)
            (pool2.m_upperBound - pool2.m_optimalSize))) r.delta = δ at h hd
          split at h
          · rename_i pool2' hp2'
            rw [Option.some.injEq] at h
            have hd1 : δ.toNat < pool1.m_optimalSize - pool1.m_lowerBound := by omega
            have hd2 : δ.toNat < pool2.m_upperBound - pool2.m_optimalSize := by omega
            have hv1 : (pool1.m_optimalSize + (2 ^ 64 - δ.toNat)) % 2 ^ 64 =
                pool1.m_optimalSize - δ.toNat := by omega
            rw [hv1] at h hp2'
            have hspec := ctx.trade_spec _ _ _ _ pool1 pool2 pool2' δ.toNat hp1 hp2 (by omega)
              (by omega) (by omega) hp2'
            refine ⟨fun hmin => ?_, Or.inr ⟨δ.toNat, lt_min (by omega) (by omega), fun hne => ?_,
              fun heq => ?_⟩⟩
            · exfalso
              rcases min_le_iff.mp hmin with h0 | h0 <;> omega
            · rw [← h]
              exact hspec.1 hne
            · rw [← h]
              exact hspec.2 heq
          · exact absurd h (by simp)
        · rw [Option.some.injEq] at h
          exact ⟨fun _ => h.symm, Or.inl h.symm⟩
      · exact absurd h (by simp)
  · exact absurd h (by simp)

/-- C27: `Context::step` may select one pool twice although the context holds two
pools.  The second pool index is `(poolIdx1 + 1 + randomUniformInt(size - 1)) % size`
when both cache draws fall on one cache; in a cache of one pool that is `poolIdx1`
again.  In a context of two caches with one pool each, the draws that name the first
cache twice select its pool twice, and the step leaves every size as it was.  The same
pool is selected twice only in that situation (one cache drawn twice, holding exactly
one pool).  On a context within its bounds the step otherwise is as stated: nothing
changes when `maxDelta <= 0`; else either nothing changes or some `d < maxDelta` is
taken from the first pool and given to the second. -/
theorem step_may_select_one_pool_twice :
    (twoSinglePoolCaches.poolCount = 2 ∧
      (∀ pool1 pool2 delta : Nat,
        twoSinglePoolCaches.selection ⟨0, 0, pool1, pool2, delta⟩ = some ((0, 0), (0, 0))) ∧
      (twoSinglePoolCaches.step ⟨0, 0, 0, 0, 50⟩).map
        (fun c => (c.optimalSize? "A" 0, c.optimalSize? "B" 0)) = some (some 500, some 500)) ∧
    (∀ (ctx : Context) (r : StepDraws) (s : (Nat × Nat) × (Nat × Nat)),
      ctx.selection r = some s → s.1 = s.2 →
        ∃ cache, ctx.m_cacheConfigs[s.1.1]? = some cache ∧ cache.2.m_poolConfigs.length = 1) ∧
    (∀ (ctx next : Context) (r : StepDraws), ctx.InBounds → ctx.step r = some next →
      ∃ s pool1 pool2, ctx.selection r = some s ∧ ctx.poolAt s.1.1 s.1.2 = some pool1 ∧
        ctx.poolAt s.2.1 s.2.2 = some pool2 ∧
        (min ((pool1.m_optimalSize : Int) - pool1.m_lowerBound)
            ((pool2.m_upperBound : Int) - pool2.m_optimalSize) ≤ 0 → next = ctx) ∧
        (next = ctx ∨ ∃ d : Nat,
          (d : Int) < min ((pool1.m_optimalSize : Int) - pool1.m_lowerBound)
            ((pool2.m_upperBound : Int) - pool2.m_optimalSize) ∧
          (s.1 ≠ s.2 →
            next = (ctx.setOptimalSize s.1.1 s.1.2 (pool1.m_optimalSize - d)).setOptimalSize
              s.2.1 s.2.2 (pool2.m_optimalSize + d)) ∧
          (s.1 = s.2 → next.poolAt s.1.1 s.1.2 = some pool1))) := by
  refine ⟨⟨by decide, fun pool1 pool2 delta => ?_, by decide⟩,
    Context.selection_same_pool, Context.step_trade⟩
  unfold Context.selection
  simp [twoSinglePoolCaches, randomUniformInt, Context.poolAt, Nat.mod_one]

theorem step_may_select_one_pool_twice_witness :
    twoSinglePoolCaches.InBounds ∧
      ∃ next, twoSinglePoolCaches.step ⟨0, 1, 0, 0, 50⟩ = some next ∧
        next.optimalSize? "A" 0 = some 450 ∧ next.optimalSize? "B" 0 = some 550 ∧
        ∃ s pool1 pool2, twoSinglePoolCaches.selection ⟨0, 1, 0, 0, 50⟩ = some s ∧
          twoSinglePoolCaches.poolAt s.1.1 s.1.2 = some pool1 ∧
          twoSinglePoolCaches.poolAt s.2.1 s.2.2 = some pool2 ∧
          (min ((pool1.m_optimalSize : Int) - pool1.m_lowerBound)
              ((pool2.m_upperBound : Int) - pool2.m_optimalSize) ≤ 0 →
            next = twoSinglePoolCaches) ∧
          (next = twoSinglePoolCaches ∨ ∃ d : Nat,
            (d : Int) < min ((pool1.m_optimalSize : Int) - pool1.m_lowerBound)
              ((pool2.m_upperBound : Int) - pool2.m_optimalSize) ∧
            (s.1 ≠ s.2 →
              next = (twoSinglePoolCaches.setOptimalSize s.1.1 s.1.2
                (pool1.m_optimalSize - d)).setOptimalSize s.2.1 s.2.2
                  (pool2.m_optimalSize + d)) ∧
            (s.1 = s.2 → next.poolAt s.1.1 s.1.2 = some pool1)) := by
  have hb : twoSinglePoolCaches.InBounds := by
    unfold Context.InBounds PoolConfig.InBounds twoSinglePoolCaches
    decide
  have hsome : twoSinglePoolCaches.step ⟨0, 1, 0, 0, 50⟩ =
      some ((twoSinglePoolCaches.setOptimalSize 0 0 450).setOptimalSize 1 0 550) := by
    rfl
  exact ⟨hb, _, hsome, by decide, by decide,
    step_may_select_one_pool_twice.2.2 twoSinglePoolCaches _ ⟨0, 1, 0, 0, 50⟩ hb hsome⟩

end Holpaca
